import Mathlib

/-!
# Metasequoia (MQO) parser and OBJ/MTL writer: a shallow embedding

The definitions follow `datatypes.go` and `convert_to_obj.go` function by
function and keep their names.

Conventions of the embedding.

* A Go `string` / `[]byte` is a `List Nat` of byte values (each below 256).
* `mqoState{pos, cur, data}` is kept as the two slices the readers ever look
  at: `pending = data[pos:cur]` and `rest = data[cur:]`.  The consumed prefix
  `data[:pos]` is never read again by any reader, `walk` moves bytes from
  `rest` to `pending`, and `commit` forgets `pending`.
* A scanner loop consumes at least one byte per iteration, so it is written
  by recursion on a counter started at `rest.length`; the counter reaching
  zero coincides with the end of input (`size == 0` in the source).
* The parser's `for { ... }` loops have no such bound in the source.  They
  take an explicit iteration budget and answer `Res.diverge` when the budget
  is used up while the loop is still running.
* A Go runtime panic (index out of range) is `Res.panic`.
* The Go library facts the parser relies on but the repository does not
  define (the Unicode letter/digit tables above Latin-1, `strconv.ParseFloat`
  and the `%f` verb) are fields of `Env`.
-/

namespace Mqo

/-! ## Go library models -/

/-- The bytes of an ASCII string literal. -/
def bytes (s : String) : List Nat := s.toList.map Char.toNat

/-- Go `utf8.RuneError`. -/
def RuneError : Nat := 0xFFFD

/-- Continuation byte test of `utf8.DecodeRune` (`locb <= b <= hicb`). -/
def isCont (b : Nat) : Bool := decide (0x80 ≤ b) && decide (b ≤ 0xBF)

/-- Go `utf8.DecodeRune`: the rune at the head of the slice and its width.
Width 0 only for the empty slice; an invalid or truncated encoding yields
`(RuneError, 1)`. -/
def decodeRune : List Nat → Nat × Nat
  | [] => (RuneError, 0)
  | p0 :: t =>
    if p0 < 0x80 then (p0, 1)
    else if p0 < 0xC2 then (RuneError, 1)
    else if p0 < 0xE0 then
      match t with
      | b1 :: _ =>
        if isCont b1 then ((p0 % 32) * 64 + b1 % 64, 2) else (RuneError, 1)
      | [] => (RuneError, 1)
    else if p0 < 0xF0 then
      match t with
      | b1 :: b2 :: _ =>
        let lo := if p0 = 0xE0 then 0xA0 else 0x80
        let hi := if p0 = 0xED then 0x9F else 0xBF
        if decide (lo ≤ b1) && decide (b1 ≤ hi) && isCont b2 then
          ((p0 % 16) * 4096 + (b1 % 64) * 64 + b2 % 64, 3)
        else (RuneError, 1)
      | _ => (RuneError, 1)
    else if p0 < 0xF5 then
      match t with
      | b1 :: b2 :: b3 :: _ =>
        let lo := if p0 = 0xF0 then 0x90 else 0x80
        let hi := if p0 = 0xF4 then 0x8F else 0xBF
        if decide (lo ≤ b1) && decide (b1 ≤ hi) && isCont b2 && isCont b3 then
          ((p0 % 8) * 262144 + (b1 % 64) * 4096 + (b2 % 64) * 64 + b3 % 64, 4)
        else (RuneError, 1)
      | _ => (RuneError, 1)
    else (RuneError, 1)

/-- Go `unicode.IsSpace`: the Latin-1 switch and the `White_Space` table. -/
def isSpace (r : Nat) : Bool :=
  (decide (9 ≤ r) && decide (r ≤ 13)) || r == 0x20 || r == 0x85 || r == 0xA0 ||
  r == 0x1680 || (decide (0x2000 ≤ r) && decide (r ≤ 0x200A)) || r == 0x2028 ||
  r == 0x2029 || r == 0x202F || r == 0x205F || r == 0x3000

/-- Letters of Latin-1 (`properties[r] & pLmask` in Go's `unicode`). -/
def latin1Letter (r : Nat) : Bool :=
  (decide (0x41 ≤ r) && decide (r ≤ 0x5A)) || (decide (0x61 ≤ r) && decide (r ≤ 0x7A)) ||
  r == 0xAA || r == 0xB5 || r == 0xBA ||
  (decide (0xC0 ≤ r) && decide (r ≤ 0xD6)) || (decide (0xD8 ≤ r) && decide (r ≤ 0xF6)) ||
  (decide (0xF8 ≤ r) && decide (r ≤ 0xFF))

/-- Library facts taken as parameters.  `F` stands for `float32`. -/
structure Env (F : Type) where
  /-- The table `unicode.Letter`, consulted above Latin-1 only. -/
  letterTable : Nat → Bool
  /-- The table `unicode.Digit`, consulted above Latin-1 only. -/
  digitTable : Nat → Bool
  /-- Result of `strconv.ParseFloat(word, 32)` as a `float32`; `none` when it
  returns an error. -/
  parseFloat : List Nat → Option F
  /-- The zero value of `float32`. -/
  zero : F
  /-- Rendering of a `float32` by the verb `%f`. -/
  formatFloat : F → List Nat

variable {F : Type}

/-- Go `unicode.IsLetter`. -/
def isLetter (env : Env F) (r : Nat) : Bool :=
  if r ≤ 0xFF then latin1Letter r else env.letterTable r

/-- Go `unicode.IsDigit`. -/
def isDigit (env : Env F) (r : Nat) : Bool :=
  if r ≤ 0xFF then decide (0x30 ≤ r) && decide (r ≤ 0x39) else env.digitTable r

/-- Value of a run of ASCII decimal digits, `none` if some byte is no digit. -/
def digitsValue : List Nat → Nat → Option Nat
  | [], acc => some acc
  | c :: t, acc =>
    if decide (0x30 ≤ c) && decide (c ≤ 0x39) then digitsValue t (acc * 10 + (c - 0x30))
    else none

/-- Go `strconv.Atoi` on a 64-bit platform: an optional sign, at least one
decimal digit, and a value that fits `int`; `none` when it returns an error. -/
def atoi (s : List Nat) : Option Int :=
  match s with
  | [] => none
  | c :: t =>
    let neg := c == 0x2D
    let ds := if c == 0x2D || c == 0x2B then t else s
    if ds.isEmpty then none
    else
      match digitsValue ds 0 with
      | none => none
      | some n =>
        let v : Int := if neg then -(n : Int) else (n : Int)
        if decide (-(2 : Int) ^ 63 ≤ v) && decide (v < (2 : Int) ^ 63) then some v else none

/-- The class `\s` of Go's `regexp` (`[\t\n\f\r ]`). -/
def reSpace (b : Nat) : Bool := b == 9 || b == 10 || b == 12 || b == 13 || b == 0x20

/-- The text up to the first `\s` byte and, if there is one, the text after it. -/
def cutAtSpace : List Nat → List Nat × Option (List Nat)
  | [] => ([], none)
  | b :: t =>
    if reSpace b then ([], some t)
    else ((b :: (cutAtSpace t).1), (cutAtSpace t).2)

/-- Go `whiteSpaceRegexp.Split(content, n)` for `n > 0`: cut at each of the
first `n - 1` matches of `\s`; the last piece is the unsplit remainder. -/
def whiteSpaceSplit : Nat → List Nat → List (List Nat)
  | 0, _ => []
  | 1, s => [s]
  | n + 2, s =>
    match cutAtSpace s with
    | (piece, none) => [piece]
    | (piece, some t) => piece :: whiteSpaceSplit (n + 1) t

/-! ## Data model (`datatypes.go`) -/

structure Material where
  Name : List Nat
  TextureMappingFile : List Nat
  deriving DecidableEq, Repr

structure Vertex (F : Type) where
  X : F
  Y : F
  Z : F
  deriving DecidableEq, Repr

/-- A face.  `VertexIndices` is the array `[4]int`, a list of length 4 here;
`TextureCoordinates` is `none` for the nil slice. -/
structure Face (F : Type) where
  VertexIndices : List Int
  MaterialIndex : Int
  TextureCoordinates : Option (List F)
  deriving DecidableEq, Repr

structure Object (F : Type) where
  Name : List Nat
  Vertices : List (Vertex F)
  Faces : List (Face F)
  deriving DecidableEq, Repr

structure Scene (F : Type) where
  Materials : List Material
  Objects : List (Object F)
  deriving DecidableEq, Repr

/-- Outcome of a run: a normal return, a Go runtime panic, or a loop that was
still running when the iteration budget ended. -/
inductive Res (α : Type) where
  | ok : α → Res α
  | panic : Res α
  | diverge : Res α
  deriving DecidableEq, Repr

/-- The scanner state: `pending = data[pos:cur]`, `rest = data[cur:]`. -/
structure mqoState where
  pending : List Nat
  rest : List Nat
  deriving DecidableEq, Repr

/-- A fresh `mqoState{0, 0, data}`. -/
def mqoState.init (data : List Nat) : mqoState := ⟨[], data⟩

def mqoState.getRune (state : mqoState) : Nat × Nat := decodeRune state.rest

def mqoState.walk (state : mqoState) (size : Nat) : mqoState :=
  ⟨state.pending ++ state.rest.take size, state.rest.drop size⟩

def mqoState.commit (state : mqoState) : mqoState := ⟨[], state.rest⟩

/-! ## Scanner -/

def skipSpaceLoop : Nat → mqoState → mqoState
  | 0, state => state.commit
  | n + 1, state =>
    let r := state.getRune.1
    let size := state.getRune.2
    if !isSpace r || size == 0 then state.commit
    else skipSpaceLoop n (state.walk size)

def mqoState.skipSpace (state : mqoState) : mqoState :=
  skipSpaceLoop state.rest.length state

def readWordLoop (env : Env F) : Nat → mqoState → List Nat × mqoState
  | 0, state => (state.pending, state.commit)
  | n + 1, state =>
    let r := state.getRune.1
    let size := state.getRune.2
    if isSpace r || size == 0 then (state.pending, state.commit)
    else if !isLetter env r && !isDigit env r then
      let state := if state.pending.isEmpty then state.walk size else state
      (state.pending, state.commit)
    else readWordLoop env n (state.walk size)

def mqoState.readWord (env : Env F) (state : mqoState) : List Nat × mqoState :=
  let state := state.skipSpace
  readWordLoop env state.rest.length state

def readCharsLoop (validChars : List Nat) : Nat → mqoState → List Nat × mqoState
  | 0, state => (state.pending, state.commit)
  | n + 1, state =>
    let r := state.getRune.1
    let size := state.getRune.2
    if !validChars.contains r || size == 0 then (state.pending, state.commit)
    else readCharsLoop validChars n (state.walk size)

/-- The argument `validChars` is the list of runes of the Go string. -/
def mqoState.readChars (state : mqoState) (validChars : List Nat) : List Nat × mqoState :=
  let state := state.skipSpace
  readCharsLoop validChars state.rest.length state

def readToLoop (char : Nat) : Nat → mqoState → List Nat × mqoState
  | 0, state => (state.pending, state.commit)
  | n + 1, state =>
    let r := state.getRune.1
    let size := state.getRune.2
    if r == char || size == 0 then (state.pending, state.commit)
    else readToLoop char n (state.walk size)

def mqoState.readTo (state : mqoState) (char : Nat) : List Nat × mqoState :=
  let state := state.skipSpace
  readToLoop char state.rest.length state

/-- The end of `readLine`: `word[len(word)-1]` panics on an empty `word`. -/
def readLineFinish (state : mqoState) : Res (List Nat × mqoState) :=
  match state.pending.getLast? with
  | none => Res.panic
  | some c =>
    let word := if c == 0x0D then state.pending.dropLast else state.pending
    Res.ok (word, state.commit)

def readLineLoop : Nat → mqoState → Res (List Nat × mqoState)
  | 0, state => readLineFinish state
  | n + 1, state =>
    let r := state.getRune.1
    let size := state.getRune.2
    if r == 0x0A || size == 0 then readLineFinish state
    else readLineLoop n (state.walk size)

def mqoState.readLine (state : mqoState) : Res (List Nat × mqoState) :=
  readLineLoop state.rest.length state

def skipToEndBracketLoop : Nat → Int → mqoState → mqoState
  | 0, _, state => state.commit
  | n + 1, bracketSize, state =>
    let r := state.getRune.1
    let size := state.getRune.2
    let bracketSize := if r == 0x7B then bracketSize + 1 else bracketSize
    let bracketSize := if r == 0x7D then bracketSize - 1 else bracketSize
    if r == 0x7D && bracketSize == 0 then (state.walk size).commit
    else if size == 0 then state.commit
    else skipToEndBracketLoop n bracketSize (state.walk size)

def mqoState.skipToEndBracket (state : mqoState) (bracketSize : Int) : mqoState :=
  skipToEndBracketLoop state.rest.length bracketSize state

/-! ## Token readers -/

def digitChars : List Nat := bytes "0123456789"

def floatChars : List Nat := bytes "0123456789.-"

/-- The error result is `none`.  The word holds digits only, so the value is
never negative. -/
def mqoState.readPositiveInteger (state : mqoState) : Option Int × mqoState :=
  let w := state.readChars digitChars
  (atoi w.1, w.2)

def mqoState.readFloat (env : Env F) (state : mqoState) : Option F × mqoState :=
  let w := state.readChars floatChars
  (env.parseFloat w.1, w.2)

/-- The error result is `none`; the end-of-list result is `some ([], [])`. -/
def mqoState.readParentheticArg (env : Env F) (state : mqoState) :
    Option (List Nat × List Nat) × mqoState :=
  let name := state.readWord env
  if name.1 = [] then (some ([], []), name.2)
  else
    let open_ := name.2.readChars (bytes "(")
    if open_.1 = [] then (none, open_.2)
    else
      let content := open_.2.readTo 0x29
      let close := content.2.readWord env
      if close.1 = [] then (none, close.2)
      else (some (name.1, content.1), close.2)

def mqoState.readQuote (env : Env F) (state : mqoState) : Option (List Nat) × mqoState :=
  let startQuote := state.readWord env
  if startQuote.1 ≠ [0x22] ∧ startQuote.1 ≠ [0x27] then (none, startQuote.2)
  else
    let quoteContent := startQuote.2.readTo (startQuote.1.headD 0)
    let endQuote := quoteContent.2.readWord env
    if endQuote.1 ≠ startQuote.1 then (none, endQuote.2)
    else (some quoteContent.1, endQuote.2)

/-! ## MQO parser -/

def Res.bind {α β : Type} (x : Res α) (f : α → Res β) : Res β :=
  match x with
  | Res.ok a => f a
  | Res.panic => Res.panic
  | Res.diverge => Res.diverge

/-- Returns the material and whether an error is returned. -/
def parseMaterialTex (env : Env F) (m : Material) (content : List Nat) : Material × Bool :=
  let file := (mqoState.init content).readQuote env
  match file.1 with
  | none => (m, true)
  | some file => ({ m with TextureMappingFile := file }, false)

/-- The map `materialArgumentFuncs`; `none` is the nil function of a missing key. -/
def materialArgumentFuncs (env : Env F) (name : List Nat) :
    Option (Material → List Nat → Material × Bool) :=
  if name = bytes "tex" then some (parseMaterialTex env) else none

/-- The argument loop of `parseMaterial`. -/
def parseMaterialLoop (env : Env F) : Nat → Material → mqoState → Res (Material × mqoState)
  | 0, _, _ => Res.diverge
  | n + 1, m, state =>
    let arg := state.skipSpace.readParentheticArg env
    match arg.1 with
    | none => Res.ok (m, arg.2)
    | some (name, content) =>
      if name = [] then Res.ok (m, arg.2)
      else
        match materialArgumentFuncs env name with
        | none => parseMaterialLoop env n m arg.2
        | some materialFunc =>
          let r := materialFunc m content
          if r.2 then Res.ok (r.1, arg.2) else parseMaterialLoop env n r.1 arg.2

def Material.parseMaterial (env : Env F) (fuel : Nat) (m : Material) (state : mqoState) :
    Res (Material × mqoState) :=
  let name := state.readQuote env
  match name.1 with
  | none => Res.ok (m, name.2)
  | some name' => parseMaterialLoop env fuel { m with Name := name' } name.2

/-- The entry loop of `parseMaterials`: `k` entries remain, the next is entry `i`. -/
def parseMaterialsLoop (env : Env F) (fuel : Nat) :
    Nat → Nat → List Material → mqoState → Res (List Material × mqoState)
  | 0, _, materials, state => Res.ok (materials, state)
  | k + 1, i, materials, state =>
    state.skipSpace.readLine.bind fun line =>
      (Material.parseMaterial env fuel ⟨[], []⟩ (mqoState.init line.1)).bind fun material =>
        parseMaterialsLoop env fuel k (i + 1) (materials.set i material.1) line.2

/-- Allocation by `make` is taken to succeed. -/
def Scene.parseMaterials (env : Env F) (fuel : Nat) (s : Scene F) (state : mqoState) :
    Res (Scene F × mqoState) :=
  let numMaterials := state.skipSpace.readPositiveInteger
  match numMaterials.1 with
  | none => Res.ok (s, numMaterials.2)
  | some num =>
    let word := numMaterials.2.readWord env
    if word.1 ≠ bytes "\x7b" then Res.ok (s, word.2)
    else
      (parseMaterialsLoop env fuel num.toNat 0 (List.replicate num.toNat ⟨[], []⟩) word.2).bind
        fun r => Res.ok ({ s with Materials := r.1 }, r.2)

/-- The loop of `parseFaceVertices` over the fields `spl[i:]`. -/
def parseFaceVerticesLoop : List (List Nat) → Nat → Face F → Face F
  | [], _, f => f
  | field :: spl, i, f =>
    match atoi field with
    | none => parseFaceVerticesLoop spl (i + 1) f
    | some num =>
      parseFaceVerticesLoop spl (i + 1) { f with VertexIndices := f.VertexIndices.set i num }

/-- Returns the face and whether an error is returned. -/
def parseFaceVertices (f : Face F) (numVertices : Int) (content : List Nat) :
    Res (Face F × Bool) :=
  let spl := whiteSpaceSplit 4 content
  if (spl.length : Int) ≠ numVertices then Res.ok (f, true)
  else Res.ok (parseFaceVerticesLoop spl 0 f, false)

def parseFaceMaterial (f : Face F) (_numVertices : Int) (content : List Nat) :
    Res (Face F × Bool) :=
  let index := (mqoState.init content).readPositiveInteger
  match index.1 with
  | none => Res.ok (f, true)
  | some index => Res.ok ({ f with MaterialIndex := index }, false)

/-- The loop of `parseFaceUvCoordinates`: `k` coordinates remain, the next
is `processedCoordinate`. -/
def parseFaceUvCoordinatesLoop (env : Env F) :
    Nat → Nat → List F → mqoState → List F × Bool
  | 0, _, coords, _ => (coords, false)
  | k + 1, processedCoordinate, coords, faceState =>
    let coordinate := faceState.skipSpace.readFloat env
    match coordinate.1 with
    | none => (coords, true)
    | some c =>
      parseFaceUvCoordinatesLoop env k (processedCoordinate + 1)
        (coords.set processedCoordinate c) coordinate.2

/-- The product `numVertices*2` is a 64-bit `int`; `make` panics on a negative
length and is otherwise taken to succeed. -/
def parseFaceUvCoordinates (env : Env F) (f : Face F) (numVertices : Int)
    (content : List Nat) : Res (Face F × Bool) :=
  let len : Int := (numVertices * 2 + 2 ^ 63) % 2 ^ 64 - 2 ^ 63
  if len < 0 then Res.panic
  else
    let r := parseFaceUvCoordinatesLoop env len.toNat 0 (List.replicate len.toNat env.zero)
      (mqoState.init content)
    Res.ok ({ f with TextureCoordinates := some r.1 }, r.2)

/-- The map `faceArgumentFuncs`; `none` is the nil function of a missing key. -/
def faceArgumentFuncs (env : Env F) (name : List Nat) :
    Option (Face F → Int → List Nat → Res (Face F × Bool)) :=
  if name = bytes "V" then some parseFaceVertices
  else if name = bytes "M" then some parseFaceMaterial
  else if name = bytes "UV" then some (parseFaceUvCoordinates env)
  else none

/-- The argument loop of `parseFaceLine`. -/
def parseFaceLineLoop (env : Env F) (numVertices : Int) :
    Nat → Face F → mqoState → Res (Face F × mqoState)
  | 0, _, _ => Res.diverge
  | n + 1, f, state =>
    let arg := state.skipSpace.readParentheticArg env
    match arg.1 with
    | none => Res.ok (f, arg.2)
    | some (name, content) =>
      if name = [] then Res.ok (f, arg.2)
      else
        match faceArgumentFuncs env name with
        | none => parseFaceLineLoop env numVertices n f arg.2
        | some faceFunc =>
          (faceFunc f numVertices content).bind fun r =>
            if r.2 then Res.ok (r.1, arg.2) else parseFaceLineLoop env numVertices n r.1 arg.2

def Face.parseFaceLine (env : Env F) (fuel : Nat) (f : Face F) (state : mqoState) :
    Res (Face F × mqoState) :=
  let numVertices := state.skipSpace.readPositiveInteger
  match numVertices.1 with
  | none => Res.ok (f, numVertices.2)
  | some num => parseFaceLineLoop env num fuel f numVertices.2

/-- The zero value `Face{}` left in a slot by `make`. -/
def Face.zero : Face F := ⟨[0, 0, 0, 0], 0, none⟩

/-- The face literal of `parseFaces`: all fields at their sentinel. -/
def Face.sentinel : Face F := ⟨[-1, -1, -1, -1], -1, none⟩

/-- The entry loop of `parseFaces`: `k` entries remain, the next is entry `i`. -/
def parseFacesLoop (env : Env F) (fuel : Nat) :
    Nat → Nat → List (Face F) → mqoState → Res (List (Face F) × mqoState)
  | 0, _, faces, state => Res.ok (faces, state)
  | k + 1, i, faces, state =>
    state.skipSpace.readLine.bind fun line =>
      if line.1 = [] then Res.ok (faces, line.2)
      else
        (Face.parseFaceLine env fuel Face.sentinel (mqoState.init line.1)).bind fun face =>
          parseFacesLoop env fuel k (i + 1) (faces.set i face.1) line.2

def Object.parseFaces (env : Env F) (fuel : Nat) (o : Object F) (state : mqoState) :
    Res (Object F × mqoState) :=
  let numFaces := state.skipSpace.readPositiveInteger
  match numFaces.1 with
  | none => Res.ok (o, numFaces.2)
  | some num =>
    let word := numFaces.2.readWord env
    if word.1 ≠ bytes "\x7b" then Res.ok (o, word.2)
    else
      (parseFacesLoop env fuel num.toNat 0 (List.replicate num.toNat Face.zero) word.2).bind
        fun r => Res.ok ({ o with Faces := r.1 }, r.2)

/-- The entry loop of `parseVertices`: `k` entries remain, the next is entry
`i`.  The flag tells whether the loop ran to its end (`false`: an early
`return` on a malformed number). -/
def parseVerticesLoop (env : Env F) :
    Nat → Nat → List (Vertex F) → mqoState → List (Vertex F) × mqoState × Bool
  | 0, _, vertices, state => (vertices, state, true)
  | k + 1, i, vertices, state =>
    let x := state.skipSpace.readFloat env
    match x.1 with
    | none => (vertices, x.2, false)
    | some x' =>
      let y := x.2.skipSpace.readFloat env
      match y.1 with
      | none => (vertices, y.2, false)
      | some y' =>
        let z := y.2.skipSpace.readFloat env
        match z.1 with
        | none => (vertices, z.2, false)
        | some z' => parseVerticesLoop env k (i + 1) (vertices.set i ⟨x', y', z'⟩) z.2

def Object.parseVertices (env : Env F) (o : Object F) (state : mqoState) :
    Object F × mqoState :=
  let numVertices := state.skipSpace.readPositiveInteger
  match numVertices.1 with
  | none => (o, numVertices.2)
  | some num =>
    let word := numVertices.2.readWord env
    if word.1 ≠ bytes "\x7b" then (o, word.2)
    else
      let r := parseVerticesLoop env num.toNat 0
        (List.replicate num.toNat ⟨env.zero, env.zero, env.zero⟩) word.2
      if r.2.2 then ({ o with Vertices := r.1 }, (r.2.1.readWord env).2)
      else ({ o with Vertices := r.1 }, r.2.1)

/-- The word loop of `parseObject`. -/
def parseObjectLoop (env : Env F) : Nat → Object F → mqoState → Res (Object F × mqoState)
  | 0, _, _ => Res.diverge
  | n + 1, o, state =>
    let word := state.readWord env
    if word.1 = bytes "\x7d" then Res.ok (o, word.2)
    else if word.1 = bytes "vertex" then
      let r := Object.parseVertices env o word.2
      parseObjectLoop env n r.1 r.2
    else if word.1 = bytes "face" then
      (Object.parseFaces env n o word.2).bind fun r => parseObjectLoop env n r.1 r.2
    else parseObjectLoop env n o word.2

def Object.parseObject (env : Env F) (fuel : Nat) (o : Object F) (state : mqoState) :
    Res (Object F × mqoState) :=
  let word := state.skipSpace.readQuote env
  match word.1 with
  | none => Res.ok (o, word.2)
  | some name =>
    let word' := word.2.readWord env
    if word'.1 ≠ bytes "\x7b" then Res.ok ({ o with Name := name }, word'.2)
    else parseObjectLoop env fuel { o with Name := name } word'.2

/-- The two errors `parseMain` can return. -/
inductive ParseError where
  | missingDeclaration
  | unsupportedVersion
  deriving DecidableEq, Repr

/-- The top-level word loop of `parseMain`; it only ever returns nil. -/
def parseMainLoop (env : Env F) : Nat → Scene F → mqoState → Res (Scene F × mqoState)
  | 0, _, _ => Res.diverge
  | n + 1, s, state =>
    let word := state.readWord env
    if word.1 = [] then Res.ok (s, word.2)
    else if word.1 = bytes "Object" then
      (Object.parseObject env n ⟨[], [], []⟩ word.2).bind fun r =>
        parseMainLoop env n { s with Objects := s.Objects ++ [r.1] } r.2
    else if word.1 = bytes "Material" then
      (Scene.parseMaterials env n s word.2).bind fun r => parseMainLoop env n r.1 r.2
    else if word.1 = bytes "\x7b" then
      parseMainLoop env n s (word.2.skipToEndBracket 1)
    else parseMainLoop env n s word.2

/-- Returns the error (`none` for nil) and the scene as left by the parser. -/
def Scene.parseMain (env : Env F) (fuel : Nat) (s : Scene F) (state : mqoState) :
    Res (Option ParseError × Scene F) :=
  state.skipSpace.readLine.bind fun line =>
    if line.1 ≠ bytes "Metasequoia Document" then
      Res.ok (some ParseError.missingDeclaration, s)
    else
      line.2.skipSpace.readLine.bind fun line' =>
        if line'.1 ≠ bytes "Format Text Ver 1.0" then
          Res.ok (some ParseError.unsupportedVersion, s)
        else
          (parseMainLoop env fuel s line'.2).bind fun r => Res.ok (none, r.1)

def Scene.Parse (env : Env F) (fuel : Nat) (s : Scene F) (mqoFile : List Nat) :
    Res (Option ParseError × Scene F) :=
  Scene.parseMain env fuel s (mqoState.init mqoFile)

/-! ## A concrete environment for evaluation -/

/-- A decimal number `mantissa / 10 ^ scale`, kept with the least `scale`. -/
structure Decimal where
  mantissa : Int
  scale : Nat
  deriving DecidableEq, Repr

/-- A stand-in for `strconv.ParseFloat` on words over `0-9 . -`: an optional
leading `-`, digits with at most one `.`, at least one digit.  The value is
the exact decimal; rounding to `float32` and the range check are left out. -/
def parseDecimal (w : List Nat) : Option Decimal :=
  let neg := w.head? == some 0x2D
  let body := if neg then w.tail else w
  let ip := body.takeWhile (fun c => c != 0x2E)
  let fp := (body.dropWhile (fun c => c != 0x2E)).tail
  let fp' := (fp.reverse.dropWhile (fun c => c == 0x30)).reverse
  if ip.isEmpty && fp.isEmpty then none
  else
    match digitsValue ip 0, digitsValue fp 0, digitsValue (ip ++ fp') 0 with
    | some _, some _, some m => some ⟨if neg then -(m : Int) else (m : Int), fp'.length⟩
    | _, _, _ => none

/-- An environment for running the parser on concrete text: no letters or
digits above Latin-1, decimal values for floats. -/
def decimalEnv : Env Decimal where
  letterTable := fun _ => false
  digitTable := fun _ => false
  parseFloat := parseDecimal
  zero := ⟨0, 0⟩
  formatFloat := fun _ => []

/-- The input of `TestVertices` in `datatypes_test.go`. -/
def testInput : List Nat := bytes
  "\nMetasequoia Document\nFormat Text Ver 1.0\n\nunknown \x7b\n\tObject \x7b\n\t\tvertex 1 \x7b\n\t\t\t-1 -1 -1\n\t\t\x7d\n\t\x7d\n\x7d\n\nMaterial 1 \x7b\n\t\"texture1\" power(5.00) tex(\"somefile.bmp\")\n\x7d\n\nObject \"bone:Bone\" \x7b\n\tvertex 5 \x7b\n\t\t0.0000 1 02\n\t\t3.14 4.0 5.0\n\t\t6 7 8\n\t\t9 10 11\n\t\t12 13 14\n\t\x7d\n\tface 2 \x7b\n\t\t2 V(0 1)\n\t\t3 V(2 3 4) M(1) UV(0.0 1.0 0.5 0.5 0.25 0.25)\n\t\x7d\n\x7d\n"

/-! ## Vocabulary of the statements -/

/-- The slice `c` is the complete encoding of the rune `r`: it decodes to `r`
whatever follows it. -/
def Encodes (c : List Nat) (r : Nat) : Prop :=
  c ≠ [] ∧ ∀ t, decodeRune (c ++ t) = (r, c.length)

/-- A run of whitespace: the encodings of runes that `unicode.IsSpace` accepts. -/
inductive Blank : List Nat → Prop
  | nil : Blank []
  | cons (c ws : List Nat) (r : Nat) :
      Encodes c r → isSpace r = true → Blank ws → Blank (c ++ ws)

/-- A run of word characters: the encodings of runes that are no whitespace
and are a letter or a digit. -/
inductive WordRunes (env : Env F) : List Nat → Prop
  | nil : WordRunes env []
  | cons (c w : List Nat) (r : Nat) :
      Encodes c r → isSpace r = false → (isLetter env r || isDigit env r) = true →
      WordRunes env w → WordRunes env (c ++ w)

/-- ASCII letters and digits. -/
def asciiAlnum (b : Nat) : Bool :=
  (decide (0x30 ≤ b) && decide (b ≤ 0x39)) || (decide (0x41 ≤ b) && decide (b ≤ 0x5A)) ||
  (decide (0x61 ≤ b) && decide (b ≤ 0x7A))

/-- An ASCII byte that is neither whitespace nor a letter nor a digit. -/
def asciiPunct (b : Nat) : Bool :=
  decide (b < 0x80) && !isSpace b && !asciiAlnum b

/-- Byte-level reading of `skipToEndBracket`: the input left after the `}`
that brings the depth `d` to zero (nothing when there is none). -/
def afterEndBracket : Int → List Nat → List Nat
  | _, [] => []
  | d, b :: t =>
    let d := if b == 0x7B then d + 1 else d
    let d := if b == 0x7D then d - 1 else d
    if b == 0x7D && d == 0 then t else afterEndBracket d t

/-- The input `next` ends a word: it is empty, or its first rune is
whitespace or neither a letter nor a digit. -/
def WordStop (env : Env F) (next : List Nat) : Prop :=
  (isSpace (decodeRune next).1 || (decodeRune next).2 == 0 ||
    (!isLetter env (decodeRune next).1 && !isDigit env (decodeRune next).1)) = true

/-- The two header lines of the input are the ones `parseMain` expects. -/
def headerAccepted (mqoFile : List Nat) : Bool :=
  match (mqoState.init mqoFile).skipSpace.readLine with
  | Res.ok line =>
    line.1 == bytes "Metasequoia Document" &&
      match line.2.skipSpace.readLine with
      | Res.ok line' => line'.1 == bytes "Format Text Ver 1.0"
      | _ => false
  | _ => false

/-- A valid header followed by an object block that the input ends in. -/
def unclosedObjectInput : List Nat :=
  bytes "Metasequoia Document\nFormat Text Ver 1.0\nObject \"a\" \x7b"

/-- A valid header followed by blocks with a missing count, a missing `{`, a
malformed number, a missing quote and a `V` field-count mismatch. -/
def malformedBodyInput : List Nat := bytes
  "Metasequoia Document\nFormat Text Ver 1.0\nMaterial x\nMaterial 2 \"m\"\nObject \"o\" \x7b\n vertex 2 \x7b 1.0 1-2.3.4 \x7d\n\x7d\nObject \"p\" \x7b\n face 1 \x7b\n 3 V(0 1)\n \x7d\n\x7d\nObject nothing\n"

/-- What the parser builds from `malformedBodyInput`. -/
def malformedBodyScene : Scene Decimal :=
  ⟨[], [⟨bytes "o", [⟨⟨0, 0⟩, ⟨0, 0⟩, ⟨0, 0⟩⟩, ⟨⟨0, 0⟩, ⟨0, 0⟩, ⟨0, 0⟩⟩], []⟩,
    ⟨bytes "p", [], [⟨[-1, -1, -1, -1], -1, none⟩]⟩, ⟨[], [], []⟩]⟩

/-- The text with its leading whitespace runes removed. -/
def dropLeadingSpace (text : List Nat) : List Nat := (mqoState.init text).skipSpace.rest

/-- The braces of the text are balanced: every prefix has at least as many
`{` as `}`, and the text has as many of each. -/
def Balanced (B : List Nat) : Prop :=
  (∀ k, k ≤ B.length → (B.take k).count 0x7D ≤ (B.take k).count 0x7B) ∧
    B.count 0x7B = B.count 0x7D

/-- A valid header: optional whitespace, the line `Metasequoia Document`,
whitespace, the line `Format Text Ver 1.0`; each line is ended by a line
feed, with or without a carriage return before it. -/
def ValidHeader (H : List Nat) : Prop :=
  ∃ ws0 ws1 cr0 cr1, Blank ws0 ∧ Blank ws1 ∧ (cr0 = [] ∨ cr0 = [0x0D]) ∧
    (cr1 = [] ∨ cr1 = [0x0D]) ∧
    H = ws0 ++ bytes "Metasequoia Document" ++ cr0 ++ [0x0A] ++ ws1 ++
      bytes "Format Text Ver 1.0" ++ cr1 ++ [0x0A]

/-- The header of `testInput`. -/
def testHeader : List Nat := bytes "\nMetasequoia Document\nFormat Text Ver 1.0\n"

/-- The text between the braces of the `unknown` block of `testInput`. -/
def testUnknownBody : List Nat :=
  bytes "\n\tObject \x7b\n\t\tvertex 1 \x7b\n\t\t\t-1 -1 -1\n\t\t\x7d\n\t\x7d\n"

/-- The text of `testInput` after the `unknown` block. -/
def testTail : List Nat := bytes
  "\n\nMaterial 1 \x7b\n\t\"texture1\" power(5.00) tex(\"somefile.bmp\")\n\x7d\n\nObject \"bone:Bone\" \x7b\n\tvertex 5 \x7b\n\t\t0.0000 1 02\n\t\t3.14 4.0 5.0\n\t\t6 7 8\n\t\t9 10 11\n\t\t12 13 14\n\t\x7d\n\tface 2 \x7b\n\t\t2 V(0 1)\n\t\t3 V(2 3 4) M(1) UV(0.0 1.0 0.5 0.5 0.25 0.25)\n\t\x7d\n\x7d\n"

/-- The scene `TestVertices` expects from `testInput`. -/
def testScene : Scene Decimal :=
  ⟨[⟨bytes "texture1", bytes "somefile.bmp"⟩],
   [⟨bytes "bone:Bone",
     [⟨⟨0, 0⟩, ⟨1, 0⟩, ⟨2, 0⟩⟩, ⟨⟨314, 2⟩, ⟨4, 0⟩, ⟨5, 0⟩⟩, ⟨⟨6, 0⟩, ⟨7, 0⟩, ⟨8, 0⟩⟩,
      ⟨⟨9, 0⟩, ⟨10, 0⟩, ⟨11, 0⟩⟩, ⟨⟨12, 0⟩, ⟨13, 0⟩, ⟨14, 0⟩⟩],
     [⟨[0, 1, -1, -1], -1, none⟩,
      ⟨[2, 3, 4, -1], 1, some [⟨0, 0⟩, ⟨1, 0⟩, ⟨5, 1⟩, ⟨5, 1⟩, ⟨25, 2⟩, ⟨25, 2⟩]⟩]⟩]⟩

/-- A float lexeme as `readFloat` reads it: a non-empty word over `0-9 . -`. -/
def FloatLexeme (l : List Nat) : Prop := l ≠ [] ∧ ∀ c ∈ l, c ∈ floatChars

/-- The text of one entry of a vertex block: three lexemes, each with the
whitespace in front of it. -/
structure VertexEntry where
  wsX : List Nat
  X : List Nat
  wsY : List Nat
  Y : List Nat
  wsZ : List Nat
  Z : List Nat

def VertexEntry.text (e : VertexEntry) : List Nat :=
  e.wsX ++ (e.X ++ (e.wsY ++ (e.Y ++ (e.wsZ ++ e.Z))))

/-- The entry is three valid float lexemes with values `v`, separated by
whitespace. -/
def VertexEntry.Valid (env : Env F) (e : VertexEntry) (v : Vertex F) : Prop :=
  Blank e.wsX ∧ Blank e.wsY ∧ e.wsY ≠ [] ∧ Blank e.wsZ ∧ e.wsZ ≠ [] ∧
    FloatLexeme e.X ∧ FloatLexeme e.Y ∧ FloatLexeme e.Z ∧
    env.parseFloat e.X = some v.X ∧ env.parseFloat e.Y = some v.Y ∧
    env.parseFloat e.Z = some v.Z

/-- The entries written one after the other. -/
def entriesText : List VertexEntry → List Nat
  | [] => []
  | e :: es => e.text ++ entriesText es

/-- The input does not go on with a character of `readFloat`'s set. -/
def FloatStop (next : List Nat) : Prop := ∀ b, next.head? = some b → b ∉ floatChars

/-- The entries of the `vertex 5` block of `testInput` with the values the
test expects. -/
def testVertexEntries : List (VertexEntry × Vertex Decimal) :=
  [(⟨bytes "\n\t\t", bytes "0.0000", bytes " ", bytes "1", bytes " ", bytes "02"⟩,
      ⟨⟨0, 0⟩, ⟨1, 0⟩, ⟨2, 0⟩⟩),
   (⟨bytes "\n\t\t", bytes "3.14", bytes " ", bytes "4.0", bytes " ", bytes "5.0"⟩,
      ⟨⟨314, 2⟩, ⟨4, 0⟩, ⟨5, 0⟩⟩),
   (⟨bytes "\n\t\t", bytes "6", bytes " ", bytes "7", bytes " ", bytes "8"⟩,
      ⟨⟨6, 0⟩, ⟨7, 0⟩, ⟨8, 0⟩⟩),
   (⟨bytes "\n\t\t", bytes "9", bytes " ", bytes "10", bytes " ", bytes "11"⟩,
      ⟨⟨9, 0⟩, ⟨10, 0⟩, ⟨11, 0⟩⟩),
   (⟨bytes "\n\t\t", bytes "12", bytes " ", bytes "13", bytes " ", bytes "14"⟩,
      ⟨⟨12, 0⟩, ⟨13, 0⟩, ⟨14, 0⟩⟩)]

/-- The text of `testInput` after the word `vertex`, up to the line feed
after the block. -/
def testVertexBlock : List Nat := bytes
  " 5 \x7b\n\t\t0.0000 1 02\n\t\t3.14 4.0 5.0\n\t\t6 7 8\n\t\t9 10 11\n\t\t12 13 14\n\t\x7d\n"

/-- The content of `name(c)` as `readParentheticArg` returns it: `readChars`
takes every `(` at the start, `readTo` skips leading whitespace. -/
def argContent (c : List Nat) : List Nat :=
  dropLeadingSpace (c.dropWhile (bytes "(").contains)

/-- An argument of a material line: `tex("file")`, or `name(content)` with
another name. -/
inductive MaterialArg where
  | other (name content : List Nat)
  | tex (file : List Nat)

def MaterialArg.text : MaterialArg → List Nat
  | MaterialArg.other name content => name ++ 0x28 :: (content ++ [0x29])
  | MaterialArg.tex file => bytes "tex" ++ 0x28 :: ((0x22 :: (file ++ [0x22])) ++ [0x29])

/-- The name is a non-empty letter/digit word other than `tex` and the
content holds no `)`; the file name holds no quote and no `)` and does not
start with whitespace. -/
def MaterialArg.Valid (env : Env F) : MaterialArg → Prop
  | MaterialArg.other name content =>
    WordRunes env name ∧ name ≠ [] ∧ name ≠ bytes "tex" ∧ 0x29 ∉ content
  | MaterialArg.tex file =>
    0x22 ∉ file ∧ 0x29 ∉ file ∧ isSpace (decodeRune file).1 = false

/-- The fields of a `V` argument after the first, each written after its
one separator byte. -/
def moreFieldsText : List (Nat × List Nat × Int) → List Nat
  | [] => []
  | sf :: t => sf.1 :: (sf.2.1 ++ moreFieldsText t)

/-- The floats of a `UV` argument, each written after its whitespace. -/
def uvText : List (List Nat × List Nat × F) → List Nat
  | [] => []
  | e :: t => e.1 ++ (e.2.1 ++ uvText t)

/-- The text of a face line `n V(i0 ... ) M(m) UV(f0 ...)` with the values of
its fields.  `more` holds, for each `V` field after the first, its separator
byte, its text and its value; `M` holds the whitespace before the argument,
the digits and the value; `UV` holds the whitespace before the argument, the
floats (whitespace, lexeme, value) and the whitespace before the `)`. -/
structure FaceLine (F : Type) where
  ws0 : List Nat
  count : List Nat
  wsV : List Nat
  field0 : List Nat
  index0 : Int
  more : List (Nat × List Nat × Int)
  M : Option (List Nat × List Nat × Int)
  UV : Option (List Nat × List (List Nat × List Nat × F) × List Nat)
  wsEnd : List Nat

/-- The declared vertex count `n`. -/
def FaceLine.n (l : FaceLine F) : Nat := l.more.length + 1

def FaceLine.mText (l : FaceLine F) : List Nat :=
  match l.M with
  | none => []
  | some m => m.1 ++ (bytes "M" ++ 0x28 :: (m.2.1 ++ [0x29]))

def FaceLine.uvArgText (l : FaceLine F) : List Nat :=
  match l.UV with
  | none => []
  | some uv => uv.1 ++ (bytes "UV" ++ 0x28 :: ((uvText uv.2.1 ++ uv.2.2) ++ [0x29]))

def FaceLine.text (l : FaceLine F) : List Nat :=
  l.ws0 ++ (l.count ++ (l.wsV ++ (bytes "V" ++ 0x28 ::
    ((l.field0 ++ moreFieldsText l.more) ++ 0x29 :: (l.mText ++ (l.uvArgText ++ l.wsEnd))))))

/-- The line is well formed: the count is the number of `V` fields and at
most 4; the `V` fields are integers that `Atoi` accepts, separated by one
byte of the class `\s` of the regexp; `m` is a run of digits that `Atoi`
accepts; the `UV` floats are `2n` valid float lexemes separated by
whitespace. -/
def FaceLine.Valid (env : Env F) (l : FaceLine F) : Prop :=
  Blank l.ws0 ∧ (∀ c ∈ l.count, c ∈ digitChars) ∧ atoi l.count = some (l.n : Int) ∧
    l.n ≤ 4 ∧ Blank l.wsV ∧ atoi l.field0 = some l.index0 ∧
    (∀ sf ∈ l.more, reSpace sf.1 = true ∧ atoi sf.2.1 = some sf.2.2) ∧
    (∀ m, l.M = some m →
      Blank m.1 ∧ (∀ c ∈ m.2.1, c ∈ digitChars) ∧ atoi m.2.1 = some m.2.2) ∧
    (∀ uv, l.UV = some uv →
      Blank uv.1 ∧ uv.2.1.length = 2 * l.n ∧
      (∀ e ∈ uv.2.1, Blank e.1 ∧ FloatLexeme e.2.1 ∧ env.parseFloat e.2.1 = some e.2.2) ∧
      (∀ e ∈ uv.2.1.tail, e.1 ≠ []) ∧ Blank uv.2.2) ∧
    Blank l.wsEnd

/-- The face that the line describes. -/
def FaceLine.face (l : FaceLine F) : Face F :=
  ⟨(l.index0 :: l.more.map (fun sf => sf.2.2)) ++ List.replicate (4 - l.n) (-1),
    match l.M with
    | none => -1
    | some m => m.2.2,
    match l.UV with
    | none => none
    | some uv => some (uv.2.1.map (fun e => e.2.2))⟩

/-- The first face line of `testInput`, `2 V(0 1)`. -/
def testFaceLine0 : FaceLine Decimal :=
  ⟨[], bytes "2", bytes " ", bytes "0", 0, [(0x20, bytes "1", 1)], none, none, []⟩

/-- The second face line of `testInput`,
`3 V(2 3 4) M(1) UV(0.0 1.0 0.5 0.5 0.25 0.25)`. -/
def testFaceLine1 : FaceLine Decimal :=
  ⟨[], bytes "3", bytes " ", bytes "2", 2, [(0x20, bytes "3", 3), (0x20, bytes "4", 4)],
    some (bytes " ", bytes "1", 1),
    some (bytes " ",
      [([], bytes "0.0", ⟨0, 0⟩), (bytes " ", bytes "1.0", ⟨1, 0⟩),
        (bytes " ", bytes "0.5", ⟨5, 1⟩), (bytes " ", bytes "0.5", ⟨5, 1⟩),
        (bytes " ", bytes "0.25", ⟨25, 2⟩), (bytes " ", bytes "0.25", ⟨25, 2⟩)], []),
    []⟩

/-! ## OBJ/MTL writer (`convert_to_obj.go`) -/

/-- One `fmt.Fprintf` call of the writers: its format and arguments. -/
inductive Print (F : Type) where
  /-- `"newmtl %s\n"` -/
  | newmtl (name : List Nat)
  /-- `"map_Kd %s\n"` -/
  | mapKd (file : List Nat)
  /-- `"mtllib %s\n"` -/
  | mtllib (name : List Nat)
  /-- `"v %f %f %f\n"` -/
  | v (x y z : F)
  /-- `"o %s\ng %s\n"` with the same name twice -/
  | objectGroup (name : List Nat)
  /-- `"usemtl %s\n"` -/
  | usemtl (name : List Nat)
  /-- `"vt %f %f\n"` -/
  | vt (s t : F)
  /-- `"f "` -/
  | f
  /-- `"%d "` -/
  | index (i : Int)
  /-- `"%d/"` -/
  | indexSlash (i : Int)
  /-- `"\n"` -/
  | newline
  deriving DecidableEq, Repr

/-- The verb `%d` on a non-negative `int`. -/
def formatNat (n : Nat) : List Nat := (Nat.toDigits 10 n).map Char.toNat

/-- The verb `%d`. -/
def formatInt : Int → List Nat
  | Int.ofNat n => formatNat n
  | Int.negSucc n => 0x2D :: formatNat (n + 1)

/-- The bytes a `Fprintf` call writes. -/
def Print.render (env : Env F) : Print F → List Nat
  | Print.newmtl name => bytes "newmtl " ++ name ++ [0x0A]
  | Print.mapKd file => bytes "map_Kd " ++ file ++ [0x0A]
  | Print.mtllib name => bytes "mtllib " ++ name ++ [0x0A]
  | Print.v x y z =>
    bytes "v " ++ env.formatFloat x ++ [0x20] ++ env.formatFloat y ++ [0x20] ++
      env.formatFloat z ++ [0x0A]
  | Print.objectGroup name => bytes "o " ++ name ++ [0x0A] ++ bytes "g " ++ name ++ [0x0A]
  | Print.usemtl name => bytes "usemtl " ++ name ++ [0x0A]
  | Print.vt s t => bytes "vt " ++ env.formatFloat s ++ [0x20] ++ env.formatFloat t ++ [0x0A]
  | Print.f => bytes "f "
  | Print.index i => formatInt i ++ [0x20]
  | Print.indexSlash i => formatInt i ++ [0x2F]
  | Print.newline => [0x0A]

/-- The text of a sequence of `Fprintf` calls. -/
def renderAll (env : Env F) : List (Print F) → List Nat
  | [] => []
  | p :: ps => p.render env ++ renderAll env ps

/-- An `io.Writer` with state `σ`: `write` gives the state after the call
and whether `Fprintf` returns an error. -/
structure Writer (σ : Type) (F : Type) where
  write : σ → Print F → σ × Bool

/-- The writer that never fails: it records the calls in order. -/
def bufferWriter : Writer (List (Print F)) F where
  write := fun out p => (out ++ [p], false)

/-- How a writer function ends: it returns nil, it returns an error, or the
run panics (index out of range). -/
inductive Status where
  | ok
  | err
  | panic
  deriving DecidableEq, Repr

variable {σ : Type}

def ConvertMqoObjectsToMtlLoop (w : Writer σ F) : List Material → σ → σ × Status
  | [], out => (out, Status.ok)
  | material :: rest, out =>
    let r := w.write out (Print.newmtl material.Name)
    if r.2 then (r.1, Status.err)
    else if material.TextureMappingFile ≠ [] then
      let r' := w.write r.1 (Print.mapKd material.TextureMappingFile)
      if r'.2 then (r'.1, Status.err) else ConvertMqoObjectsToMtlLoop w rest r'.1
    else ConvertMqoObjectsToMtlLoop w rest r.1

def ConvertMqoObjectsToMtl (w : Writer σ F) (out : σ) (scene : Scene F) : σ × Status :=
  ConvertMqoObjectsToMtlLoop w scene.Materials out

/-- The result of `int` arithmetic in Go on a 64-bit platform: the value
reduced to two's complement (it wraps around silently on overflow). -/
def wrapInt (x : Int) : Int := (x + 2 ^ 63) % 2 ^ 64 - 2 ^ 63

/-- The loop `for start := 0; start < end; start++` of
`writeObjFaceWithoutUvCoordinates`: `n` iterations remain.  The index
printed is the `int` sum `i.VertexIndices[start]+1+vertexOffset`. -/
def writeIndexLoop (w : Writer σ F) (i : Face F) (vertexOffset : Int) :
    Nat → Nat → σ → σ × Status
  | 0, _, out => (out, Status.ok)
  | n + 1, start, out =>
    let r := w.write out
      (Print.index (wrapInt (i.VertexIndices.getD start 0 + 1 + vertexOffset)))
    if r.2 then (r.1, Status.err) else writeIndexLoop w i vertexOffset n (start + 1) r.1

def writeObjFaceWithoutUvCoordinates (w : Writer σ F) (out : σ) (i : Face F) (end_ : Nat)
    (vertexOffset : Int) : σ × Status :=
  let r := w.write out Print.f
  if r.2 then (r.1, Status.err) else writeIndexLoop w i vertexOffset end_ 0 r.1

/-- The loop over the coordinate pairs; with an odd number of coordinates
`TextureCoordinates[start+1]` is out of range. -/
def writeVtLoop (w : Writer σ F) : List F → σ → σ × Status
  | [], out => (out, Status.ok)
  | [_], out => (out, Status.panic)
  | s :: t :: rest, out =>
    let r := w.write out (Print.vt s t)
    if r.2 then (r.1, Status.err) else writeVtLoop w rest r.1

/-- The loop `for start := 0; start < end; start++` of
`writeObjFaceWithUvCoordinates`: `n` iterations remain.  The vertex index
printed is the `int` sum `i.VertexIndices[start]+1+vertexOffset`; the UV
index `start+currentUvCoordinateIndex` is a sum of a loop counter below 4
and of halved slice lengths, which stays far below the range of `int`. -/
def writeIndexUvLoop (w : Writer σ F) (i : Face F) (vertexOffset : Int)
    (currentUvCoordinateIndex : Int) : Nat → Nat → σ → σ × Status
  | 0, _, out => (out, Status.ok)
  | n + 1, start, out =>
    let r := w.write out
      (Print.indexSlash (wrapInt (i.VertexIndices.getD start 0 + 1 + vertexOffset)))
    if r.2 then (r.1, Status.err)
    else
      let r' := w.write r.1 (Print.index ((start : Int) + currentUvCoordinateIndex))
      if r'.2 then (r'.1, Status.err)
      else writeIndexUvLoop w i vertexOffset currentUvCoordinateIndex n (start + 1) r'.1

def writeObjFaceWithUvCoordinates (w : Writer σ F) (out : σ) (i : Face F) (end_ : Nat)
    (vertexOffset : Int) (currentUvCoordinateIndex : Int) : σ × Status :=
  let r := writeVtLoop w (Option.getD i.TextureCoordinates []) out
  match r.2 with
  | Status.ok =>
    let r' := w.write r.1 Print.f
    if r'.2 then (r'.1, Status.err)
    else writeIndexUvLoop w i vertexOffset currentUvCoordinateIndex end_ 0 r'.1
  | s => (r.1, s)

/-- The scan `for end < 4 { if i.VertexIndices[end] < 0 { break }; end++ }`:
`n` is `4 - end`. -/
def faceEndLoop (vertexIndices : List Int) : Nat → Nat → Nat
  | 0, end_ => end_
  | n + 1, end_ =>
    if vertexIndices.getD end_ 0 < 0 then end_ else faceEndLoop vertexIndices n (end_ + 1)

/-- The populated-vertex count `end` of a face. -/
def faceEnd (i : Face F) : Nat := faceEndLoop i.VertexIndices 4 0

/-- The material switch of the face loop: no call when the index is the
current one; indexing `scene.Materials` out of range panics. -/
def switchMaterial (w : Writer σ F) (scene : Scene F) (i : Face F)
    (currentMaterialIndex : Int) (out : σ) : σ × Status :=
  if i.MaterialIndex ≠ currentMaterialIndex then
    if 0 ≤ i.MaterialIndex ∧ i.MaterialIndex < scene.Materials.length then
      let r := w.write out
        (Print.usemtl (scene.Materials.getD i.MaterialIndex.toNat ⟨[], []⟩).Name)
      (r.1, if r.2 then Status.err else Status.ok)
    else (out, Status.panic)
  else (out, Status.ok)

/-- The loop `for _, i := range mqo.Faces`.  It returns the writer state, how
it ended, and the tracked material and UV indices. -/
def facesLoop (w : Writer σ F) (scene : Scene F) (vertexOffset : Int) :
    List (Face F) → Int → Int → σ → σ × Status × Int × Int
  | [], currentMaterialIndex, currentUvCoordinateIndex, out =>
    (out, Status.ok, currentMaterialIndex, currentUvCoordinateIndex)
  | i :: rest, currentMaterialIndex, currentUvCoordinateIndex, out =>
    if faceEnd i < 2 then
      facesLoop w scene vertexOffset rest currentMaterialIndex currentUvCoordinateIndex out
    else
      let sw := switchMaterial w scene i currentMaterialIndex out
      match sw.2 with
      | Status.ok =>
        let r :=
          match i.TextureCoordinates with
          | none =>
            (writeObjFaceWithoutUvCoordinates w sw.1 i (faceEnd i) vertexOffset,
              currentUvCoordinateIndex)
          | some coordinates =>
            (writeObjFaceWithUvCoordinates w sw.1 i (faceEnd i) vertexOffset
                currentUvCoordinateIndex,
              currentUvCoordinateIndex + ((coordinates.length / 2 : Nat) : Int))
        match r.1.2 with
        | Status.ok =>
          let r' := w.write r.1.1 Print.newline
          if r'.2 then (r'.1, Status.err, i.MaterialIndex, r.2)
          else facesLoop w scene vertexOffset rest i.MaterialIndex r.2 r'.1
        | s => (r.1.1, s, i.MaterialIndex, r.2)
      | s => (sw.1, s, i.MaterialIndex, currentUvCoordinateIndex)

def writeVertexLines (w : Writer σ F) : List (Vertex F) → σ → σ × Status
  | [], out => (out, Status.ok)
  | i :: rest, out =>
    let r := w.write out (Print.v i.X i.Y i.Z)
    if r.2 then (r.1, Status.err) else writeVertexLines w rest r.1

/-- The first loop `for offset, mqo := range objects`: it fills
`vertexOffsets` and writes the vertices. -/
def verticesLoop (w : Writer σ F) : List (Object F) → Nat → List Int → σ →
    σ × Status × List Int
  | [], _, vertexOffsets, out => (out, Status.ok, vertexOffsets)
  | mqo :: rest, offset, vertexOffsets, out =>
    let vertexOffsets :=
      vertexOffsets.set (offset + 1) ((mqo.Vertices.length : Int) + vertexOffsets.getD offset 0)
    let r := writeVertexLines w mqo.Vertices out
    match r.2 with
    | Status.ok => verticesLoop w rest (offset + 1) vertexOffsets r.1
    | s => (r.1, s, vertexOffsets)

/-- The second loop `for offset, mqo := range objects`. -/
def objectsLoop (w : Writer σ F) (scene : Scene F) (vertexOffsets : List Int) :
    List (Object F) → Nat → Int → Int → σ → σ × Status
  | [], _, _, _, out => (out, Status.ok)
  | mqo :: rest, offset, currentMaterialIndex, currentUvCoordinateIndex, out =>
    let vertexOffset := vertexOffsets.getD offset 0
    let r := w.write out (Print.objectGroup mqo.Name)
    if r.2 then (r.1, Status.err)
    else
      let r' := facesLoop w scene vertexOffset mqo.Faces currentMaterialIndex
        currentUvCoordinateIndex r.1
      match r'.2.1 with
      | Status.ok => objectsLoop w scene vertexOffsets rest (offset + 1) r'.2.2.1 r'.2.2.2 r'.1
      | s => (r'.1, s)

def ConvertMqoObjectsToObj (w : Writer σ F) (out : σ) (scene : Scene F)
    (mtlName : List Nat) : σ × Status :=
  let objects := scene.Objects
  let vertexOffsets := List.replicate (objects.length + 1) (0 : Int)
  let r := w.write out (Print.mtllib mtlName)
  if r.2 then (r.1, Status.err)
  else
    let r' := verticesLoop w objects 0 vertexOffsets r.1
    match r'.2.1 with
    | Status.ok => objectsLoop w scene r'.2.2 objects 0 (-1) 1 r'.1
    | s => (r'.1, s)

/-- The `v` lines of all the vertices, in object order and then in vertex order. -/
def vertexLines : List (Object F) → List (Print F)
  | [] => []
  | o :: rest => o.Vertices.map (fun i => Print.v i.X i.Y i.Z) ++ vertexLines rest

/-- The number of vertices of the first `k` objects. -/
def offsetOf (objects : List (Object F)) (k : Nat) : Int :=
  (((objects.take k).map (fun o => o.Vertices.length)).sum : Nat)

/-- The call writes a `v` line. -/
def Print.isV : Print F → Bool
  | Print.v _ _ _ => true
  | _ => false

/-- The `usemtl` line of a face, when its material index is not the current one. -/
def usemtlLines (scene : Scene F) (i : Face F) (currentMaterialIndex : Int) : List (Print F) :=
  if i.MaterialIndex = currentMaterialIndex then []
  else [Print.usemtl (scene.Materials.getD i.MaterialIndex.toNat ⟨[], []⟩).Name]

/-- The calls for a kept face without texture coordinates: `f `, one bare
index per populated vertex, a line feed. -/
def bareFaceLine (i : Face F) (vertexOffset : Int) : List (Print F) :=
  Print.f :: ((List.range (faceEnd i)).map fun j =>
    Print.index (wrapInt (i.VertexIndices.getD j 0 + 1 + vertexOffset))) ++ [Print.newline]

/-- The output `out'` is `out` followed by calls that write no `v` line. -/
def ExtendsNoV (out out' : List (Print F)) : Prop :=
  ∃ extra, out' = out ++ extra ∧ ∀ p ∈ extra, Print.isV p = false

/-- The position of the first negative entry of the index array, its length
when no entry is negative. -/
def firstNegative (vertexIndices : List Int) : Nat :=
  vertexIndices.findIdx (fun x => decide (x < 0))

/-- The `vt` lines of a coordinate list: one per pair of coordinates. -/
def vtLines : List F → List (Print F)
  | s :: t :: rest => Print.vt s t :: vtLines rest
  | _ => []

/-- The calls `<index>/` and `<uv> ` of the populated vertices
`start, ..., start + n - 1` of a face whose first UV index is `s`. -/
def uvIndexPairs (i : Face F) (vertexOffset s : Int) (start n : Nat) : List (Print F) :=
  (List.range' start n).flatMap fun j =>
    [Print.indexSlash (wrapInt (i.VertexIndices.getD j 0 + 1 + vertexOffset)),
      Print.index ((j : Int) + s)]

/-- The calls for a kept face with the texture coordinates `coords`, the
first of which gets the UV index `s`: its `vt` lines, `f `, one pair
`<index>/<uv> ` per populated vertex, a line feed. -/
def uvFaceLine (i : Face F) (coords : List F) (vertexOffset s : Int) : List (Print F) :=
  vtLines coords ++ Print.f :: (uvIndexPairs i vertexOffset s 0 (faceEnd i) ++ [Print.newline])

/-- The calls for a kept face: its `usemtl` line when the material changes,
then its lines without or with texture coordinates. -/
def faceLines (scene : Scene F) (i : Face F) (vertexOffset cm s : Int) : List (Print F) :=
  usemtlLines scene i cm ++
    match i.TextureCoordinates with
    | none => bareFaceLine i vertexOffset
    | some coords => uvFaceLine i coords vertexOffset s

/-- The running UV index after a kept face. -/
def nextUv (i : Face F) (s : Int) : Int :=
  match i.TextureCoordinates with
  | none => s
  | some coords => s + ((coords.length / 2 : Nat) : Int)

/-- The face can be written without a panic when the tracked material is
`cm`: its material index is `cm` or an index into `Materials`, and its
coordinates come in pairs. -/
def Face.Writable (scene : Scene F) (i : Face F) (cm : Int) : Prop :=
  (i.MaterialIndex = cm ∨ (0 ≤ i.MaterialIndex ∧ i.MaterialIndex < scene.Materials.length)) ∧
    ∀ coords, i.TextureCoordinates = some coords → coords.length % 2 = 0

/-- Two objects the second loop cannot tell apart: the same name and the
same run of the face loop. -/
def SameFaces (w : Writer σ F) (scene : Scene F) (o o' : Object F) : Prop :=
  o.Name = o'.Name ∧ ∀ vertexOffset cm cu out,
    facesLoop w scene vertexOffset o.Faces cm cu out =
      facesLoop w scene vertexOffset o'.Faces cm cu out

/-- The faces of all the objects, in object order and then in face order. -/
def allFaces : List (Object F) → List (Face F)
  | [] => []
  | o :: rest => o.Faces ++ allFaces rest

/-- The number of `vt` lines of the kept faces among `faces`: the sum of
`len(TextureCoordinates)/2` over the faces with a populated count of at
least 2 that carry texture coordinates. -/
def uvCount : List (Face F) → Nat
  | [] => 0
  | i :: rest =>
    (if faceEnd i < 2 then 0
      else
        match i.TextureCoordinates with
        | none => 0
        | some coords => coords.length / 2) + uvCount rest

/-- The material index of the last kept face among `faces`, `-1` when none
is kept. -/
def lastMaterial (faces : List (Face F)) : Int :=
  match faces.reverse.find? (fun i => decide (2 ≤ faceEnd i)) with
  | none => -1
  | some i => i.MaterialIndex

/-- The lines of the face `i` that comes after the faces `before`: nothing
when its count is below 2; otherwise its lines, with the first UV index
1 plus the number of `vt` lines written for the faces before it. -/
def faceText (scene : Scene F) (vertexOffset : Int) (before : List (Face F)) (i : Face F) :
    List (Print F) :=
  if faceEnd i < 2 then []
  else faceLines scene i vertexOffset (lastMaterial before) (1 + (uvCount before : Int))

/-- The lines of the faces `faces` that come after the faces `before`. -/
def facesText (scene : Scene F) (vertexOffset : Int) :
    List (Face F) → List (Face F) → List (Print F)
  | _, [] => []
  | before, i :: rest =>
    faceText scene vertexOffset before i ++ facesText scene vertexOffset (before ++ [i]) rest

/-- The lines of the objects `objects` that come after the objects `pre`:
for each its `o`/`g` lines and the lines of its faces. -/
def objectsText (scene : Scene F) (all : List (Object F)) :
    List (Object F) → List (Object F) → List (Print F)
  | _, [] => []
  | pre, o :: rest =>
    Print.objectGroup o.Name ::
      (facesText scene (offsetOf all pre.length) (allFaces pre) o.Faces ++
        objectsText scene all (pre ++ [o]) rest)

/-- Every kept face of the scene can be written when its turn comes. -/
def Scene.Writable (scene : Scene F) : Prop :=
  ∀ before i after, allFaces scene.Objects = before ++ i :: after → 2 ≤ faceEnd i →
    i.Writable scene (lastMaterial before)

/-- Two objects, each with one face that carries texture coordinates: a
3-vertex face in the first, a 4-vertex face in the second. -/
def twoObjectScene : Scene Decimal :=
  ⟨[⟨bytes "m", []⟩],
    [⟨bytes "a", [⟨⟨0, 0⟩, ⟨0, 0⟩, ⟨0, 0⟩⟩, ⟨⟨1, 0⟩, ⟨0, 0⟩, ⟨0, 0⟩⟩, ⟨⟨0, 0⟩, ⟨1, 0⟩, ⟨0, 0⟩⟩],
      [⟨[0, 1, 2, -1], 0, some [⟨0, 0⟩, ⟨0, 0⟩, ⟨1, 0⟩, ⟨0, 0⟩, ⟨0, 0⟩, ⟨1, 0⟩]⟩]⟩,
     ⟨bytes "b", [⟨⟨0, 0⟩, ⟨0, 0⟩, ⟨1, 0⟩⟩],
      [⟨[0, 0, 0, 0], 0,
        some [⟨0, 0⟩, ⟨0, 0⟩, ⟨1, 0⟩, ⟨0, 0⟩, ⟨0, 0⟩, ⟨1, 0⟩, ⟨1, 0⟩, ⟨1, 0⟩]⟩]⟩]⟩

/-- The call writes a `vt` line. -/
def Print.isVt : Print F → Bool
  | Print.vt _ _ => true
  | _ => false

/-- The number of `vt` lines among the calls. -/
def vtCount (ps : List (Print F)) : Nat := ps.countP Print.isVt

/-- The calls for a material: its `newmtl` line, then its `map_Kd` line when
the texture file name is not empty. -/
def materialLines (m : Material) : List (Print F) :=
  if m.TextureMappingFile = [] then [Print.newmtl m.Name]
  else [Print.newmtl m.Name, Print.mapKd m.TextureMappingFile]

/-- The calls for the materials, in order. -/
def mtlLines (materials : List Material) : List (Print F) :=
  materials.flatMap materialLines

/-- The text of the MTL file of the materials. -/
def mtlText : List Material → List Nat
  | [] => []
  | m :: rest =>
    bytes "newmtl " ++ m.Name ++ [0x0A] ++
      (if m.TextureMappingFile = [] then []
        else bytes "map_Kd " ++ m.TextureMappingFile ++ [0x0A]) ++ mtlText rest

/-- The state of a writer after the calls `ps`, made in order. -/
def writeAll (w : Writer σ F) (out : σ) (ps : List (Print F)) : σ :=
  ps.foldl (fun s p => (w.write s p).1) out

/-- The call writes a `newmtl` line. -/
def Print.isNewmtl : Print F → Bool
  | Print.newmtl _ => true
  | _ => false

/-- The call writes a `map_Kd` line. -/
def Print.isMapKd : Print F → Bool
  | Print.mapKd _ => true
  | _ => false

/-- The declared vertex count of a face line: the value of the run of digits
after the leading whitespace, when `Atoi` accepts it. -/
def declaredCount (line : List Nat) : Option Int :=
  atoi ((dropLeadingSpace line).takeWhile digitChars.contains)

/-- What holds of the face while a line with the declared count `n` is
parsed: 4 index slots, those from position `n` on at the sentinel, and
texture coordinates, when present, of length `2n`. -/
def FaceInv (n : Int) (f : Face F) : Prop :=
  f.VertexIndices.length = 4 ∧
    (∀ j : Nat, j < 4 → n ≤ (j : Int) → f.VertexIndices.getD j 0 = -1) ∧
    ∀ cs, f.TextureCoordinates = some cs → (cs.length : Int) = 2 * n

/-- The index array has a contiguous populated prefix of length `k`: the
slots before `k` hold valid (non-negative) indices and the slots from `k` on
hold the sentinel `-1`. -/
def PopulatedPrefix (vertexIndices : List Int) (k : Nat) : Prop :=
  k ≤ 4 ∧ (∀ j, j < k → 0 ≤ vertexIndices.getD j 0) ∧
    ∀ j, k ≤ j → j < 4 → vertexIndices.getD j 0 = -1

/-- The run `x` with a smaller iteration budget and the run `y` with a
larger one: `x` ran out of budget or it ended as `y` does. -/
def Res.Below {α : Type} (x y : Res α) : Prop := x = Res.diverge ∨ x = y

/-- A document whose face block declares 2 faces and has a blank line
between the two records. -/
def blankLineInput : List Nat := bytes
  "Metasequoia Document\nFormat Text Ver 1.0\nObject \"a\" \x7b\n\tface 2 \x7b\n\t\t2 V(0 1)\n\n\t\t2 V(2 3)\n\t\x7d\n\x7d\n"

/-- A document whose object holds the face block before the vertex block. -/
def faceFirstInput : List Nat := bytes
  "Metasequoia Document\nFormat Text Ver 1.0\nObject \"a\" \x7b\n\tface 1 \x7b\n\t\t2 V(0 1)\n\t\x7d\n\tvertex 2 \x7b\n\t\t0 0 0\n\t\t1 0 0\n\t\x7d\n\x7d\n"

/-- The same object with the vertex block before the face block. -/
def vertexFirstInput : List Nat := bytes
  "Metasequoia Document\nFormat Text Ver 1.0\nObject \"a\" \x7b\n\tvertex 2 \x7b\n\t\t0 0 0\n\t\t1 0 0\n\t\x7d\n\tface 1 \x7b\n\t\t2 V(0 1)\n\t\x7d\n\x7d\n"

/-- The text of `faceFirstInput` after the word `Object`. -/
def faceFirstObject : List Nat := bytes
  " \"a\" \x7b\n\tface 1 \x7b\n\t\t2 V(0 1)\n\t\x7d\n\tvertex 2 \x7b\n\t\t0 0 0\n\t\t1 0 0\n\t\x7d\n\x7d\n"

/-- No float can be read from `text`: after the whitespace `ws` comes the
run `l` of characters of `readFloat`'s set, possibly empty, and `ParseFloat`
rejects it. -/
def FloatFails (env : Env F) (text : List Nat) : Prop :=
  ∃ ws l next, text = ws ++ (l ++ next) ∧ Blank ws ∧ (∀ c ∈ l, c ∈ floatChars) ∧
    FloatStop next ∧ isSpace (decodeRune (l ++ next)).1 = false ∧ env.parseFloat l = none

/-- A vertex entry with a coordinate that fails to parse: the text is the
valid coordinates `good` (whitespace, lexeme, value), fewer than 3, and then
`bad`, from which no float can be read. -/
def BadEntry (env : Env F) (good : List (List Nat × List Nat × F)) (bad : List Nat) : Prop :=
  good.length < 3 ∧
    (∀ e ∈ good, Blank e.1 ∧ FloatLexeme e.2.1 ∧ env.parseFloat e.2.1 = some e.2.2) ∧
    (∀ e ∈ good.tail, e.1 ≠ []) ∧ (good ≠ [] → FloatStop bad) ∧ FloatFails env bad

/-- A vertex block that declares 3 vertices and whose second entry has the
malformed coordinate `x`. -/
def partialVertexBlock : List Nat := bytes " 3 \x7b\n\t1 2 3\n\t4 x 6\n\t7 8 9\n\x7d\n"

/-- A document with one material and an object whose first face names the
material 0 and whose second face names none. -/
def mixedMaterialInput : List Nat := bytes
  "Metasequoia Document\nFormat Text Ver 1.0\nMaterial 1 \x7b\n\t\"m\"\n\x7d\nObject \"a\" \x7b\n\tvertex 3 \x7b\n\t\t0 0 0\n\t\t1 0 0\n\t\t0 1 0\n\t\x7d\n\tface 2 \x7b\n\t\t3 V(0 1 2) M(0)\n\t\t3 V(0 2 1)\n\t\x7d\n\x7d\n"

/-- The scene the parser builds from `mixedMaterialInput`. -/
def mixedMaterialScene : Scene Decimal :=
  ⟨[⟨bytes "m", []⟩],
    [⟨bytes "a", [⟨⟨0, 0⟩, ⟨0, 0⟩, ⟨0, 0⟩⟩, ⟨⟨1, 0⟩, ⟨0, 0⟩, ⟨0, 0⟩⟩, ⟨⟨0, 0⟩, ⟨1, 0⟩, ⟨0, 0⟩⟩],
      [⟨[0, 1, 2, -1], 0, none⟩, ⟨[0, 2, 1, -1], -1, none⟩]⟩]⟩

/-- Every face of the scene has the material index `-1` or an index into
`Materials`. -/
def Scene.materialsInRange (scene : Scene F) : Bool :=
  (allFaces scene.Objects).all fun i =>
    decide (i.MaterialIndex = -1) ||
      (decide (0 ≤ i.MaterialIndex) && decide (i.MaterialIndex < scene.Materials.length))

/-- A document with one material and an object whose first 2-vertex face
names the material 0 and whose second 2-vertex face names none. -/
def twoVertexFacesInput : List Nat := bytes
  "Metasequoia Document\nFormat Text Ver 1.0\nMaterial 1 \x7b\n\t\"m\"\n\x7d\nObject \"a\" \x7b\n\tvertex 3 \x7b\n\t\t0 0 0\n\t\t1 0 0\n\t\t0 1 0\n\t\x7d\n\tface 2 \x7b\n\t\t2 V(0 1) M(0)\n\t\t2 V(1 2)\n\t\x7d\n\x7d\n"

/-- The scene the parser builds from `twoVertexFacesInput`. -/
def twoVertexFacesScene : Scene Decimal :=
  ⟨[⟨bytes "m", []⟩],
    [⟨bytes "a", [⟨⟨0, 0⟩, ⟨0, 0⟩, ⟨0, 0⟩⟩, ⟨⟨1, 0⟩, ⟨0, 0⟩, ⟨0, 0⟩⟩, ⟨⟨0, 0⟩, ⟨1, 0⟩, ⟨0, 0⟩⟩],
      [⟨[0, 1, -1, -1], 0, none⟩, ⟨[1, 2, -1, -1], -1, none⟩]⟩]⟩

/-- The slice `w` is a punctuation word of the scanner in front of `next`:
one rune, as `utf8.DecodeRune` reads it there, that is neither whitespace
nor a letter nor a digit. -/
def PunctWord (env : Env F) (w next : List Nat) : Prop :=
  w ≠ [] ∧ (decodeRune (w ++ next)).2 = w.length ∧
    isSpace (decodeRune (w ++ next)).1 = false ∧
    (isLetter env (decodeRune (w ++ next)).1 || isDigit env (decodeRune (w ++ next)).1) = false

/-- The slice `w` is a word of the scanner in front of `next`, a run of
letters and digits or one punctuation rune, other than `Object`, `Material`
and `{`. -/
def UnknownWord (env : Env F) (w next : List Nat) : Prop :=
  (WordRunes env w ∧ w ≠ [] ∧ w ≠ bytes "Object" ∧ w ≠ bytes "Material") ∨
    (PunctWord env w next ∧ w ≠ bytes "\x7b")

/-- The text after the header in the inputs that show what the word `{`
does: a material block. -/
def braceWordTail : List Nat := bytes "\nMaterial 1 \x7b\n\t\"m\"\n\x7d\n"

theorem Res.below_self {α : Type} (x : Res α) : Res.Below x x := Or.inr rfl

theorem Res.below_bind {α β : Type} {x y : Res α} {f g : α → Res β} (hx : Res.Below x y)
    (hf : ∀ a, Res.Below (f a) (g a)) : Res.Below (x.bind f) (y.bind g) := by
  rcases hx with rfl | rfl
  · exact Or.inl rfl
  · cases x with
    | ok a => exact hf a
    | panic => exact Or.inr rfl
    | diverge => exact Or.inl rfl

theorem Res.below_ok {α : Type} {x y : Res α} {a : α} (h : Res.Below x y)
    (hx : x = Res.ok a) : y = Res.ok a := by
  rcases h with h | h
  · rw [h] at hx
    cases hx
  · rw [← h, hx]

theorem parseMaterialLoop_mono (env : Env F) (n m : Nat) (h : n ≤ m) (mat : Material)
    (st : mqoState) :
    Res.Below (parseMaterialLoop env n mat st) (parseMaterialLoop env m mat st) := by
  induction n generalizing m mat st with
  | zero => exact Or.inl rfl
  | succ n ih =>
    obtain ⟨m', rfl⟩ : ∃ m', m = m' + 1 := ⟨m - 1, by omega⟩
    rw [parseMaterialLoop, parseMaterialLoop]
    cases (st.skipSpace.readParentheticArg env).1 with
    | none => exact Res.below_self _
    | some nc =>
      obtain ⟨name, content⟩ := nc
      simp only
      split_ifs
      · exact Res.below_self _
      · cases materialArgumentFuncs env name with
        | none => exact ih m' (by omega) _ _
        | some materialFunc =>
          simp only
          split_ifs
          · exact Res.below_self _
          · exact ih m' (by omega) _ _

theorem parseMaterial_mono (env : Env F) (n m : Nat) (h : n ≤ m) (mat : Material)
    (st : mqoState) :
    Res.Below (Material.parseMaterial env n mat st) (Material.parseMaterial env m mat st) := by
  unfold Material.parseMaterial
  dsimp only
  split
  · exact Res.below_self _
  · exact parseMaterialLoop_mono env n m h _ _

theorem parseMaterialsLoop_mono (env : Env F) (n m : Nat) (h : n ≤ m) (k i : Nat)
    (materials : List Material) (st : mqoState) :
    Res.Below (parseMaterialsLoop env n k i materials st)
      (parseMaterialsLoop env m k i materials st) := by
  induction k generalizing i materials st with
  | zero => exact Res.below_self _
  | succ k ih =>
    rw [parseMaterialsLoop, parseMaterialsLoop]
    apply Res.below_bind (Res.below_self _)
    intro line
    apply Res.below_bind (parseMaterial_mono env n m h _ _)
    intro material
    exact ih _ _ _

theorem parseMaterials_mono (env : Env F) (n m : Nat) (h : n ≤ m) (s : Scene F)
    (st : mqoState) :
    Res.Below (Scene.parseMaterials env n s st) (Scene.parseMaterials env m s st) := by
  unfold Scene.parseMaterials
  dsimp only
  split
  · exact Res.below_self _
  · split_ifs
    · exact Res.below_self _
    · apply Res.below_bind (parseMaterialsLoop_mono env n m h _ _ _ _)
      intro r
      exact Res.below_self _

theorem parseFaceLineLoop_mono (env : Env F) (num : Int) (n m : Nat) (h : n ≤ m) (f : Face F)
    (st : mqoState) :
    Res.Below (parseFaceLineLoop env num n f st) (parseFaceLineLoop env num m f st) := by
  induction n generalizing m f st with
  | zero => exact Or.inl rfl
  | succ n ih =>
    obtain ⟨m', rfl⟩ : ∃ m', m = m' + 1 := ⟨m - 1, by omega⟩
    rw [parseFaceLineLoop, parseFaceLineLoop]
    cases (st.skipSpace.readParentheticArg env).1 with
    | none => exact Res.below_self _
    | some nc =>
      obtain ⟨name, content⟩ := nc
      simp only
      split_ifs
      · exact Res.below_self _
      · cases faceArgumentFuncs env name with
        | none => exact ih m' (by omega) _ _
        | some faceFunc =>
          simp only
          apply Res.below_bind (Res.below_self _)
          intro r
          split_ifs
          · exact Res.below_self _
          · exact ih m' (by omega) _ _

theorem parseFaceLine_mono (env : Env F) (n m : Nat) (h : n ≤ m) (f : Face F) (st : mqoState) :
    Res.Below (Face.parseFaceLine env n f st) (Face.parseFaceLine env m f st) := by
  unfold Face.parseFaceLine
  dsimp only
  split
  · exact Res.below_self _
  · exact parseFaceLineLoop_mono env _ n m h _ _

theorem parseFacesLoop_mono (env : Env F) (n m : Nat) (h : n ≤ m) (k i : Nat)
    (faces : List (Face F)) (st : mqoState) :
    Res.Below (parseFacesLoop env n k i faces st) (parseFacesLoop env m k i faces st) := by
  induction k generalizing i faces st with
  | zero => exact Res.below_self _
  | succ k ih =>
    rw [parseFacesLoop, parseFacesLoop]
    apply Res.below_bind (Res.below_self _)
    intro line
    split_ifs
    · exact Res.below_self _
    · apply Res.below_bind (parseFaceLine_mono env n m h _ _)
      intro face
      exact ih _ _ _

theorem parseFaces_mono (env : Env F) (n m : Nat) (h : n ≤ m) (o : Object F) (st : mqoState) :
    Res.Below (Object.parseFaces env n o st) (Object.parseFaces env m o st) := by
  unfold Object.parseFaces
  dsimp only
  split
  · exact Res.below_self _
  · split_ifs
    · exact Res.below_self _
    · apply Res.below_bind (parseFacesLoop_mono env n m h _ _ _ _)
      intro r
      exact Res.below_self _

theorem parseObjectLoop_mono (env : Env F) (n m : Nat) (h : n ≤ m) (o : Object F)
    (st : mqoState) :
    Res.Below (parseObjectLoop env n o st) (parseObjectLoop env m o st) := by
  induction n generalizing m o st with
  | zero => exact Or.inl rfl
  | succ n ih =>
    obtain ⟨m', rfl⟩ : ∃ m', m = m' + 1 := ⟨m - 1, by omega⟩
    rw [parseObjectLoop, parseObjectLoop]
    dsimp only
    split_ifs
    · exact Res.below_self _
    · exact ih m' (by omega) _ _
    · apply Res.below_bind (parseFaces_mono env n m' (by omega) _ _)
      intro r
      exact ih m' (by omega) _ _
    · exact ih m' (by omega) _ _

theorem parseObject_mono (env : Env F) (n m : Nat) (h : n ≤ m) (o : Object F) (st : mqoState) :
    Res.Below (Object.parseObject env n o st) (Object.parseObject env m o st) := by
  unfold Object.parseObject
  dsimp only
  split
  · exact Res.below_self _
  · split_ifs
    · exact Res.below_self _
    · exact parseObjectLoop_mono env n m h _ _

theorem parseMainLoop_mono (env : Env F) (n m : Nat) (h : n ≤ m) (s : Scene F)
    (st : mqoState) :
    Res.Below (parseMainLoop env n s st) (parseMainLoop env m s st) := by
  induction n generalizing m s st with
  | zero => exact Or.inl rfl
  | succ n ih =>
    obtain ⟨m', rfl⟩ : ∃ m', m = m' + 1 := ⟨m - 1, by omega⟩
    rw [parseMainLoop, parseMainLoop]
    split_ifs
    · exact Res.below_self _
    · apply Res.below_bind (parseObject_mono env n m' (by omega) _ _)
      intro r
      exact ih m' (by omega) _ _
    · apply Res.below_bind (parseMaterials_mono env n m' (by omega) _ _)
      intro r
      exact ih m' (by omega) _ _
    · exact ih m' (by omega) _ _
    · exact ih m' (by omega) _ _

/-- A run of `Parse` that has ended with some budget ends alike with every
larger budget. -/
theorem Parse_mono (env : Env F) (n m : Nat) (h : n ≤ m) (s : Scene F) (mqoFile : List Nat) :
    Res.Below (Scene.Parse env n s mqoFile) (Scene.Parse env m s mqoFile) := by
  unfold Scene.Parse Scene.parseMain
  apply Res.below_bind (Res.below_self _)
  intro line
  split_ifs
  · exact Res.below_self _
  · apply Res.below_bind (Res.below_self _)
    intro line'
    split_ifs
    · exact Res.below_self _
    · apply Res.below_bind (parseMainLoop_mono env n m h _ _)
      intro r
      exact Res.below_self _

/-! ## Facts about `decodeRune` -/

theorem decodeRune_ascii (b : Nat) (t : List Nat) (h : b < 0x80) :
    decodeRune (b :: t) = (b, 1) := by
  simp [decodeRune, h]

/-- The shapes of a decoding step at a non-empty slice. -/
theorem decodeRune_cases (p0 : Nat) (t : List Nat) :
    (p0 < 0x80 ∧ decodeRune (p0 :: t) = (p0, 1)) ∨
    (0x80 ≤ p0 ∧ decodeRune (p0 :: t) = (RuneError, 1)) ∨
    (0x80 ≤ p0 ∧ ∃ b1 t' r, t = b1 :: t' ∧ isCont b1 = true ∧ 0x80 ≤ r ∧
      decodeRune (p0 :: t) = (r, 2)) ∨
    (0x80 ≤ p0 ∧ ∃ b1 b2 t' r, t = b1 :: b2 :: t' ∧ isCont b1 = true ∧ isCont b2 = true ∧
      0x80 ≤ r ∧ decodeRune (p0 :: t) = (r, 3)) ∨
    (0x80 ≤ p0 ∧ ∃ b1 b2 b3 t' r, t = b1 :: b2 :: b3 :: t' ∧ isCont b1 = true ∧
      isCont b2 = true ∧ isCont b3 = true ∧ 0x80 ≤ r ∧ decodeRune (p0 :: t) = (r, 4)) := by
  by_cases h1 : p0 < 0x80
  · exact Or.inl ⟨h1, by simp [decodeRune, h1]⟩
  have h1' : 0x80 ≤ p0 := by omega
  refine Or.inr ?_
  by_cases h2 : p0 < 0xC2
  · exact Or.inl ⟨h1', by simp [decodeRune, h1, h2]⟩
  by_cases h3 : p0 < 0xE0
  · cases t with
    | nil => exact Or.inl ⟨h1', by simp [decodeRune, h1, h2, h3]⟩
    | cons b1 t' =>
      by_cases hc : isCont b1 = true
      · refine Or.inr (Or.inl ⟨h1', b1, t', _, rfl, hc, ?_,
          by simp [decodeRune, h1, h2, h3, hc]; rfl⟩)
        omega
      · exact Or.inl ⟨h1', by simp [decodeRune, h1, h2, h3, hc]⟩
  by_cases h4 : p0 < 0xF0
  · match t with
    | [] => exact Or.inl ⟨h1', by simp [decodeRune, h1, h2, h3, h4]⟩
    | [_] => exact Or.inl ⟨h1', by simp [decodeRune, h1, h2, h3, h4]⟩
    | b1 :: b2 :: t' =>
      by_cases hc : (decide ((if p0 = 0xE0 then 0xA0 else 0x80) ≤ b1) &&
          decide (b1 ≤ (if p0 = 0xED then 0x9F else 0xBF)) && isCont b2) = true
      · have hd : decodeRune (p0 :: b1 :: b2 :: t') =
            ((p0 % 16) * 4096 + (b1 % 64) * 64 + b2 % 64, 3) := by
          simp only [decodeRune, h1, h2, h3, h4, if_false, if_true, hc]
        simp only [Bool.and_eq_true, decide_eq_true_eq] at hc
        obtain ⟨⟨hl, hh⟩, hc2⟩ := hc
        refine Or.inr (Or.inr (Or.inl ⟨h1', b1, b2, t', _, rfl, ?_, hc2, ?_, hd⟩))
        · simp only [isCont, Bool.and_eq_true, decide_eq_true_eq]
          split_ifs at hl hh <;> omega
        · split_ifs at hl hh <;> omega
      · exact Or.inl ⟨h1', by
          simp only [decodeRune, h1, h2, h3, h4, if_false, if_true, hc, Bool.false_eq_true]⟩
  by_cases h5 : p0 < 0xF5
  · match t with
    | [] => exact Or.inl ⟨h1', by simp [decodeRune, h1, h2, h3, h4, h5]⟩
    | [_] => exact Or.inl ⟨h1', by simp [decodeRune, h1, h2, h3, h4, h5]⟩
    | [_, _] => exact Or.inl ⟨h1', by simp [decodeRune, h1, h2, h3, h4, h5]⟩
    | b1 :: b2 :: b3 :: t' =>
      by_cases hc : (decide ((if p0 = 0xF0 then 0x90 else 0x80) ≤ b1) &&
          decide (b1 ≤ (if p0 = 0xF4 then 0x8F else 0xBF)) && isCont b2 && isCont b3) = true
      · have hd : decodeRune (p0 :: b1 :: b2 :: b3 :: t') =
            ((p0 % 8) * 262144 + (b1 % 64) * 4096 + (b2 % 64) * 64 + b3 % 64, 4) := by
          simp only [decodeRune, h1, h2, h3, h4, h5, if_false, if_true, hc]
        simp only [Bool.and_eq_true, decide_eq_true_eq] at hc
        obtain ⟨⟨⟨hl, hh⟩, hc2⟩, hc3⟩ := hc
        refine Or.inr (Or.inr (Or.inr ⟨h1', b1, b2, b3, t', _, rfl, ?_, hc2, hc3, ?_, hd⟩))
        · simp only [isCont, Bool.and_eq_true, decide_eq_true_eq]
          split_ifs at hl hh <;> omega
        · split_ifs at hl hh <;> omega
      · exact Or.inl ⟨h1', by
          simp only [decodeRune, h1, h2, h3, h4, h5, if_false, if_true, hc, Bool.false_eq_true]⟩
  exact Or.inl ⟨h1', by simp [decodeRune, h1, h2, h3, h4, h5]⟩

theorem decodeRune_nil : decodeRune [] = (RuneError, 0) := rfl

theorem decodeRune_size_pos (xs : List Nat) (h : xs ≠ []) : 1 ≤ (decodeRune xs).2 := by
  cases xs with
  | nil => exact absurd rfl h
  | cons p0 t =>
    rcases decodeRune_cases p0 t with h | h | ⟨-, _, _, _, _, _, _, h⟩ |
      ⟨-, _, _, _, _, _, _, _, _, h⟩ | ⟨-, _, _, _, _, _, _, _, _, _, _, h⟩ <;>
    simp [h]

theorem decodeRune_size_le (xs : List Nat) : (decodeRune xs).2 ≤ xs.length := by
  cases xs with
  | nil => simp [decodeRune]
  | cons p0 t =>
    rcases decodeRune_cases p0 t with h | h | ⟨-, _, _, _, ht, _, _, h⟩ |
      ⟨-, _, _, _, _, ht, _, _, _, h⟩ | ⟨-, _, _, _, _, _, ht, _, _, _, _, h⟩
    · simp [h]
    · simp [h]
    · rw [h]; subst ht; simp
    · rw [h]; subst ht; simp
    · rw [h]; subst ht; simp

/-- A rune that starts at a byte of at least `0x80` is no ASCII rune, and no
byte it covers is an ASCII byte. -/
theorem decodeRune_high (p0 : Nat) (t : List Nat) (h : 0x80 ≤ p0) :
    0x80 ≤ (decodeRune (p0 :: t)).1 ∧
      ∀ b ∈ (p0 :: t).take (decodeRune (p0 :: t)).2, 0x80 ≤ b := by
  have hc : ∀ b, isCont b = true → 0x80 ≤ b := by
    intro b hb
    simp only [isCont, Bool.and_eq_true, decide_eq_true_eq] at hb
    exact hb.1
  rcases decodeRune_cases p0 t with ⟨h', -⟩ | ⟨-, hd⟩ | ⟨-, b1, t', r, ht, h1, hr, hd⟩ |
      ⟨-, b1, b2, t', r, ht, h1, h2, hr, hd⟩ | ⟨-, b1, b2, b3, t', r, ht, h1, h2, h3, hr, hd⟩
  · omega
  · rw [hd]; simp [RuneError, h]
  · rw [hd]; subst ht; simp [hr, h, hc b1 h1]
  · rw [hd]; subst ht; simp [hr, h, hc b1 h1, hc b2 h2]
  · rw [hd]; subst ht; simp [hr, h, hc b1 h1, hc b2 h2, hc b3 h3]

/-- An ASCII byte right after a slice does not change how the slice decodes. -/
theorem decodeRune_append_ascii (xs ys : List Nat) (b : Nat) (hx : xs ≠ []) (hb : b < 0x80) :
    decodeRune (xs ++ b :: ys) = decodeRune xs := by
  have hcb : isCont b = false := by
    simp only [isCont, Bool.and_eq_false_imp, decide_eq_true_eq, decide_eq_false_iff_not]
    omega
  have hlo : ∀ p0 : Nat, decide ((if p0 = 0xE0 then 0xA0 else 0x80) ≤ b) = false := by
    intro p0; split_ifs <;> simp <;> omega
  have hlo' : ∀ p0 : Nat, decide ((if p0 = 0xF0 then 0x90 else 0x80) ≤ b) = false := by
    intro p0; split_ifs <;> simp <;> omega
  match xs, hx with
  | [p0], _ =>
    cases ys with
    | nil => simp [decodeRune, hcb]
    | cons y ys =>
      cases ys with
      | nil => simp [decodeRune, hcb, hlo]
      | cons y' ys => simp [decodeRune, hcb, hlo, hlo']
  | [p0, b1], _ =>
    cases ys with
    | nil => simp [decodeRune, hcb]
    | cons y ys => simp [decodeRune, hcb]
  | [p0, b1, b2], _ => simp [decodeRune, hcb]
  | p0 :: b1 :: b2 :: b3 :: t, _ => simp [decodeRune]

/-! ## Runs of runes -/

theorem Encodes_ascii (b : Nat) (h : b < 0x80) : Encodes [b] b :=
  ⟨by simp, fun t => by simpa using decodeRune_ascii b t h⟩

theorem Blank_append (a b : List Nat) (ha : Blank a) (hb : Blank b) : Blank (a ++ b) := by
  induction ha with
  | nil => simpa using hb
  | cons c ws r hc hr _ ih =>
    rw [List.append_assoc]
    exact Blank.cons c _ r hc hr ih

/-- ASCII whitespace bytes form a run of whitespace. -/
theorem Blank_of_ascii (ws : List Nat) (h : ∀ b ∈ ws, b < 0x80 ∧ isSpace b = true) :
    Blank ws := by
  induction ws with
  | nil => exact Blank.nil
  | cons b t ih =>
    have hb := h b (List.mem_cons_self _ _)
    have := Blank.cons [b] t b (Encodes_ascii b hb.1) hb.2
      (ih fun x hx => h x (List.mem_cons_of_mem _ hx))
    simpa using this

theorem asciiAlnum_lt (b : Nat) (h : asciiAlnum b = true) : b < 0x80 := by
  simp only [asciiAlnum, Bool.or_eq_true, Bool.and_eq_true, decide_eq_true_eq] at h
  omega

theorem asciiAlnum_not_space (b : Nat) (h : asciiAlnum b = true) : isSpace b = false := by
  simp only [asciiAlnum, Bool.or_eq_true, Bool.and_eq_true, decide_eq_true_eq] at h
  simp only [isSpace, Bool.or_eq_false_iff, Bool.and_eq_false_imp, decide_eq_true_eq,
    decide_eq_false_iff_not, beq_eq_false_iff_ne]
  omega

theorem asciiAlnum_letter_or_digit (env : Env F) (b : Nat) (h : asciiAlnum b = true) :
    (isLetter env b || isDigit env b) = true := by
  have hlt := asciiAlnum_lt b h
  simp only [asciiAlnum, Bool.or_eq_true, Bool.and_eq_true, decide_eq_true_eq] at h
  have h255 : b ≤ 0xFF := by omega
  simp only [isLetter, isDigit, h255, if_true, latin1Letter, Bool.or_eq_true, Bool.and_eq_true,
    decide_eq_true_eq, beq_iff_eq]
  omega

theorem asciiPunct_not_word (env : Env F) (b : Nat) (h : asciiPunct b = true) :
    (isLetter env b || isDigit env b) = false := by
  simp only [asciiPunct, asciiAlnum, Bool.and_eq_true, decide_eq_true_eq, Bool.not_eq_true',
    Bool.or_eq_false_iff, Bool.and_eq_false_imp] at h
  obtain ⟨⟨hlt, -⟩, ⟨h1, h2⟩, h3⟩ := h
  have h255 : b ≤ 0xFF := by omega
  simp only [isLetter, isDigit, h255, if_true, latin1Letter, Bool.or_eq_false_iff,
    Bool.and_eq_false_imp, decide_eq_true_eq, decide_eq_false_iff_not, beq_eq_false_iff_ne]
  simp only [decide_eq_false_iff_not] at h1 h2 h3
  omega

/-- ASCII letters and digits form a run of word characters. -/
theorem WordRunes_of_ascii (env : Env F) (w : List Nat) (h : ∀ b ∈ w, asciiAlnum b = true) :
    WordRunes env w := by
  induction w with
  | nil => exact WordRunes.nil
  | cons b t ih =>
    have hb := h b (List.mem_cons_self _ _)
    have := @WordRunes.cons F env [b] t b (Encodes_ascii b (asciiAlnum_lt b hb))
      (asciiAlnum_not_space b hb) (asciiAlnum_letter_or_digit env b hb)
      (ih fun x hx => h x (List.mem_cons_of_mem _ hx))
    simpa using this

/-! ## `skipSpace` -/

theorem skipSpaceLoop_pending (n : Nat) (p r : List Nat) :
    skipSpaceLoop n ⟨p, r⟩ = skipSpaceLoop n ⟨[], r⟩ := by
  induction n generalizing p r with
  | zero => rfl
  | succ n ih =>
    simp only [skipSpaceLoop, mqoState.getRune, mqoState.commit, mqoState.walk]
    split_ifs
    · rfl
    · rw [ih, ih ([] ++ _)]

theorem skipSpaceLoop_fuel (n m : Nat) (p r : List Nat) (hn : r.length ≤ n)
    (hm : r.length ≤ m) : skipSpaceLoop n ⟨p, r⟩ = skipSpaceLoop m ⟨p, r⟩ := by
  induction n generalizing m p r with
  | zero =>
    have hr : r = [] := List.length_eq_zero.mp (by omega)
    subst hr
    cases m <;> simp [skipSpaceLoop, mqoState.getRune, decodeRune]
  | succ n ih =>
    cases m with
    | zero =>
      have hr : r = [] := List.length_eq_zero.mp (by omega)
      subst hr
      simp [skipSpaceLoop, mqoState.getRune, decodeRune]
    | succ m =>
      simp only [skipSpaceLoop, mqoState.getRune, mqoState.walk]
      split_ifs with h
      · rfl
      · simp only [Bool.or_eq_true, Bool.not_eq_true', beq_iff_eq, not_or] at h
        apply ih <;> simp only [List.length_drop] <;> omega

/-- The loop equation of `skipSpace`. -/
theorem skipSpace_eq (p r : List Nat) :
    (mqoState.mk p r).skipSpace =
      if (!isSpace (decodeRune r).1 || (decodeRune r).2 == 0) = true then ⟨[], r⟩
      else (mqoState.mk [] (r.drop (decodeRune r).2)).skipSpace := by
  cases r with
  | nil => simp [mqoState.skipSpace, skipSpaceLoop, mqoState.commit, decodeRune]
  | cons b t =>
    simp only [mqoState.skipSpace, List.length_cons, skipSpaceLoop, mqoState.getRune,
      mqoState.walk, mqoState.commit]
    split_ifs with h
    · rfl
    · simp only [Bool.or_eq_true, Bool.not_eq_true', beq_iff_eq, not_or] at h
      rw [skipSpaceLoop_pending]
      apply skipSpaceLoop_fuel
      · simp only [List.length_drop, List.length_cons]; omega
      · exact le_refl _

theorem skipSpace_stop (p r : List Nat) (h : isSpace (decodeRune r).1 = false) :
    (mqoState.mk p r).skipSpace = ⟨[], r⟩ := by
  rw [skipSpace_eq]; simp [h]

theorem skipSpace_step (p c r : List Nat) (x : Nat) (hc : Encodes c x)
    (hx : isSpace x = true) :
    (mqoState.mk p (c ++ r)).skipSpace = (mqoState.mk [] r).skipSpace := by
  rw [skipSpace_eq, hc.2 r]
  have : c.length ≠ 0 := fun h => hc.1 (List.length_eq_zero.mp h)
  simp [hx, this]

/-- Leading whitespace is skipped whatever is pending. -/
theorem skipSpace_blank (p ws r : List Nat) (h : Blank ws) :
    (mqoState.mk p (ws ++ r)).skipSpace = (mqoState.mk [] r).skipSpace := by
  induction h generalizing p with
  | nil => rw [skipSpace_eq, skipSpace_eq [] r]; rfl
  | cons c ws x hc hx _ ih =>
    rw [List.append_assoc, skipSpace_step p c _ x hc hx, ih]

theorem skipSpace_blank_stop (p ws r : List Nat) (h : Blank ws)
    (hr : isSpace (decodeRune r).1 = false) :
    (mqoState.mk p (ws ++ r)).skipSpace = ⟨[], r⟩ := by
  rw [skipSpace_blank p ws r h, skipSpace_stop [] r hr]

/-- Induction along the runes that `skipSpace` walks over. -/
theorem skipSpace_induct (P : List Nat → mqoState → Prop)
    (stop : ∀ r, (!isSpace (decodeRune r).1 || (decodeRune r).2 == 0) = true → P r ⟨[], r⟩)
    (step : ∀ r, isSpace (decodeRune r).1 = true → (decodeRune r).2 ≠ 0 →
      P (r.drop (decodeRune r).2) (mqoState.mk [] (r.drop (decodeRune r).2)).skipSpace →
      P r (mqoState.mk [] (r.drop (decodeRune r).2)).skipSpace)
    (p r : List Nat) : P r (mqoState.mk p r).skipSpace := by
  suffices H : ∀ n (p r : List Nat), r.length = n → P r (mqoState.mk p r).skipSpace from
    H _ _ _ rfl
  intro n
  induction n using Nat.strong_induction_on with
  | _ n ih =>
    intro p r hn
    rw [skipSpace_eq]
    split_ifs with h
    · exact stop r h
    · simp only [Bool.or_eq_true, Bool.not_eq_true', beq_iff_eq, not_or,
        Bool.not_eq_false] at h
      refine step r h.1 h.2 (ih (r.drop (decodeRune r).2).length ?_ _ _ rfl)
      subst hn
      simp only [List.length_drop]
      have := decodeRune_size_le r
      omega

theorem skipSpace_pending (st : mqoState) : st.skipSpace.pending = [] := by
  obtain ⟨p, r⟩ := st
  exact skipSpace_induct (fun _ s => s.pending = []) (fun _ _ => rfl) (fun _ _ _ h => h) p r

/-- After `skipSpace` the input does not start with whitespace. -/
theorem skipSpace_rest_not_space (st : mqoState) :
    isSpace (decodeRune st.skipSpace.rest).1 = false := by
  obtain ⟨p, r⟩ := st
  refine skipSpace_induct (fun _ s => isSpace (decodeRune s.rest).1 = false) ?_
    (fun _ _ _ h => h) p r
  intro r h
  simp only [Bool.or_eq_true, Bool.not_eq_true', beq_iff_eq] at h
  rcases h with h | h
  · exact h
  · have : r = [] := by
      by_contra hne
      have := decodeRune_size_pos r hne
      omega
    subst this
    rfl

/-- The bytes `skipSpace` drops are ASCII whitespace or bytes of at least `0x80`. -/
theorem skipSpace_dropped (st : mqoState) :
    ∃ ws, st.rest = ws ++ st.skipSpace.rest ∧ ∀ b ∈ ws, isSpace b = true ∨ 0x80 ≤ b := by
  obtain ⟨p, r⟩ := st
  refine skipSpace_induct
    (fun r s => ∃ ws, r = ws ++ s.rest ∧ ∀ b ∈ ws, isSpace b = true ∨ 0x80 ≤ b) ?_ ?_ p r
  · intro r _
    exact ⟨[], rfl, by simp⟩
  · intro r h1 h2 ⟨ws, hws, hb⟩
    refine ⟨r.take (decodeRune r).2 ++ ws, ?_, ?_⟩
    · rw [List.append_assoc, ← hws, List.take_append_drop]
    · intro b hb'
      rcases List.mem_append.mp hb' with hb' | hb'
      · cases r with
        | nil => simp at hb'
        | cons b0 t =>
          by_cases hlt : b0 < 0x80
          · rw [decodeRune_ascii b0 t hlt] at hb' h1
            simp only [List.take_succ_cons, List.take_zero, List.mem_singleton] at hb'
            subst hb'
            exact Or.inl h1
          · exact Or.inr ((decodeRune_high b0 t (by omega)).2 b hb')
      · exact hb b hb'

theorem skipSpace_idem (st : mqoState) : st.skipSpace.skipSpace = st.skipSpace := by
  have h1 := skipSpace_pending st
  have h2 := skipSpace_rest_not_space st
  generalize st.skipSpace = s at h1 h2
  obtain ⟨p, r⟩ := s
  simp only at h1
  subst h1
  exact skipSpace_stop [] r h2

/-! ## Byte-level readings of the ASCII-delimited readers -/

theorem takeWhile_of_take (q : Nat → Bool) (l : List Nat) (s : Nat)
    (h : ∀ x ∈ l.take s, q x = true) :
    l.takeWhile q = l.take s ++ (l.drop s).takeWhile q ∧
      l.dropWhile q = (l.drop s).dropWhile q := by
  induction s generalizing l with
  | zero => simp
  | succ s ih =>
    cases l with
    | nil => simp
    | cons a t =>
      have ha : q a = true := h a (by simp)
      have := ih t (fun x hx => h x (by simp [hx]))
      simp [List.takeWhile_cons, List.dropWhile_cons, ha, this.1, this.2]

/-- With an ASCII character set `readChars` reads the longest run of bytes of the set. -/
theorem readCharsLoop_spec (validChars : List Nat) (hv : ∀ c ∈ validChars, c < 0x80)
    (n : Nat) (p r : List Nat) (hn : r.length ≤ n) :
    readCharsLoop validChars n ⟨p, r⟩ =
      (p ++ r.takeWhile validChars.contains, ⟨[], r.dropWhile validChars.contains⟩) := by
  induction n generalizing p r with
  | zero =>
    have hr : r = [] := List.length_eq_zero.mp (by omega)
    subst hr
    simp [readCharsLoop, mqoState.commit]
  | succ n ih =>
    cases r with
    | nil => simp [readCharsLoop, mqoState.getRune, decodeRune, mqoState.commit]
    | cons b t =>
      simp only [readCharsLoop, mqoState.getRune, mqoState.walk, mqoState.commit]
      by_cases hb : b < 0x80
      · rw [decodeRune_ascii b t hb]
        by_cases hc : b ∈ validChars
        · have hc' : validChars.contains b = true := by simpa using hc
          simp only [hc', Bool.not_true, Bool.false_or, beq_iff_eq, one_ne_zero, if_false,
            Bool.false_eq_true]
          rw [ih _ _ (by simpa using hn)]
          simp [List.takeWhile_cons, List.dropWhile_cons, hc]
        · simp [List.takeWhile_cons, List.dropWhile_cons, hc]
      · have hhigh := (decodeRune_high b t (by omega)).1
        have hc : (decodeRune (b :: t)).1 ∉ validChars := by
          intro hx
          have := hv _ hx
          omega
        have hc' : b ∉ validChars := by
          intro hx
          have := hv _ hx
          omega
        simp [hc, List.takeWhile_cons, List.dropWhile_cons, hc']

theorem readChars_spec (validChars : List Nat) (hv : ∀ c ∈ validChars, c < 0x80)
    (st : mqoState) :
    st.readChars validChars =
      (st.skipSpace.rest.takeWhile validChars.contains,
        ⟨[], st.skipSpace.rest.dropWhile validChars.contains⟩) := by
  have hp := skipSpace_pending st
  unfold mqoState.readChars
  generalize st.skipSpace = s at hp
  obtain ⟨p, r⟩ := s
  simp only at hp
  subst hp
  simpa using readCharsLoop_spec validChars hv r.length [] r (le_refl _)

/-- With an ASCII delimiter `readTo` reads up to the first byte equal to it. -/
theorem readToLoop_spec (char : Nat) (hc : char < 0x80) (n : Nat) (p r : List Nat)
    (hn : r.length ≤ n) :
    readToLoop char n ⟨p, r⟩ =
      (p ++ r.takeWhile (fun b => b != char), ⟨[], r.dropWhile (fun b => b != char)⟩) := by
  induction n generalizing p r with
  | zero =>
    have hr : r = [] := List.length_eq_zero.mp (by omega)
    subst hr
    simp [readToLoop, mqoState.commit]
  | succ n ih =>
    cases r with
    | nil => simp [readToLoop, mqoState.getRune, decodeRune, mqoState.commit]
    | cons b t =>
      simp only [readToLoop, mqoState.getRune, mqoState.walk, mqoState.commit]
      by_cases hb : b < 0x80
      · rw [decodeRune_ascii b t hb]
        by_cases he : b = char
        · simp [he, List.takeWhile_cons, List.dropWhile_cons]
        · simp only [beq_iff_eq, he, one_ne_zero, Bool.or_self, Bool.false_eq_true, if_false]
          rw [ih _ _ (by simpa using hn)]
          simp [List.takeWhile_cons, List.dropWhile_cons, he]
      · obtain ⟨hhigh, hall⟩ := decodeRune_high b t (by omega)
        have hpos := decodeRune_size_pos (b :: t) (by simp)
        have hne : ((decodeRune (b :: t)).1 == char) = false := by
          simp only [beq_eq_false_iff_ne]; omega
        have hs : ((decodeRune (b :: t)).2 == 0) = false := by
          simp only [beq_eq_false_iff_ne]; omega
        simp only [hne, hs, Bool.or_self, Bool.false_eq_true, if_false]
        rw [ih _ _ (by simp only [List.length_drop, List.length_cons] at hn ⊢; omega)]
        have := takeWhile_of_take (fun x => x != char) (b :: t) (decodeRune (b :: t)).2
          (fun x hx => by
            have := hall x hx
            simp only [bne_iff_ne]; omega)
        rw [this.1, this.2, List.append_assoc]

theorem readTo_spec (char : Nat) (hc : char < 0x80) (st : mqoState) :
    st.readTo char =
      (st.skipSpace.rest.takeWhile (fun b => b != char),
        ⟨[], st.skipSpace.rest.dropWhile (fun b => b != char)⟩) := by
  have hp := skipSpace_pending st
  unfold mqoState.readTo
  generalize st.skipSpace = s at hp
  obtain ⟨p, r⟩ := s
  simp only at hp
  subst hp
  simpa using readToLoop_spec char hc r.length [] r (le_refl _)

/-- The reader `readLine` reads up to the first line feed. -/
theorem readLineLoop_spec (n : Nat) (p r : List Nat) (hn : r.length ≤ n) :
    readLineLoop n ⟨p, r⟩ =
      readLineFinish ⟨p ++ r.takeWhile (fun b => b != 0x0A),
        r.dropWhile (fun b => b != 0x0A)⟩ := by
  induction n generalizing p r with
  | zero =>
    have hr : r = [] := List.length_eq_zero.mp (by omega)
    subst hr
    simp [readLineLoop]
  | succ n ih =>
    cases r with
    | nil => simp [readLineLoop, mqoState.getRune, decodeRune]
    | cons b t =>
      simp only [readLineLoop, mqoState.getRune, mqoState.walk]
      by_cases hb : b < 0x80
      · rw [decodeRune_ascii b t hb]
        by_cases he : b = 0x0A
        · simp [he, List.takeWhile_cons, List.dropWhile_cons]
        · simp only [beq_iff_eq, he, one_ne_zero, Bool.or_self, Bool.false_eq_true, if_false]
          rw [ih _ _ (by simpa using hn)]
          simp [List.takeWhile_cons, List.dropWhile_cons, he]
      · obtain ⟨hhigh, hall⟩ := decodeRune_high b t (by omega)
        have hpos := decodeRune_size_pos (b :: t) (by simp)
        have hne : ((decodeRune (b :: t)).1 == 0x0A) = false := by
          simp only [beq_eq_false_iff_ne]; omega
        have hs : ((decodeRune (b :: t)).2 == 0) = false := by
          simp only [beq_eq_false_iff_ne]; omega
        simp only [hne, hs, Bool.or_self, Bool.false_eq_true, if_false]
        rw [ih _ _ (by simp only [List.length_drop, List.length_cons] at hn ⊢; omega)]
        have := takeWhile_of_take (fun x => x != 0x0A) (b :: t) (decodeRune (b :: t)).2
          (fun x hx => by
            have := hall x hx
            simp only [bne_iff_ne]; omega)
        rw [this.1, this.2, List.append_assoc]

theorem readLine_spec (p r : List Nat) :
    (mqoState.mk p r).readLine =
      readLineFinish ⟨p ++ r.takeWhile (fun b => b != 0x0A),
        r.dropWhile (fun b => b != 0x0A)⟩ :=
  readLineLoop_spec r.length p r (le_refl _)

theorem afterEndBracket_drop (d : Int) (l : List Nat) (s : Nat)
    (h : ∀ x ∈ l.take s, 0x80 ≤ x) : afterEndBracket d l = afterEndBracket d (l.drop s) := by
  induction s generalizing l with
  | zero => simp
  | succ s ih =>
    cases l with
    | nil => simp
    | cons a t =>
      have ha : 0x80 ≤ a := h a (by simp)
      have h1 : (a == 0x7B) = false := by simp only [beq_eq_false_iff_ne]; omega
      have h2 : (a == 0x7D) = false := by simp only [beq_eq_false_iff_ne]; omega
      simp only [afterEndBracket, h1, h2, Bool.false_and, Bool.false_eq_true, if_false,
        List.drop_succ_cons]
      exact ih t (fun x hx => h x (by simp [hx]))

/-- The reader `skipToEndBracket` counts brace bytes. -/
theorem skipToEndBracketLoop_spec (n : Nat) (d : Int) (p r : List Nat) (hn : r.length ≤ n) :
    skipToEndBracketLoop n d ⟨p, r⟩ = ⟨[], afterEndBracket d r⟩ := by
  induction n generalizing d p r with
  | zero =>
    have hr : r = [] := List.length_eq_zero.mp (by omega)
    subst hr
    simp [skipToEndBracketLoop, mqoState.commit, afterEndBracket]
  | succ n ih =>
    cases r with
    | nil =>
      simp [skipToEndBracketLoop, mqoState.getRune, decodeRune, mqoState.commit,
        afterEndBracket, RuneError]
    | cons b t =>
      simp only [skipToEndBracketLoop, mqoState.getRune, mqoState.walk, mqoState.commit]
      by_cases hb : b < 0x80
      · simp only [decodeRune_ascii b t hb, afterEndBracket, List.drop_succ_cons,
          List.drop_zero, one_ne_zero, beq_iff_eq, if_false]
        split_ifs <;> first | rfl | exact ih _ _ _ (by simpa using hn)
      · obtain ⟨hhigh, hall⟩ := decodeRune_high b t (by omega)
        have hpos := decodeRune_size_pos (b :: t) (by simp)
        have h1 : ((decodeRune (b :: t)).1 == 0x7B) = false := by
          simp only [beq_eq_false_iff_ne]; omega
        have h2 : ((decodeRune (b :: t)).1 == 0x7D) = false := by
          simp only [beq_eq_false_iff_ne]; omega
        have hs : ((decodeRune (b :: t)).2 == 0) = false := by
          simp only [beq_eq_false_iff_ne]; omega
        simp only [h1, h2, hs, Bool.false_and, Bool.false_eq_true, if_false]
        rw [ih _ _ _ (by simp only [List.length_drop, List.length_cons] at hn ⊢; omega)]
        rw [afterEndBracket_drop d (b :: t) _ hall]

theorem skipToEndBracket_spec (d : Int) (p r : List Nat) :
    (mqoState.mk p r).skipToEndBracket d = ⟨[], afterEndBracket d r⟩ :=
  skipToEndBracketLoop_spec r.length d p r (le_refl _)

/-! ## `readWord` -/

theorem readWordLoop_nil (env : Env F) (n : Nat) (p : List Nat) :
    readWordLoop env n ⟨p, []⟩ = (p, ⟨[], []⟩) := by
  cases n <;> simp [readWordLoop, mqoState.getRune, decodeRune, mqoState.commit]

theorem readWordLoop_fuel (env : Env F) (n m : Nat) (p r : List Nat) (hn : r.length ≤ n)
    (hm : r.length ≤ m) : readWordLoop env n ⟨p, r⟩ = readWordLoop env m ⟨p, r⟩ := by
  induction n generalizing m p r with
  | zero =>
    have hr : r = [] := List.length_eq_zero.mp (by omega)
    subst hr
    rw [readWordLoop_nil, readWordLoop_nil]
  | succ n ih =>
    cases m with
    | zero =>
      have hr : r = [] := List.length_eq_zero.mp (by omega)
      subst hr
      rw [readWordLoop_nil, readWordLoop_nil]
    | succ m =>
      simp only [readWordLoop, mqoState.getRune, mqoState.walk]
      split_ifs with h
      · rfl
      · rfl
      · rfl
      · simp only [Bool.or_eq_true, beq_iff_eq, not_or] at h
        apply ih <;> simp only [List.length_drop] <;> omega

/-- A punctuation byte at the start of a word is a word of its own. -/
theorem readWordLoop_punct (env : Env F) (n : Nat) (b : Nat) (t : List Nat)
    (hb : asciiPunct b = true) :
    readWordLoop env (n + 1) ⟨[], b :: t⟩ = ([b], ⟨[], t⟩) := by
  have hw := asciiPunct_not_word env b hb
  simp only [asciiPunct, Bool.and_eq_true, decide_eq_true_eq, Bool.not_eq_true'] at hb
  obtain ⟨⟨hlt, hsp⟩, -⟩ := hb
  simp only [Bool.or_eq_false_iff] at hw
  simp [readWordLoop, mqoState.getRune, decodeRune_ascii b t hlt, hsp, hw.1, hw.2,
    mqoState.walk, mqoState.commit]

/-- A run of word characters is read up to the input that ends the word. -/
theorem readWordLoop_word (env : Env F) (w next : List Nat) (hw : WordRunes env w)
    (hstop : WordStop env next) (n : Nat) (p : List Nat) (hne : p ++ w ≠ [])
    (hn : (w ++ next).length ≤ n) :
    readWordLoop env n ⟨p, w ++ next⟩ = (p ++ w, ⟨[], next⟩) := by
  induction hw generalizing n p with
  | nil =>
    simp only [List.append_nil, List.nil_append] at hne hn ⊢
    rw [readWordLoop_fuel env n (next.length + 1) p next hn (by omega)]
    simp only [readWordLoop, mqoState.getRune, mqoState.commit]
    simp only [WordStop, Bool.or_eq_true] at hstop
    have hp : p.isEmpty = false := by
      cases p with
      | nil => exact absurd rfl hne
      | cons _ _ => rfl
    rcases hstop with hs | hs
    · simp only [← Bool.or_eq_true] at hs
      simp [hs]
    · split_ifs <;> simp_all
  | cons c w r hc hsp hld _ ih =>
    have hcl : c.length ≠ 0 := fun h => hc.1 (List.length_eq_zero.mp h)
    obtain ⟨k, rfl⟩ : ∃ k, n = k + 1 := by
      refine ⟨n - 1, ?_⟩
      simp only [List.length_append] at hn
      omega
    simp only [List.append_assoc, readWordLoop, mqoState.getRune, mqoState.walk, hc.2, hsp,
      Bool.false_or, beq_iff_eq, hcl, if_false, List.take_left', List.drop_left']
    simp only [Bool.or_eq_true] at hld
    have hnot : (!isLetter env r && !isDigit env r) = false := by
      rcases hld with h | h <;> simp [h]
    simp only [hnot, Bool.false_eq_true, if_false]
    rw [ih k (p ++ c)]
    · simp
    · have : c ≠ [] := hc.1
      simp [this]
    · simp only [List.length_append] at hn ⊢
      omega

/-- The word read starts with what was pending, and the word and the input
left make up the input. -/
theorem readWordLoop_split (env : Env F) (n : Nat) (p r : List Nat) :
    ∃ x, (readWordLoop env n ⟨p, r⟩).1 = p ++ x ∧
      (readWordLoop env n ⟨p, r⟩).2.pending = [] ∧
      x ++ (readWordLoop env n ⟨p, r⟩).2.rest = r := by
  induction n generalizing p r with
  | zero => exact ⟨[], by simp [readWordLoop, mqoState.commit]⟩
  | succ n ih =>
    simp only [readWordLoop, mqoState.getRune, mqoState.walk, mqoState.commit]
    split_ifs with h1 h2 h3
    · exact ⟨[], by simp⟩
    · simp only [List.isEmpty_iff] at h3
      subst h3
      exact ⟨List.take (decodeRune r).2 r, by simp⟩
    · exact ⟨[], by simp⟩
    · obtain ⟨x, hx1, hx2, hx3⟩ :=
        ih (p ++ List.take (decodeRune r).2 r) (List.drop (decodeRune r).2 r)
      refine ⟨List.take (decodeRune r).2 r ++ x, ?_, hx2, ?_⟩
      · rw [hx1, List.append_assoc]
      · rw [List.append_assoc, hx3, List.take_append_drop]

theorem readWordLoop_pending (env : Env F) (n : Nat) (p r : List Nat) :
    (readWordLoop env n ⟨p, r⟩).2.pending = [] ∧
      (readWordLoop env n ⟨p, r⟩).1 ++ (readWordLoop env n ⟨p, r⟩).2.rest = p ++ r := by
  obtain ⟨x, hx1, hx2, hx3⟩ := readWordLoop_split env n p r
  refine ⟨hx2, ?_⟩
  rw [hx1, List.append_assoc, hx3]

theorem readWord_pending (env : Env F) (st : mqoState) :
    (st.readWord env).2.pending = [] :=
  (readWordLoop_pending env _ _ _).1

/-- The word read and the input left make up the input after leading whitespace. -/
theorem readWord_append (env : Env F) (st : mqoState) :
    (st.readWord env).1 ++ (st.readWord env).2.rest = st.skipSpace.rest := by
  have hp := skipSpace_pending st
  unfold mqoState.readWord
  generalize st.skipSpace = s at hp
  obtain ⟨p, r⟩ := s
  simp only at hp
  subst hp
  simpa using (readWordLoop_pending env r.length [] r).2

theorem readWord_eof (env : Env F) (st : mqoState) (h : st.skipSpace.rest = []) :
    st.readWord env = ([], ⟨[], []⟩) := by
  have hp := skipSpace_pending st
  unfold mqoState.readWord
  generalize st.skipSpace = s at hp h
  obtain ⟨p, r⟩ := s
  simp only at hp h
  subst hp h
  rfl

theorem readWord_punct (env : Env F) (st : mqoState) (b : Nat) (t : List Nat)
    (hb : asciiPunct b = true) (h : st.skipSpace.rest = b :: t) :
    st.readWord env = ([b], ⟨[], t⟩) := by
  have hp := skipSpace_pending st
  unfold mqoState.readWord
  generalize st.skipSpace = s at hp h
  obtain ⟨p, r⟩ := s
  simp only at hp h
  subst hp h
  exact readWordLoop_punct env _ b t hb

theorem readWord_word (env : Env F) (st : mqoState) (w next : List Nat)
    (hw : WordRunes env w) (hne : w ≠ []) (hstop : WordStop env next)
    (h : st.skipSpace.rest = w ++ next) :
    st.readWord env = (w, ⟨[], next⟩) := by
  have hp := skipSpace_pending st
  unfold mqoState.readWord
  generalize st.skipSpace = s at hp h
  obtain ⟨p, r⟩ := s
  simp only at hp h
  subst hp h
  simpa using readWordLoop_word env w next hw hstop _ [] (by simpa using hne) (le_refl _)

/-- The word is empty exactly at the end of input. -/
theorem readWord_eq_nil_iff (env : Env F) (st : mqoState) :
    (st.readWord env).1 = [] ↔ st.skipSpace.rest = [] := by
  constructor
  · intro h
    have hp := skipSpace_pending st
    have hns := skipSpace_rest_not_space st
    unfold mqoState.readWord at h
    generalize st.skipSpace = s at hp h hns
    obtain ⟨p, r⟩ := s
    simp only at hp h hns ⊢
    subst hp
    cases r with
    | nil => rfl
    | cons b t =>
      exfalso
      have hpos := decodeRune_size_pos (b :: t) (by simp)
      have hs : (decodeRune (b :: t)).2 ≠ 0 := by omega
      have htk : List.take (decodeRune (b :: t)).2 (b :: t) ≠ [] := by
        intro h0
        have := congrArg List.length h0
        simp only [List.length_take, List.length_cons, List.length_nil] at this
        omega
      simp only [List.length_cons, readWordLoop, mqoState.getRune, hns, Bool.false_or,
        beq_iff_eq, hs, if_false, mqoState.walk, List.isEmpty_nil, if_true,
        List.nil_append] at h
      split_ifs at h with h1
      · exact htk h
      · obtain ⟨x, hx1, -, -⟩ := readWordLoop_split env t.length
          (List.take (decodeRune (b :: t)).2 (b :: t))
          (List.drop (decodeRune (b :: t)).2 (b :: t))
        rw [h] at hx1
        exact htk (List.append_eq_nil.mp hx1.symm).1
  · intro h
    rw [readWord_eof env st h]

/-! ## The header and the top-level loop -/

/-- C1, the code at the failing inputs: on the empty input, on a
whitespace-only input and on an input that holds only the first header line,
`Scene.Parse` does not return an error; `readLine` indexes the empty pending
slice (`word[len(word)-1]`) and the run ends in a Go panic. -/
theorem Parse_panics_when_header_line_missing (env : Env F) (fuel : Nat) (s : Scene F) :
    Scene.Parse env fuel s [] = Res.panic ∧
    Scene.Parse env fuel s (bytes " \n\t") = Res.panic ∧
    Scene.Parse env fuel s (bytes "Metasequoia Document\n") = Res.panic :=
  ⟨rfl, rfl, rfl⟩

/-- At the end of input the word loop of `parseObject` reads the empty word
for ever: no budget is enough. -/
theorem parseObjectLoop_eof (env : Env F) (n : Nat) (o : Object F) :
    parseObjectLoop env n o ⟨[], []⟩ = Res.diverge := by
  induction n with
  | zero => rfl
  | succ n ih =>
    have h : (mqoState.mk [] []).readWord env = ([], ⟨[], []⟩) := rfl
    simp only [parseObjectLoop, h]
    rw [if_neg (by decide), if_neg (by decide), if_neg (by decide)]
    exact ih

/-- C8: when the two header lines are accepted, `Scene.Parse` returns nil
whenever it returns, whatever follows the header. -/
theorem Parse_error_only_from_header (env : Env F) (fuel : Nat) (s : Scene F)
    (mqoFile : List Nat) (r : Option ParseError × Scene F)
    (hh : headerAccepted mqoFile = true) (hr : Scene.Parse env fuel s mqoFile = Res.ok r) :
    r.1 = none := by
  unfold headerAccepted at hh
  unfold Scene.Parse Scene.parseMain at hr
  cases h1 : (mqoState.init mqoFile).skipSpace.readLine with
  | panic => rw [h1] at hh; cases hh
  | diverge => rw [h1] at hh; cases hh
  | ok line =>
    rw [h1] at hh hr
    simp only [Bool.and_eq_true, beq_iff_eq] at hh
    obtain ⟨hl1, hh⟩ := hh
    simp only [Res.bind, hl1, ne_eq, not_true_eq_false, if_false] at hr
    cases h2 : line.2.skipSpace.readLine with
    | panic => rw [h2] at hh; cases hh
    | diverge => rw [h2] at hh; cases hh
    | ok line' =>
      rw [h2] at hh hr
      simp only [beq_iff_eq] at hh
      simp only [hh, not_true_eq_false, if_false] at hr
      cases hl : parseMainLoop env fuel s line'.2 with
      | ok a =>
        rw [hl] at hr
        simp only [Res.ok.injEq] at hr
        rw [← hr]
      | panic => rw [hl] at hr; cases hr
      | diverge => rw [hl] at hr; cases hr

set_option maxRecDepth 100000 in
/-- C8 at a concrete input: after a valid header, blocks with a non-numeric
count, a missing `{`, a malformed number, a `V` field-count mismatch and a
missing quote; the run returns nil. -/
theorem Parse_error_only_from_header_witness :
    headerAccepted malformedBodyInput = true ∧
    Scene.Parse decimalEnv 20 ⟨[], []⟩ malformedBodyInput =
      Res.ok (none, malformedBodyScene) ∧
    ((none, malformedBodyScene) : Option ParseError × Scene Decimal).1 = none :=
  have hh : headerAccepted malformedBodyInput = true := by decide
  have hr : Scene.Parse decimalEnv 20 ⟨[], []⟩ malformedBodyInput =
      Res.ok (none, malformedBodyScene) := by decide
  ⟨hh, hr, Parse_error_only_from_header decimalEnv 20 ⟨[], []⟩ malformedBodyInput _ hh hr⟩

/-! ## `readQuote` -/

theorem takeWhile_ne_append (q : Nat) (l t : List Nat) (h : q ∉ l) :
    (l ++ q :: t).takeWhile (fun b => b != q) = l ∧
      (l ++ q :: t).dropWhile (fun b => b != q) = q :: t := by
  induction l with
  | nil => simp [List.takeWhile_cons, List.dropWhile_cons]
  | cons a l ih =>
    have ha : a ≠ q := fun e => h (by simp [e])
    have := ih (fun hq => h (List.mem_cons_of_mem _ hq))
    simp [List.takeWhile_cons, List.dropWhile_cons, ha, this.1, this.2]

theorem dropWhile_ne_shape (q : Nat) (l : List Nat) :
    l.dropWhile (fun b => b != q) = [] ∨
      ∃ t, l.dropWhile (fun b => b != q) = q :: t := by
  induction l with
  | nil => exact Or.inl rfl
  | cons a l ih =>
    by_cases ha : a = q
    · exact Or.inr ⟨l, by simp [List.dropWhile_cons, ha]⟩
    · simpa [List.dropWhile_cons, ha] using ih

/-- Leading whitespace is skipped the same way in front of an ASCII byte
that is no whitespace. -/
theorem skipSpace_append_ascii (q : Nat) (hq : q < 0x80) (hs : isSpace q = false)
    (body tail p : List Nat) :
    (mqoState.mk p (body ++ q :: tail)).skipSpace =
      ⟨[], dropLeadingSpace body ++ q :: tail⟩ := by
  suffices H : ∀ n (p body : List Nat), body.length = n →
      (mqoState.mk p (body ++ q :: tail)).skipSpace =
        ⟨[], (mqoState.mk [] body).skipSpace.rest ++ q :: tail⟩ from H _ _ _ rfl
  intro n
  induction n using Nat.strong_induction_on with
  | _ n ih =>
    intro p body hn
    by_cases hb : body = []
    · subst hb
      rw [skipSpace_stop _ _ (by rw [List.nil_append, decodeRune_ascii q tail hq]; exact hs)]
      rfl
    · rw [skipSpace_eq, skipSpace_eq [] body, decodeRune_append_ascii body tail q hb hq]
      have hpos := decodeRune_size_pos body hb
      have hle := decodeRune_size_le body
      split_ifs with h
      · rfl
      · rw [List.drop_append_of_le_length hle]
        exact ih _ (by subst hn; simp only [List.length_drop]; omega) _ _ rfl

theorem dropLeadingSpace_suffix (body : List Nat) :
    ∃ ws, body = ws ++ dropLeadingSpace body :=
  let ⟨ws, h, _⟩ := skipSpace_dropped (mqoState.init body)
  ⟨ws, h⟩

theorem asciiPunct_quote (q : Nat) (h : q = 0x22 ∨ q = 0x27) : asciiPunct q = true := by
  rcases h with h | h <;> subst h <;> decide

/-- A quoted text is read up to the first later occurrence of the opening quote. -/
theorem readQuote_ok (env : Env F) (st : mqoState) (q : Nat) (body tail : List Nat)
    (hq : q = 0x22 ∨ q = 0x27) (hb : q ∉ body)
    (h : st.skipSpace.rest = q :: (body ++ q :: tail)) :
    st.readQuote env = (some (dropLeadingSpace body), ⟨[], tail⟩) := by
  have hp := asciiPunct_quote q hq
  have hlt : q < 0x80 := by rcases hq with h | h <;> omega
  have hsp : isSpace q = false := by rcases hq with h | h <;> subst h <;> decide
  have h1 := readWord_punct env st q _ hp h
  have hb' : q ∉ dropLeadingSpace body := by
    obtain ⟨ws, hws⟩ := dropLeadingSpace_suffix body
    intro hm
    exact hb (by rw [hws]; exact List.mem_append_right _ hm)
  have h2 : (mqoState.mk [] (body ++ q :: tail)).readTo q =
      (dropLeadingSpace body, ⟨[], q :: tail⟩) := by
    rw [readTo_spec q hlt, skipSpace_append_ascii q hlt hsp]
    have := takeWhile_ne_append q (dropLeadingSpace body) tail hb'
    simp only [this.1, this.2]
  have h3 : (mqoState.mk [] (q :: tail)).readWord env = ([q], ⟨[], tail⟩) :=
    readWord_punct env _ q tail hp
      (by rw [skipSpace_stop _ _ (by rw [decodeRune_ascii q tail hlt]; exact hsp)])
  have hne : ¬([q] ≠ [0x22] ∧ [q] ≠ [0x27]) := by
    rcases hq with h | h <;> subst h <;> decide
  simp only [mqoState.readQuote, h1, List.headD_cons, h2, h3, hne, if_false, ne_eq,
    not_true_eq_false]

/-- C6: `readQuote` succeeds exactly when the input after leading whitespace
starts with `"` or `'` and the same byte occurs again later; it then returns
the text between the opening quote and its first later occurrence, with the
leading whitespace of that text removed, and leaves the input right after
the closing quote. -/
theorem readQuote_spec (env : Env F) (st : mqoState) :
    (∀ q body tail, (q = 0x22 ∨ q = 0x27) → q ∉ body →
        st.skipSpace.rest = q :: (body ++ q :: tail) →
        st.readQuote env = (some (dropLeadingSpace body), ⟨[], tail⟩)) ∧
    ((st.readQuote env).1.isSome = true ↔
      ∃ q body tail, (q = 0x22 ∨ q = 0x27) ∧ st.skipSpace.rest = q :: (body ++ q :: tail)) := by
  refine ⟨fun q body tail hq hb h => readQuote_ok env st q body tail hq hb h, ?_, ?_⟩
  · intro hsome
    have happ := readWord_append env st
    have hpen := readWord_pending env st
    unfold mqoState.readQuote at hsome
    generalize st.readWord env = sq at hsome happ hpen
    obtain ⟨w, st1⟩ := sq
    obtain ⟨p1, r1⟩ := st1
    simp only at hsome happ hpen
    subst hpen
    split_ifs at hsome with hw hend
    · simp at hsome
    · simp at hsome
    · obtain ⟨q, hq, hwq⟩ : ∃ q, (q = 0x22 ∨ q = 0x27) ∧ w = [q] := by
        by_cases h22 : w = [0x22]
        · exact ⟨0x22, Or.inl rfl, h22⟩
        · by_cases h27 : w = [0x27]
          · exact ⟨0x27, Or.inr rfl, h27⟩
          · exact absurd ⟨h22, h27⟩ hw
      subst hwq
      have hlt : q < 0x80 := by rcases hq with h | h <;> omega
      simp only [List.headD_cons, readTo_spec q hlt, ne_eq, not_not] at hend
      obtain ⟨ws, hws, -⟩ := skipSpace_dropped (mqoState.mk [] r1)
      simp only at hws
      generalize (mqoState.mk [] r1).skipSpace.rest = A at hws hend
      have hsplit := List.takeWhile_append_dropWhile (fun b => b != q) A
      have happ2 := readWord_append env (mqoState.mk [] (A.dropWhile (fun b => b != q)))
      rw [hend] at happ2
      obtain ⟨ws2, hws2, -⟩ := skipSpace_dropped (mqoState.mk [] (A.dropWhile (fun b => b != q)))
      simp only at hws2
      generalize (mqoState.mk [] (A.dropWhile (fun b => b != q))).skipSpace.rest = B
        at hws2 happ2
      generalize (mqoState.readWord env
        (mqoState.mk [] (A.dropWhile (fun b => b != q)))).2.rest = W at happ2
      generalize A.dropWhile (fun b => b != q) = D at hsplit hws2
      generalize A.takeWhile (fun b => b != q) = T at hsplit
      refine ⟨q, ws ++ T ++ ws2, W, hq, ?_⟩
      rw [← happ, hws, ← hsplit, hws2, ← happ2]
      simp
  · rintro ⟨q, body, tail, hq, h⟩
    have hmem : q ∈ body ++ q :: tail := by simp
    rcases dropWhile_ne_shape q (body ++ q :: tail) with hd | ⟨t, hd⟩
    · exfalso
      have := List.dropWhile_eq_nil_iff.mp hd q hmem
      simp at this
    · have hsplit := List.takeWhile_append_dropWhile (fun b => b != q) (body ++ q :: tail)
      rw [hd] at hsplit
      have hnm : q ∉ (body ++ q :: tail).takeWhile (fun b => b != q) := by
        intro hm
        have := List.mem_takeWhile_imp hm
        simp at this
      rw [← hsplit] at h
      rw [readQuote_ok env st q _ t hq hnm h]
      rfl

/-- C6 at concrete inputs: a single-quoted text is read with its leading
whitespace removed; `'abc"` and `"abc'` fail, as does an input that starts
with no quote. -/
theorem readQuote_spec_witness :
    (mqoState.init (bytes "  ' a b' x")).readQuote decimalEnv =
        (some (dropLeadingSpace (bytes " a b")), ⟨[], bytes " x"⟩) ∧
      dropLeadingSpace (bytes " a b") = bytes "a b" ∧
      ((mqoState.init (bytes "'abc\"")).readQuote decimalEnv).1 = none ∧
      ((mqoState.init (bytes "\"abc'")).readQuote decimalEnv).1 = none ∧
      ((mqoState.init (bytes "abc")).readQuote decimalEnv).1 = none :=
  ⟨(readQuote_spec decimalEnv (mqoState.init (bytes "  ' a b' x"))).1 0x27 (bytes " a b")
      (bytes " x") (Or.inr rfl) (by decide) (by decide),
    by decide, by decide, by decide, by decide⟩
theorem WordStop_nil (env : Env F) : WordStop env [] := by
  simp [WordStop, decodeRune]

/-- An ASCII byte that is no letter and no digit ends a word. -/
theorem WordStop_of_byte (env : Env F) (b : Nat) (t : List Nat)
    (h : (decide (b < 0x80) && !asciiAlnum b) = true) : WordStop env (b :: t) := by
  simp only [Bool.and_eq_true, decide_eq_true_eq, Bool.not_eq_true'] at h
  obtain ⟨hlt, hal⟩ := h
  by_cases hs : isSpace b = true
  · simp [WordStop, decodeRune_ascii b t hlt, hs]
  · have hp : asciiPunct b = true := by
      simp only [Bool.not_eq_true] at hs
      simp [asciiPunct, hlt, hs, hal]
    have := asciiPunct_not_word env b hp
    simp only [Bool.or_eq_false_iff] at this
    simp [WordStop, decodeRune_ascii b t hlt, this.1, this.2]

/-- C7, the code at the failing input: after a valid header, `Object "a" {`
and the end of input, `Scene.Parse` is still running whatever the iteration
budget: the word loop of `parseObject` has no exit at the end of input. -/
theorem Parse_diverges_on_unclosed_object (env : Env F) (fuel : Nat) (s : Scene F) :
    Scene.Parse env fuel s unclosedObjectInput = Res.diverge := by
  have h1 : (mqoState.init unclosedObjectInput).skipSpace.readLine =
      Res.ok (bytes "Metasequoia Document",
        ⟨[], bytes "\nFormat Text Ver 1.0\nObject \"a\" \x7b"⟩) := by decide
  have h2 : (mqoState.mk [] (bytes "\nFormat Text Ver 1.0\nObject \"a\" \x7b")).skipSpace.readLine =
      Res.ok (bytes "Format Text Ver 1.0", ⟨[], bytes "\nObject \"a\" \x7b"⟩) := by decide
  have h3 : (mqoState.mk [] (bytes "\nObject \"a\" \x7b")).readWord env =
      (bytes "Object", ⟨[], bytes " \"a\" \x7b"⟩) :=
    readWord_word env _ (bytes "Object") (bytes " \"a\" \x7b")
      (WordRunes_of_ascii env _ (by decide)) (by decide) (WordStop_of_byte env _ _ (by decide))
      (by decide)
  have h4 : (mqoState.mk [] (bytes " \"a\" \x7b")).skipSpace.readQuote env =
      (some (bytes "a"), ⟨[], bytes " \x7b"⟩) :=
    readQuote_ok env _ 0x22 (bytes "a") (bytes " \x7b") (Or.inl rfl) (by decide) (by decide)
  have h5 : (mqoState.mk [] (bytes " \x7b")).readWord env = (bytes "\x7b", ⟨[], []⟩) :=
    readWord_punct env _ 0x7B [] (by decide) (by decide)
  have hmain : ∀ n, parseMainLoop env n s ⟨[], bytes "\nObject \"a\" \x7b"⟩ = Res.diverge := by
    intro n
    cases n with
    | zero => rfl
    | succ n =>
      rw [parseMainLoop, h3]
      dsimp only
      rw [if_neg (by decide), if_pos rfl]
      unfold Object.parseObject
      rw [h4]
      dsimp only
      rw [h5]
      dsimp only
      rw [if_neg (by decide), parseObjectLoop_eof]
      rfl
  unfold Scene.Parse Scene.parseMain
  rw [h1]
  dsimp only [Res.bind]
  rw [if_neg (by decide), h2]
  dsimp only [Res.bind]
  rw [if_neg (by decide), hmain]

/-! ## Skipping an unknown block -/

theorem afterEndBracket_balanced (B R : List Nat) (d : Int)
    (hpre : ∀ k, k ≤ B.length →
      1 ≤ d + ((B.take k).count 0x7B : Int) - ((B.take k).count 0x7D : Int))
    (htot : d + (B.count 0x7B : Int) - (B.count 0x7D : Int) = 1) :
    afterEndBracket d (B ++ 0x7D :: R) = R := by
  induction B generalizing d with
  | nil =>
    simp only [List.count_nil, Nat.cast_zero, add_zero, sub_zero] at htot
    subst htot
    simp [afterEndBracket]
  | cons b t ih =>
    have h1 := hpre 1 (by simp)
    simp only [List.take_succ_cons, List.take_zero] at h1
    simp only [List.cons_append, afterEndBracket]
    have hstep : ∀ k, k ≤ t.length → (b :: t).take (k + 1) = b :: t.take k := fun k _ => rfl
    by_cases hb1 : b = 0x7B
    · subst hb1
      simp only [beq_self_eq_true, if_true, show ((0x7B : Nat) == 0x7D) = false from rfl,
        Bool.false_and, Bool.false_eq_true, if_false]
      apply ih
      · intro k hk
        have := hpre (k + 1) (by simpa using hk)
        rw [hstep k hk] at this
        simp only [List.count_cons_self, Nat.cast_add, Nat.cast_one,
          List.count_cons_of_ne (show (0x7D : Nat) ≠ 0x7B by decide)] at this
        omega
      · simp only [List.count_cons_self, Nat.cast_add, Nat.cast_one,
          List.count_cons_of_ne (show (0x7D : Nat) ≠ 0x7B by decide)] at htot
        omega
    · by_cases hb2 : b = 0x7D
      · subst hb2
        simp only [List.count_cons_self, List.count_nil, zero_add, Nat.cast_one,
          List.count_cons_of_ne (show (0x7B : Nat) ≠ 0x7D by decide), Nat.cast_zero,
          add_zero] at h1
        have hd : ¬(d - 1 = 0) := by omega
        simp only [show ((0x7D : Nat) == 0x7B) = false from rfl, Bool.false_eq_true, if_false,
          beq_self_eq_true, if_true, Bool.true_and, beq_iff_eq, hd]
        apply ih
        · intro k hk
          have := hpre (k + 1) (by simpa using hk)
          rw [hstep k hk] at this
          simp only [List.count_cons_self, Nat.cast_add, Nat.cast_one,
            List.count_cons_of_ne (show (0x7B : Nat) ≠ 0x7D by decide)] at this
          omega
        · simp only [List.count_cons_self, Nat.cast_add, Nat.cast_one,
            List.count_cons_of_ne (show (0x7B : Nat) ≠ 0x7D by decide)] at htot
          omega
      · have e1 : (b == 0x7B) = false := by simpa using hb1
        have e2 : (b == 0x7D) = false := by simpa using hb2
        simp only [e1, e2, Bool.false_eq_true, if_false, Bool.false_and]
        apply ih
        · intro k hk
          have := hpre (k + 1) (by simpa using hk)
          rw [hstep k hk] at this
          simp only [List.count_cons_of_ne (Ne.symm hb1),
            List.count_cons_of_ne (Ne.symm hb2)] at this
          exact this
        · simp only [List.count_cons_of_ne (Ne.symm hb1),
            List.count_cons_of_ne (Ne.symm hb2)] at htot
          exact htot

/-- Balanced text and its closing brace are skipped exactly. -/
theorem skipToEndBracket_balanced (B R p : List Nat) (hB : Balanced B) :
    (mqoState.mk p (B ++ 0x7D :: R)).skipToEndBracket 1 = ⟨[], R⟩ := by
  rw [skipToEndBracket_spec, afterEndBracket_balanced B R 1]
  · intro k hk
    have := hB.1 k hk
    omega
  · have := hB.2
    omega
theorem WordRunes_head (env : Env F) (w : List Nat) (hw : WordRunes env w) (hne : w ≠ []) :
    ∃ c w' r, w = c ++ w' ∧ Encodes c r ∧ isSpace r = false ∧
      (isLetter env r || isDigit env r) = true := by
  cases hw with
  | nil => exact absurd rfl hne
  | cons c w' r hc hs hl _ => exact ⟨c, w', r, rfl, hc, hs, hl⟩

theorem WordRunes_not_space (env : Env F) (w next : List Nat) (hw : WordRunes env w)
    (hne : w ≠ []) : isSpace (decodeRune (w ++ next)).1 = false := by
  obtain ⟨c, w', r, rfl, hc, hs, -⟩ := WordRunes_head env w hw hne
  rw [List.append_assoc, hc.2]
  exact hs

/-- A run of word characters does not start with a punctuation byte. -/
theorem WordRunes_ne_punct (env : Env F) (b : Nat) (t : List Nat) (hb : asciiPunct b = true) :
    ¬WordRunes env (b :: t) := by
  intro hw
  obtain ⟨c, w', r, he, hc, -, hl⟩ := WordRunes_head env _ hw (by simp)
  cases c with
  | nil => exact hc.1 rfl
  | cons c0 c' =>
    simp only [List.cons_append, List.cons.injEq] at he
    obtain ⟨rfl, -⟩ := he
    have hlt : b < 0x80 := by
      simp only [asciiPunct, Bool.and_eq_true, decide_eq_true_eq] at hb
      exact hb.1.1
    have := hc.2 []
    rw [List.append_nil, decodeRune_ascii b c' hlt] at this
    have hr : r = b := (Prod.mk.inj this).1.symm
    subst hr
    rw [asciiPunct_not_word env r hb] at hl
    cases hl

theorem WordStop_blank_punct (env : Env F) (ws t : List Nat) (b : Nat) (hws : Blank ws)
    (hb : asciiPunct b = true) : WordStop env (ws ++ b :: t) := by
  cases hws with
  | nil =>
    refine WordStop_of_byte env b t ?_
    simp only [asciiPunct, Bool.and_eq_true, decide_eq_true_eq, Bool.not_eq_true'] at hb
    simp [hb.1.1, hb.2]
  | cons c ws' r hc hr _ =>
    simp only [WordStop, List.append_assoc, hc.2, hr, Bool.true_or]

theorem readWord_blank (env : Env F) (p ws X : List Nat) (hws : Blank ws) :
    (mqoState.mk p (ws ++ X)).readWord env = (mqoState.mk [] X).readWord env := by
  unfold mqoState.readWord
  rw [skipSpace_blank p ws X hws]

theorem parseMainLoop_blank (env : Env F) (n : Nat) (s : Scene F) (p ws X : List Nat)
    (hws : Blank ws) :
    parseMainLoop env n s ⟨p, ws ++ X⟩ = parseMainLoop env n s ⟨[], X⟩ := by
  cases n with
  | zero => rfl
  | succ n => simp only [parseMainLoop, readWord_blank env p ws X hws]

theorem Blank_lf : Blank [0x0A] := Blank_of_ascii _ (by decide)

/-- A header line ended by an optional carriage return and a line feed. -/
theorem readLine_line (L cr X : List Nat) (hmem : 0x0A ∉ L)
    (hlast : ∃ c, L.getLast? = some c ∧ c ≠ 0x0D) (hcr : cr = [] ∨ cr = [0x0D]) :
    (mqoState.mk [] (L ++ (cr ++ 0x0A :: X))).readLine = Res.ok (L, ⟨[], 0x0A :: X⟩) := by
  obtain ⟨c, hc, hc13⟩ := hlast
  have hm : 0x0A ∉ L ++ cr := by
    rcases hcr with h | h <;> subst h <;> simp [hmem]
  have := takeWhile_ne_append 0x0A (L ++ cr) X hm
  rw [readLine_spec, ← List.append_assoc, this.1, this.2, List.nil_append]
  rcases hcr with h | h <;> subst h
  · simp only [List.append_nil, readLineFinish, hc, mqoState.commit]
    have : (c == 0x0D) = false := by simpa using hc13
    simp [this]
  · simp [readLineFinish, mqoState.commit]

/-- After a valid header the top-level loop starts at the line feed that ends it. -/
theorem Parse_header (env : Env F) (fuel : Nat) (s : Scene F) (H X : List Nat)
    (hH : ValidHeader H) :
    Scene.Parse env fuel s (H ++ X) =
      (parseMainLoop env fuel s ⟨[], 0x0A :: X⟩).bind fun r => Res.ok (none, r.1) := by
  obtain ⟨ws0, ws1, cr0, cr1, h0, h1, hc0, hc1, rfl⟩ := hH
  have e : ws0 ++ bytes "Metasequoia Document" ++ cr0 ++ [0x0A] ++ ws1 ++
      bytes "Format Text Ver 1.0" ++ cr1 ++ [0x0A] ++ X =
      ws0 ++ (bytes "Metasequoia Document" ++ (cr0 ++ 0x0A :: (ws1 ++
        (bytes "Format Text Ver 1.0" ++ (cr1 ++ 0x0A :: X))))) := by
    simp only [List.append_assoc, List.singleton_append, List.cons_append, List.nil_append]
  have hs1 : ∀ Y, isSpace (decodeRune (bytes "Metasequoia Document" ++ Y)).1 = false :=
    fun Y => rfl
  have hs2 : ∀ Y, isSpace (decodeRune (bytes "Format Text Ver 1.0" ++ Y)).1 = false :=
    fun Y => rfl
  have hb : Blank (0x0A :: ws1) := by
    simpa using Blank_append [0x0A] ws1 Blank_lf h1
  unfold Scene.Parse Scene.parseMain mqoState.init
  rw [e, skipSpace_blank_stop _ _ _ h0 (hs1 _),
    readLine_line _ cr0 _ (by decide) ⟨0x74, by decide, by decide⟩ hc0]
  dsimp only [Res.bind]
  rw [if_neg (by simp)]
  have e2 : (0x0A :: (ws1 ++ (bytes "Format Text Ver 1.0" ++ (cr1 ++ 0x0A :: X)))) =
      (0x0A :: ws1) ++ (bytes "Format Text Ver 1.0" ++ (cr1 ++ 0x0A :: X)) := rfl
  rw [e2, skipSpace_blank_stop _ _ _ hb (hs2 _),
    readLine_line _ cr1 _ (by decide) ⟨0x30, by decide, by decide⟩ hc1]
  dsimp only [Res.bind]
  rw [if_neg (by simp)]

/-- A punctuation rune is a word by itself. -/
theorem readWord_punct_rune (env : Env F) (st : mqoState) (w next : List Nat)
    (hw : PunctWord env w next) (h : st.skipSpace.rest = w ++ next) :
    st.readWord env = (w, ⟨[], next⟩) := by
  obtain ⟨hne, hsize, hsp, hld⟩ := hw
  have hp := skipSpace_pending st
  unfold mqoState.readWord
  generalize st.skipSpace = s at hp h
  obtain ⟨p, r⟩ := s
  simp only at hp h
  subst hp h
  obtain ⟨n, hn⟩ : ∃ n, (w ++ next).length = n + 1 := by
    cases w with
    | nil => exact absurd rfl hne
    | cons b t => exact ⟨(t ++ next).length, by simp⟩
  simp only [hn, readWordLoop, mqoState.getRune, hsp, hsize, Bool.false_or]
  have hz : (w.length == 0) = false := by
    rw [beq_eq_false_iff_ne]
    exact fun h0 => hne (List.length_eq_zero.mp h0)
  simp only [Bool.or_eq_false_iff] at hld
  simp [hz, hld.1, hld.2, mqoState.walk, mqoState.commit]

theorem PunctWord_ne_word (env : Env F) (w next w' : List Nat) (hw : PunctWord env w next)
    (hw' : WordRunes env w') (hne : w' ≠ []) : w ≠ w' := by
  rintro rfl
  obtain ⟨c, t, r, he, hc, -, hl⟩ := WordRunes_head env _ hw' hne
  have hd := hc.2 (t ++ next)
  rw [← List.append_assoc, ← he] at hd
  obtain ⟨-, -, -, h4⟩ := hw
  rw [hd] at h4
  dsimp only at h4
  rw [hl] at h4
  exact Bool.noConfusion h4

/-- An unknown word is read as one word and is none of the words that the
top-level loop acts on. -/
theorem readWord_unknown (env : Env F) (w next : List Nat) (hw : UnknownWord env w next)
    (hstop : WordStop env next) :
    (mqoState.mk [] (w ++ next)).readWord env = (w, ⟨[], next⟩) ∧ w ≠ [] ∧
      w ≠ bytes "Object" ∧ w ≠ bytes "Material" ∧ w ≠ bytes "\x7b" := by
  rcases hw with ⟨hr, hne, hO, hM⟩ | ⟨hp, hb⟩
  · refine ⟨?_, hne, hO, hM, ?_⟩
    · exact readWord_word env _ w _ hr hne hstop
        (by rw [skipSpace_stop _ _ (WordRunes_not_space env w _ hr hne)])
    · intro h
      rw [h] at hr
      exact WordRunes_ne_punct env 0x7B [] (by decide) hr
  · refine ⟨?_, hp.1, ?_, ?_, hb⟩
    · exact readWord_punct_rune env _ w next hp (by rw [skipSpace_stop _ _ hp.2.2.1])
    · exact PunctWord_ne_word env w next _ hp (WordRunes_of_ascii env _ (by decide))
        (by decide)
    · exact PunctWord_ne_word env w next _ hp (WordRunes_of_ascii env _ (by decide))
        (by decide)

/-- The amended C5: `skipToEndBracket(1)` started at balanced text followed
by `}` consumes exactly that text and the `}`.  Hence, after a valid header,
a word other than `Object`, `Material` and `{` (a run of letters and digits
or one punctuation rune) followed by `{`, balanced text and `}` is skipped:
the parse goes on as the parse of what follows the block, two iterations of
the top-level loop later. -/
theorem Parse_skips_unknown_block (env : Env F) (fuel : Nat) (s : Scene F)
    (H ws1 w ws2 B R : List Nat) (hH : ValidHeader H) (h1 : Blank ws1)
    (hw : UnknownWord env w (ws2 ++ 0x7B :: (B ++ 0x7D :: R))) (h2 : Blank ws2)
    (hB : Balanced B) :
    (∀ p, (mqoState.mk p (B ++ 0x7D :: R)).skipToEndBracket 1 = ⟨[], R⟩) ∧
      Scene.Parse env (fuel + 2) s
          (H ++ (ws1 ++ (w ++ (ws2 ++ 0x7B :: (B ++ 0x7D :: R))))) =
        Scene.Parse env fuel s (H ++ R) := by
  refine ⟨fun p => skipToEndBracket_balanced B R p hB, ?_⟩
  have hbr : asciiPunct 0x7B = true := by decide
  obtain ⟨hr1, hne, hO, hM, hwb⟩ := readWord_unknown env w _ hw
    (WordStop_blank_punct env ws2 _ 0x7B h2 hbr)
  have hr2 : (mqoState.mk [] (ws2 ++ 0x7B :: (B ++ 0x7D :: R))).readWord env =
      (bytes "\x7b", ⟨[], B ++ 0x7D :: R⟩) := by
    rw [readWord_blank env [] ws2 _ h2]
    exact readWord_punct env _ 0x7B _ hbr
      (by rw [skipSpace_stop _ _ (by rw [decodeRune_ascii _ _ (by decide)]; rfl)])
  rw [Parse_header env (fuel + 2) s H _ hH, Parse_header env fuel s H R hH,
    show (0x0A :: R) = [0x0A] ++ R from rfl,
    parseMainLoop_blank env fuel s [] [0x0A] R Blank_lf]
  have e : (0x0A :: (ws1 ++ (w ++ (ws2 ++ 0x7B :: (B ++ 0x7D :: R))))) =
      (0x0A :: ws1) ++ (w ++ (ws2 ++ 0x7B :: (B ++ 0x7D :: R))) := rfl
  have hb : Blank (0x0A :: ws1) := by
    simpa using Blank_append [0x0A] ws1 Blank_lf h1
  rw [e, parseMainLoop_blank env (fuel + 2) s [] _ _ hb]
  congr 1
  rw [parseMainLoop, hr1]
  dsimp only
  rw [if_neg hne, if_neg hO, if_neg hM, if_neg hwb, parseMainLoop, hr2]
  dsimp only
  rw [if_neg (by decide), if_neg (by decide), if_neg (by decide), if_pos rfl,
    skipToEndBracket_balanced B R [] hB]

set_option maxRecDepth 100000 in
/-- The amended C5 at the input of `TestVertices`: the `unknown` block, which
holds an `Object` block, is skipped; the parse equals the parse of the header
followed by the text after the block, and builds the one material and the
one object that follow.  The same holds with the punctuation word `#` in
place of `unknown`. -/
theorem Parse_skips_unknown_block_witness :
    testInput = testHeader ++ ([0x0A] ++ (bytes "unknown" ++ (bytes " " ++
        0x7B :: (testUnknownBody ++ 0x7D :: testTail)))) ∧
      Scene.Parse decimalEnv (18 + 2) ⟨[], []⟩ (testHeader ++ ([0x0A] ++ (bytes "unknown" ++
        (bytes " " ++ 0x7B :: (testUnknownBody ++ 0x7D :: testTail))))) =
        Scene.Parse decimalEnv 18 ⟨[], []⟩ (testHeader ++ testTail) ∧
      Scene.Parse decimalEnv (18 + 2) ⟨[], []⟩ (testHeader ++ ([0x0A] ++ (bytes "#" ++
        (bytes " " ++ 0x7B :: (testUnknownBody ++ 0x7D :: testTail))))) =
        Scene.Parse decimalEnv 18 ⟨[], []⟩ (testHeader ++ testTail) ∧
      Scene.Parse decimalEnv 18 ⟨[], []⟩ (testHeader ++ testTail) = Res.ok (none, testScene) :=
  ⟨by decide,
    (Parse_skips_unknown_block decimalEnv 18 ⟨[], []⟩ testHeader [0x0A] (bytes "unknown")
      (bytes " ") testUnknownBody testTail
      ⟨[0x0A], [], [], [], Blank_lf, Blank.nil, Or.inl rfl, Or.inl rfl, by decide⟩
      Blank_lf
      (Or.inl ⟨WordRunes_of_ascii _ _ (by decide), by decide, by decide, by decide⟩)
      (Blank_of_ascii _ (by decide)) ⟨by decide, by decide⟩).2,
    (Parse_skips_unknown_block decimalEnv 18 ⟨[], []⟩ testHeader [0x0A] (bytes "#")
      (bytes " ") testUnknownBody testTail
      ⟨[0x0A], [], [], [], Blank_lf, Blank.nil, Or.inl rfl, Or.inl rfl, by decide⟩
      Blank_lf
      (Or.inr ⟨⟨by decide, by decide, by decide, by decide⟩, by decide⟩)
      (Blank_of_ascii _ (by decide)) ⟨by decide, by decide⟩).2,
    by decide⟩

theorem Balanced_nil : Balanced [] := ⟨fun k _ => by simp, rfl⟩

set_option maxRecDepth 100000 in
/-- C5 as stated fails for the word `{`, which is a word other than `Object`
and `Material`: in `{ {}` followed by a material block the first `{` starts
the skip at depth 1, the second `{` raises the depth to 2, the `}` lowers it
to 1, and the skip runs on through the material block to the end of the
input; the scene stays empty, while the parse of the header followed by the
material block holds the material. -/
theorem Parse_brace_word_skips_tail :
    ValidHeader testHeader ∧ Balanced [] ∧ bytes "\x7b" ≠ bytes "Object" ∧
      bytes "\x7b" ≠ bytes "Material" ∧
      (∀ fuel, Scene.Parse decimalEnv (fuel + 3) ⟨[], []⟩
          (testHeader ++ (bytes "\x7b" ++ (bytes " " ++ 0x7B :: ([] ++ 0x7D :: braceWordTail)))) =
        Res.ok (none, ⟨[], []⟩)) ∧
      (∀ fuel, Scene.Parse decimalEnv (fuel + 3) ⟨[], []⟩ (testHeader ++ braceWordTail) =
        Res.ok (none, ⟨[⟨bytes "m", []⟩], []⟩)) ∧
      (⟨[], []⟩ : Scene Decimal) ≠ ⟨[⟨bytes "m", []⟩], []⟩ :=
  ⟨⟨[0x0A], [], [], [], Blank_lf, Blank.nil, Or.inl rfl, Or.inl rfl, by decide⟩,
    Balanced_nil, by decide, by decide,
    fun fuel => Res.below_ok (Parse_mono decimalEnv 3 (fuel + 3) (by omega) _ _) (by decide),
    fun fuel => Res.below_ok (Parse_mono decimalEnv 3 (fuel + 3) (by omega) _ _) (by decide),
    by decide⟩

/-! ## `parseVertices` -/

theorem floatChars_lt (c : Nat) (h : c ∈ floatChars) : c < 0x80 := by
  revert c; decide

theorem floatChars_not_space (c : Nat) (h : c ∈ floatChars) : isSpace c = false := by
  revert c; decide

theorem digitChars_lt (c : Nat) (h : c ∈ digitChars) : c < 0x80 := by
  revert c; decide

theorem digitChars_not_space (c : Nat) (h : c ∈ digitChars) : isSpace c = false := by
  revert c; decide

/-- The first byte of a non-empty run of whitespace is ASCII whitespace or at
least `0x80`. -/
theorem Blank_head (ws t : List Nat) (hws : Blank ws) (hne : ws ≠ []) :
    ∃ b t', ws ++ t = b :: t' ∧ (isSpace b = true ∨ 0x80 ≤ b) := by
  cases hws with
  | nil => exact absurd rfl hne
  | cons c ws' r hc hr _ =>
    cases c with
    | nil => exact absurd rfl hc.1
    | cons b c' =>
      refine ⟨b, c' ++ ws' ++ t, by simp, ?_⟩
      by_cases hb : b < 0x80
      · have := hc.2 []
        rw [List.append_nil, decodeRune_ascii b c' hb] at this
        have hrb : r = b := (Prod.mk.inj this).1.symm
        subst hrb
        exact Or.inl hr
      · exact Or.inr (by omega)

theorem FloatStop_blank (ws t : List Nat) (hws : Blank ws) (hne : ws ≠ []) :
    FloatStop (ws ++ t) := by
  obtain ⟨b, t', he, hb⟩ := Blank_head ws t hws hne
  intro x hx hm
  rw [he] at hx
  simp only [List.head?_cons, Option.some.injEq] at hx
  subst hx
  rcases hb with hb | hb
  · rw [floatChars_not_space _ hm] at hb; cases hb
  · have := floatChars_lt _ hm; omega

theorem FloatStop_blank_byte (ws t : List Nat) (b : Nat) (hws : Blank ws)
    (hb : b ∉ floatChars) : FloatStop (ws ++ b :: t) := by
  by_cases hne : ws = []
  · subst hne
    intro x hx
    simp only [List.nil_append, List.head?_cons, Option.some.injEq] at hx
    subst hx
    exact hb
  · exact FloatStop_blank ws _ hws hne

/-- A run of bytes of the set, followed by input that does not go on with a
byte of the set, is what `takeWhile` takes. -/
theorem takeWhile_contains_append (valid l next : List Nat) (hl : ∀ c ∈ l, c ∈ valid)
    (hnext : ∀ b, next.head? = some b → b ∉ valid) :
    (l ++ next).takeWhile valid.contains = l ∧
      (l ++ next).dropWhile valid.contains = next := by
  induction l with
  | nil =>
    cases next with
    | nil => simp
    | cons b t =>
      have := hnext b rfl
      simp [List.takeWhile_cons, List.dropWhile_cons, this]
  | cons a l ih =>
    have ha := hl a (List.mem_cons_self _ _)
    have := ih (fun c hc => hl c (List.mem_cons_of_mem _ hc))
    simp [List.takeWhile_cons, List.dropWhile_cons, ha, this.1, this.2]

/-- Reading a word of an ASCII set that has whitespace in front of it. -/
theorem readChars_lexeme (valid : List Nat) (hv : ∀ c ∈ valid, c < 0x80)
    (hvs : ∀ c ∈ valid, isSpace c = false) (p ws l next : List Nat) (hws : Blank ws)
    (hne : l ≠ []) (hl : ∀ c ∈ l, c ∈ valid)
    (hnext : ∀ b, next.head? = some b → b ∉ valid) :
    (mqoState.mk p (ws ++ (l ++ next))).readChars valid = (l, ⟨[], next⟩) := by
  have hstop : isSpace (decodeRune (l ++ next)).1 = false := by
    cases l with
    | nil => exact absurd rfl hne
    | cons c l' =>
      have hc := hl c (List.mem_cons_self _ _)
      rw [List.cons_append, decodeRune_ascii c _ (hv c hc)]
      exact hvs c hc
  rw [readChars_spec valid hv, skipSpace_blank_stop p ws _ hws hstop]
  have := takeWhile_contains_append valid l next hl hnext
  simp only [this.1, this.2]

theorem readFloat_lexeme (env : Env F) (p ws l next : List Nat) (hws : Blank ws)
    (hl : FloatLexeme l) (hnext : FloatStop next) :
    (mqoState.mk p (ws ++ (l ++ next))).skipSpace.readFloat env =
      (env.parseFloat l, ⟨[], next⟩) := by
  have hstop : isSpace (decodeRune (l ++ next)).1 = false := by
    obtain ⟨hne, hl'⟩ := hl
    cases l with
    | nil => exact absurd rfl hne
    | cons c l' =>
      have hc := hl' c (List.mem_cons_self _ _)
      rw [List.cons_append, decodeRune_ascii c _ (floatChars_lt c hc)]
      exact floatChars_not_space c hc
  rw [skipSpace_blank_stop p ws _ hws hstop]
  unfold mqoState.readFloat
  have := readChars_lexeme floatChars floatChars_lt floatChars_not_space [] [] l next
    Blank.nil hl.1 hl.2 hnext
  rw [List.nil_append] at this
  rw [this]

theorem readPositiveInteger_lexeme (p ws ds next : List Nat) (hws : Blank ws)
    (hne : ds ≠ []) (hds : ∀ c ∈ ds, c ∈ digitChars)
    (hnext : ∀ b, next.head? = some b → b ∉ digitChars) :
    (mqoState.mk p (ws ++ (ds ++ next))).readPositiveInteger = (atoi ds, ⟨[], next⟩) := by
  unfold mqoState.readPositiveInteger
  rw [readChars_lexeme digitChars digitChars_lt digitChars_not_space p ws ds next hws hne hds
    hnext]

theorem atoi_ne_nil (ds : List Nat) (n : Int) (h : atoi ds = some n) : ds ≠ [] := by
  rintro rfl
  cases h

theorem readChars_skipSpace (st : mqoState) (validChars : List Nat) :
    st.skipSpace.readChars validChars = st.readChars validChars := by
  unfold mqoState.readChars
  rw [skipSpace_idem]

theorem readPositiveInteger_skipSpace (st : mqoState) :
    st.skipSpace.readPositiveInteger = st.readPositiveInteger := by
  unfold mqoState.readPositiveInteger
  rw [readChars_skipSpace]

theorem set_append_replicate {α : Type} (done : List α) (k : Nat) (z v : α) :
    (done ++ List.replicate (k + 1) z).set done.length v =
      (done ++ [v]) ++ List.replicate k z := by
  induction done with
  | nil => simp [List.replicate_succ]
  | cons a t ih => simpa using ih

theorem FloatStop_entries (env : Env F) (es : List (VertexEntry × Vertex F)) (tail : List Nat)
    (hes : ∀ e ∈ es, e.1.Valid env e.2) (hsep : ∀ e ∈ es, e.1.wsX ≠ [])
    (htail : FloatStop tail) : FloatStop (entriesText (es.map (fun e => e.1)) ++ tail) := by
  cases es with
  | nil => simpa [entriesText] using htail
  | cons e es' =>
    have hv := hes e (List.mem_cons_self _ _)
    have hne := hsep e (List.mem_cons_self _ _)
    simp only [List.map_cons, entriesText, VertexEntry.text, List.append_assoc]
    exact FloatStop_blank _ _ hv.1 hne

/-- The entry loop of `parseVertices` on well-formed entries. -/
theorem parseVerticesLoop_entries (env : Env F) (z : Vertex F)
    (es : List (VertexEntry × Vertex F)) (tail : List Nat)
    (hes : ∀ e ∈ es, e.1.Valid env e.2) (hsep : ∀ e ∈ es.tail, e.1.wsX ≠ [])
    (htail : FloatStop tail) (done : List (Vertex F)) :
    parseVerticesLoop env es.length done.length (done ++ List.replicate es.length z)
        ⟨[], entriesText (es.map (fun e => e.1)) ++ tail⟩ =
      (done ++ es.map (fun e => e.2), ⟨[], tail⟩, true) := by
  induction es generalizing done with
  | nil => simp [parseVerticesLoop, entriesText]
  | cons e es' ih =>
    obtain ⟨hX, hY, hYne, hZ, hZne, lX, lY, lZ, pX, pY, pZ⟩ := hes e (List.mem_cons_self _ _)
    have hes' : ∀ e ∈ es', e.1.Valid env e.2 := fun x hx => hes x (List.mem_cons_of_mem _ hx)
    have hsep' : ∀ e ∈ es', e.1.wsX ≠ [] := fun x hx => hsep x (by simpa using hx)
    have hstop := FloatStop_entries env es' tail hes' hsep' htail
    have e1 : entriesText ((e :: es').map (fun e => e.1)) ++ tail =
        e.1.wsX ++ (e.1.X ++ (e.1.wsY ++ (e.1.Y ++ (e.1.wsZ ++ (e.1.Z ++
          (entriesText (es'.map (fun e => e.1)) ++ tail)))))) := by
      simp only [List.map_cons, entriesText, VertexEntry.text, List.append_assoc]
    have rX := readFloat_lexeme env [] e.1.wsX e.1.X
      (e.1.wsY ++ (e.1.Y ++ (e.1.wsZ ++ (e.1.Z ++
        (entriesText (es'.map (fun e => e.1)) ++ tail))))) hX lX (FloatStop_blank _ _ hY hYne)
    have rY := readFloat_lexeme env [] e.1.wsY e.1.Y
      (e.1.wsZ ++ (e.1.Z ++ (entriesText (es'.map (fun e => e.1)) ++ tail))) hY lY
      (FloatStop_blank _ _ hZ hZne)
    have rZ := readFloat_lexeme env [] e.1.wsZ e.1.Z
      (entriesText (es'.map (fun e => e.1)) ++ tail) hZ lZ hstop
    rw [e1, List.length_cons, parseVerticesLoop, rX]
    simp only [pX]
    rw [rY]
    simp only [pY]
    rw [rZ]
    simp only [pZ]
    rw [set_append_replicate]
    have := ih hes' (fun x hx => hsep' x (List.mem_of_mem_tail hx)) (done ++ [e.2])
    simp only [List.length_append, List.length_singleton] at this
    rw [this]
    simp

/-- C2: a vertex block `n { <3n lexemes> }` of valid float lexemes separated
by whitespace sets `Vertices` to the `n` triples of their values, in order,
and consumes the closing `}`. -/
theorem parseVertices_block (env : Env F) (o : Object F)
    (p ws0 ds ws1 wsEnd R : List Nat) (es : List (VertexEntry × Vertex F))
    (h0 : Blank ws0) (hds : ∀ c ∈ ds, c ∈ digitChars)
    (hn : atoi ds = some (es.length : Int)) (h1 : Blank ws1)
    (hes : ∀ e ∈ es, e.1.Valid env e.2) (hsep : ∀ e ∈ es.tail, e.1.wsX ≠ [])
    (hend : Blank wsEnd) :
    Object.parseVertices env o
        ⟨p, ws0 ++ (ds ++ (ws1 ++ 0x7B ::
          (entriesText (es.map (fun e => e.1)) ++ (wsEnd ++ 0x7D :: R))))⟩ =
      ({ o with Vertices := es.map (fun e => e.2) }, ⟨[], R⟩) := by
  have hbr : asciiPunct 0x7B = true := by decide
  have hbr' : asciiPunct 0x7D = true := by decide
  have r1 := readPositiveInteger_lexeme p ws0 ds
    (ws1 ++ 0x7B :: (entriesText (es.map (fun e => e.1)) ++ (wsEnd ++ 0x7D :: R))) h0
    (atoi_ne_nil ds _ hn) hds
    (by
      intro b hb
      by_cases hne : ws1 = []
      · subst hne
        simp only [List.nil_append, List.head?_cons, Option.some.injEq] at hb
        subst hb
        decide
      · obtain ⟨b', t', he, hb'⟩ := Blank_head ws1 _ h1 hne
        rw [he] at hb
        simp only [List.head?_cons, Option.some.injEq] at hb
        subst hb
        intro hm
        rcases hb' with hb' | hb'
        · rw [digitChars_not_space _ hm] at hb'; cases hb'
        · have := digitChars_lt _ hm; omega)
  have r2 : (mqoState.mk [] (ws1 ++ 0x7B ::
      (entriesText (es.map (fun e => e.1)) ++ (wsEnd ++ 0x7D :: R)))).readWord env =
      (bytes "\x7b", ⟨[], entriesText (es.map (fun e => e.1)) ++ (wsEnd ++ 0x7D :: R)⟩) := by
    rw [readWord_blank env [] ws1 _ h1]
    exact readWord_punct env _ 0x7B _ hbr
      (by rw [skipSpace_stop _ _ (by rw [decodeRune_ascii _ _ (by decide)]; rfl)])
  have r3 := parseVerticesLoop_entries env ⟨env.zero, env.zero, env.zero⟩ es
    (wsEnd ++ 0x7D :: R) hes hsep (FloatStop_blank_byte wsEnd R 0x7D hend (by decide)) []
  have r4 : (mqoState.mk [] (wsEnd ++ 0x7D :: R)).readWord env = (bytes "\x7d", ⟨[], R⟩) := by
    rw [readWord_blank env [] wsEnd _ hend]
    exact readWord_punct env _ 0x7D _ hbr'
      (by rw [skipSpace_stop _ _ (by rw [decodeRune_ascii _ _ (by decide)]; rfl)])
  simp only [List.length_nil, List.nil_append] at r3
  unfold Object.parseVertices
  rw [readPositiveInteger_skipSpace, r1]
  simp only [hn, Int.toNat_ofNat]
  rw [r2]
  simp only [ne_eq, not_true_eq_false, if_false, r3, if_true, r4]

/-- An entry written with ASCII whitespace is valid when its three lexemes are. -/
theorem VertexEntry.valid_of_ascii (env : Env F) (e : VertexEntry) (v : Vertex F)
    (hX : ∀ b ∈ e.wsX, b < 0x80 ∧ isSpace b = true)
    (hY : ∀ b ∈ e.wsY, b < 0x80 ∧ isSpace b = true) (hYne : e.wsY ≠ [])
    (hZ : ∀ b ∈ e.wsZ, b < 0x80 ∧ isSpace b = true) (hZne : e.wsZ ≠ [])
    (lX : FloatLexeme e.X) (lY : FloatLexeme e.Y) (lZ : FloatLexeme e.Z)
    (pX : env.parseFloat e.X = some v.X) (pY : env.parseFloat e.Y = some v.Y)
    (pZ : env.parseFloat e.Z = some v.Z) : e.Valid env v :=
  ⟨Blank_of_ascii _ hX, Blank_of_ascii _ hY, hYne, Blank_of_ascii _ hZ, hZne, lX, lY, lZ,
    pX, pY, pZ⟩

/-- C2 at the `vertex 5` block of `TestVertices`: the five vertices are the
triples of the lexeme values; vertex 0 is (0, 1, 2) and vertex 1 is
(3.14, 4, 5). -/
theorem parseVertices_block_witness :
    testVertexBlock = bytes " " ++ (bytes "5" ++ (bytes " " ++ 0x7B ::
        (entriesText (testVertexEntries.map (fun e => e.1)) ++
          (bytes "\n\t" ++ 0x7D :: bytes "\n")))) ∧
      Object.parseVertices decimalEnv ⟨[], [], []⟩
          ⟨[], bytes " " ++ (bytes "5" ++ (bytes " " ++ 0x7B ::
            (entriesText (testVertexEntries.map (fun e => e.1)) ++
              (bytes "\n\t" ++ 0x7D :: bytes "\n"))))⟩ =
        ({ (⟨[], [], []⟩ : Object Decimal) with
            Vertices := testVertexEntries.map (fun e => e.2) }, ⟨[], bytes "\n"⟩) ∧
      (testVertexEntries.map (fun e => e.2)).take 2 =
        [⟨⟨0, 0⟩, ⟨1, 0⟩, ⟨2, 0⟩⟩, ⟨⟨314, 2⟩, ⟨4, 0⟩, ⟨5, 0⟩⟩] :=
  ⟨by decide,
    parseVertices_block decimalEnv ⟨[], [], []⟩ [] (bytes " ") (bytes "5") (bytes " ")
      (bytes "\n\t") (bytes "\n") testVertexEntries (Blank_of_ascii _ (by decide))
      (by decide) (by decide) (Blank_of_ascii _ (by decide))
      (by
        intro e he
        simp only [testVertexEntries, List.mem_cons, List.mem_singleton, List.not_mem_nil,
          or_false] at he
        rcases he with rfl | rfl | rfl | rfl | rfl <;>
        exact VertexEntry.valid_of_ascii _ _ _ (by decide) (by decide) (by decide)
          (by decide) (by decide) ⟨by decide, by decide⟩ ⟨by decide, by decide⟩
          ⟨by decide, by decide⟩ (by decide) (by decide) (by decide))
      (by
        intro e he
        simp only [testVertexEntries, List.tail_cons, List.mem_cons, List.mem_singleton,
          List.not_mem_nil, or_false] at he
        rcases he with rfl | rfl | rfl | rfl <;> decide)
      (Blank_of_ascii _ (by decide)),
    by decide⟩

/-! ## Parenthetic arguments and `parseMaterial` -/

theorem dropWhile_append_stop (q : Nat → Bool) (c t : List Nat) (b : Nat) (hb : q b = false) :
    (c ++ b :: t).dropWhile q = c.dropWhile q ++ b :: t := by
  induction c with
  | nil => simp [List.dropWhile_cons, hb]
  | cons a c ih =>
    by_cases ha : q a = true
    · simp [List.dropWhile_cons, ha, ih]
    · simp [List.dropWhile_cons, ha]

theorem not_mem_dropWhile (q : Nat → Bool) (c : List Nat) (b : Nat) (hb : b ∉ c) :
    b ∉ c.dropWhile q := fun h => hb ((List.dropWhile_sublist q).subset h)

theorem not_mem_dropLeadingSpace (c : List Nat) (b : Nat) (hb : b ∉ c) :
    b ∉ dropLeadingSpace c := by
  obtain ⟨ws, hws⟩ := dropLeadingSpace_suffix c
  intro hm
  exact hb (by rw [hws]; exact List.mem_append_right _ hm)

/-- One argument `name(content)` followed by `next`. -/
theorem readParentheticArg_arg (env : Env F) (p ws a c next : List Nat) (hws : Blank ws)
    (ha : WordRunes env a) (hne : a ≠ []) (hc : 0x29 ∉ c) :
    (mqoState.mk p (ws ++ (a ++ 0x28 :: (c ++ 0x29 :: next)))).skipSpace.readParentheticArg env =
      (some (a, argContent c), ⟨[], next⟩) := by
  have hs : (mqoState.mk p (ws ++ (a ++ 0x28 :: (c ++ 0x29 :: next)))).skipSpace =
      ⟨[], a ++ 0x28 :: (c ++ 0x29 :: next)⟩ :=
    skipSpace_blank_stop p ws _ hws (WordRunes_not_space env a _ ha hne)
  have r1 : (mqoState.mk [] (a ++ 0x28 :: (c ++ 0x29 :: next))).readWord env =
      (a, ⟨[], 0x28 :: (c ++ 0x29 :: next)⟩) :=
    readWord_word env _ a _ ha hne (WordStop_of_byte env 0x28 _ (by decide))
      (by rw [skipSpace_stop _ _ (WordRunes_not_space env a _ ha hne)])
  have hs2 : (mqoState.mk [] (0x28 :: (c ++ 0x29 :: next))).skipSpace =
      ⟨[], 0x28 :: (c ++ 0x29 :: next)⟩ :=
    skipSpace_stop _ _ (by rw [decodeRune_ascii _ _ (by decide)]; rfl)
  have r2 : ((mqoState.mk [] (0x28 :: (c ++ 0x29 :: next))).readChars (bytes "(")).1 ≠ [] ∧
      ((mqoState.mk [] (0x28 :: (c ++ 0x29 :: next))).readChars (bytes "(")).2 =
        ⟨[], c.dropWhile (bytes "(").contains ++ 0x29 :: next⟩ := by
    rw [readChars_spec (bytes "(") (by decide), hs2]
    have h28 : (bytes "(").contains 0x28 = true := by decide
    have h29 : (bytes "(").contains 0x29 = false := by decide
    simp only [List.takeWhile_cons, List.dropWhile_cons, h28, if_true,
      dropWhile_append_stop _ c next 0x29 h29]
    exact ⟨by simp, trivial⟩
  have hc' : 0x29 ∉ c.dropWhile (bytes "(").contains := not_mem_dropWhile _ c _ hc
  have r3 : (mqoState.mk [] (c.dropWhile (bytes "(").contains ++ 0x29 :: next)).readTo 0x29 =
      (argContent c, ⟨[], 0x29 :: next⟩) := by
    rw [readTo_spec 0x29 (by decide), skipSpace_append_ascii 0x29 (by decide) (by decide)]
    have := takeWhile_ne_append 0x29 (dropLeadingSpace (c.dropWhile (bytes "(").contains)) next
      (not_mem_dropLeadingSpace _ _ hc')
    simp only [this.1, this.2, argContent]
  have r4 : (mqoState.mk [] (0x29 :: next)).readWord env = ([0x29], ⟨[], next⟩) :=
    readWord_punct env _ 0x29 next (by decide)
      (by rw [skipSpace_stop _ _ (by rw [decodeRune_ascii _ _ (by decide)]; rfl)])
  unfold mqoState.readParentheticArg
  rw [hs, r1]
  simp only [hne, if_false, r2.1, r2.2, r3, r4]
  rw [if_neg (by simp)]

/-- The end of the argument list. -/
theorem readParentheticArg_end (env : Env F) (p ws : List Nat) (hws : Blank ws) :
    (mqoState.mk p ws).skipSpace.readParentheticArg env = (some ([], []), ⟨[], []⟩) := by
  have hs : (mqoState.mk p ws).skipSpace = ⟨[], []⟩ := by
    have := skipSpace_blank_stop p ws [] hws rfl
    rwa [List.append_nil] at this
  unfold mqoState.readParentheticArg
  rw [hs, readWord_eof env ⟨[], []⟩ rfl]
  simp

theorem digitsValue_chars (ds : List Nat) (acc n : Nat) (h : digitsValue ds acc = some n) :
    ∀ b ∈ ds, 0x30 ≤ b ∧ b ≤ 0x39 := by
  induction ds generalizing acc with
  | nil => simp
  | cons c t ih =>
    simp only [digitsValue] at h
    split_ifs at h with hc
    simp only [Bool.and_eq_true, decide_eq_true_eq] at hc
    intro b hb
    rcases List.mem_cons.mp hb with rfl | hb
    · exact hc
    · exact ih _ h b hb

/-- A text that `Atoi` accepts is non-empty and holds digits and signs only. -/
theorem atoi_chars (s : List Nat) (v : Int) (h : atoi s = some v) :
    s ≠ [] ∧ ∀ b ∈ s, (0x30 ≤ b ∧ b ≤ 0x39) ∨ b = 0x2D ∨ b = 0x2B := by
  cases s with
  | nil => cases h
  | cons c t =>
    refine ⟨by simp, ?_⟩
    by_cases hsign : (c == 0x2D || c == 0x2B) = true
    · cases hd : digitsValue t 0 with
      | none => simp [atoi, hsign, hd] at h
      | some n =>
        have := digitsValue_chars t 0 n hd
        intro b hb
        rcases List.mem_cons.mp hb with rfl | hb
        · simp only [Bool.or_eq_true, beq_iff_eq] at hsign
          rcases hsign with h1 | h1
          · exact Or.inr (Or.inl h1)
          · exact Or.inr (Or.inr h1)
        · exact Or.inl (this b hb)
    · cases hd : digitsValue (c :: t) 0 with
      | none => simp [atoi, hsign, hd] at h
      | some n =>
        have := digitsValue_chars (c :: t) 0 n hd
        intro b hb
        exact Or.inl (this b hb)

theorem cutAtSpace_field (fld more : List Nat) (s : Nat) (hf : ∀ b ∈ fld, reSpace b = false)
    (hs : reSpace s = true) : cutAtSpace (fld ++ s :: more) = (fld, some more) := by
  induction fld with
  | nil => simp [cutAtSpace, hs]
  | cons a t ih =>
    have ha := hf a (List.mem_cons_self _ _)
    have := ih (fun b hb => hf b (List.mem_cons_of_mem _ hb))
    simp [cutAtSpace, ha, this]

theorem cutAtSpace_last (fld : List Nat) (hf : ∀ b ∈ fld, reSpace b = false) :
    cutAtSpace fld = (fld, none) := by
  induction fld with
  | nil => simp [cutAtSpace]
  | cons a t ih =>
    have ha := hf a (List.mem_cons_self _ _)
    have := ih (fun b hb => hf b (List.mem_cons_of_mem _ hb))
    simp [cutAtSpace, ha, this]

theorem whiteSpaceSplit_fields (k : Nat) (field0 : List Nat)
    (more : List (Nat × List Nat × Int)) (hk : more.length + 1 ≤ k)
    (h0 : ∀ b ∈ field0, reSpace b = false)
    (hm : ∀ sf ∈ more, reSpace sf.1 = true ∧ ∀ b ∈ sf.2.1, reSpace b = false) :
    whiteSpaceSplit k (field0 ++ moreFieldsText more) =
      field0 :: more.map (fun sf => sf.2.1) := by
  induction more generalizing k field0 with
  | nil =>
    simp only [moreFieldsText, List.append_nil, List.map_nil]
    match k, hk with
    | 1, _ => rfl
    | k + 2, _ => simp only [whiteSpaceSplit, cutAtSpace_last field0 h0]
  | cons sf t ih =>
    obtain ⟨hs, hf⟩ := hm sf (List.mem_cons_self _ _)
    match k, hk with
    | k + 2, hk =>
      simp only [moreFieldsText, whiteSpaceSplit,
        cutAtSpace_field field0 _ sf.1 h0 hs, List.map_cons]
      rw [ih (k + 1) sf.2.1 (by simp at hk ⊢; omega) hf
        (fun x hx => hm x (List.mem_cons_of_mem _ hx))]

theorem set_append_cons {α : Type} (done : List α) (x v : α) (rest : List α) :
    (done ++ x :: rest).set done.length v = (done ++ [v]) ++ rest := by
  induction done with
  | nil => simp
  | cons a t ih => simp [ih]

/-- The loop of `parseFaceVertices` on fields that `Atoi` accepts. -/
theorem parseFaceVerticesLoop_fields (flds : List (List Nat × Int))
    (hv : ∀ x ∈ flds, atoi x.1 = some x.2) (done rest : List Int) (f : Face F)
    (hf : f.VertexIndices = done ++ rest) (hlen : flds.length ≤ rest.length) :
    parseFaceVerticesLoop (flds.map (fun x => x.1)) done.length f =
      { f with VertexIndices := done ++ flds.map (fun x => x.2) ++ rest.drop flds.length } := by
  induction flds generalizing done rest f with
  | nil =>
    obtain ⟨vi, mi, tc⟩ := f
    simp only at hf
    simp [parseFaceVerticesLoop, hf]
  | cons x t ih =>
    cases rest with
    | nil => simp at hlen
    | cons r rest' =>
      simp only [List.map_cons, parseFaceVerticesLoop, hv x (List.mem_cons_self _ _)]
      have := ih (fun y hy => hv y (List.mem_cons_of_mem _ hy)) (done ++ [x.2]) rest'
        { f with VertexIndices := f.VertexIndices.set done.length x.2 }
        (by simp only [hf, set_append_cons]) (by simpa using hlen)
      simp only [List.length_append, List.length_singleton] at this
      rw [this]
      simp

/-- The loop of `parseFaceUvCoordinates` on valid float lexemes. -/
theorem parseFaceUvCoordinatesLoop_entries (env : Env F) (z : F)
    (es : List (List Nat × List Nat × F)) (tail : List Nat)
    (hes : ∀ e ∈ es, Blank e.1 ∧ FloatLexeme e.2.1 ∧ env.parseFloat e.2.1 = some e.2.2)
    (hsep : ∀ e ∈ es.tail, e.1 ≠ []) (htail : FloatStop tail) (done : List F) (p : List Nat) :
    parseFaceUvCoordinatesLoop env es.length done.length (done ++ List.replicate es.length z)
        ⟨p, uvText es ++ tail⟩ =
      (done ++ es.map (fun e => e.2.2), false) := by
  induction es generalizing done p with
  | nil => simp [parseFaceUvCoordinatesLoop]
  | cons e es' ih =>
    obtain ⟨hb, hl, hp⟩ := hes e (List.mem_cons_self _ _)
    have hes' : ∀ e ∈ es', Blank e.1 ∧ FloatLexeme e.2.1 ∧ env.parseFloat e.2.1 = some e.2.2 :=
      fun x hx => hes x (List.mem_cons_of_mem _ hx)
    have hstop : FloatStop (uvText es' ++ tail) := by
      cases es' with
      | nil => simpa [uvText] using htail
      | cons e' es'' =>
        have hne := hsep e' (by simp)
        simp only [uvText, List.append_assoc]
        exact FloatStop_blank _ _ (hes' e' (List.mem_cons_self _ _)).1 hne
    have e1 : uvText (e :: es') ++ tail = e.1 ++ (e.2.1 ++ (uvText es' ++ tail)) := by
      simp only [uvText, List.append_assoc]
    rw [e1, List.length_cons, parseFaceUvCoordinatesLoop,
      readFloat_lexeme env p e.1 e.2.1 _ hb hl hstop]
    simp only [hp]
    rw [set_append_replicate]
    have := ih hes' (fun x hx => hsep x (by
      cases es' with
      | nil => simp at hx
      | cons a b => exact List.mem_of_mem_tail hx)) (done ++ [e.2.2]) []
    simp only [List.length_append, List.length_singleton] at this
    rw [this]
    simp

/-- The bytes of a run of whitespace are ASCII whitespace or at least `0x80`. -/
theorem Blank_bytes (ws : List Nat) (hws : Blank ws) :
    ∀ b ∈ ws, isSpace b = true ∨ 0x80 ≤ b := by
  induction hws with
  | nil => simp
  | cons c ws' r hc hr _ ih =>
    intro b hb
    rcases List.mem_append.mp hb with hb | hb
    · cases c with
      | nil => cases hb
      | cons c0 c' =>
        have hd := hc.2 []
        rw [List.append_nil] at hd
        by_cases hlt : c0 < 0x80
        · rw [decodeRune_ascii c0 c' hlt] at hd
          have h1 : c' = [] := by
            have := (Prod.mk.inj hd).2
            simp only [List.length_cons] at this
            exact List.length_eq_zero.mp (by omega)
          have h2 : r = c0 := (Prod.mk.inj hd).1.symm
          subst h1 h2
          simp only [List.mem_singleton] at hb
          subst hb
          exact Or.inl hr
        · have := (decodeRune_high c0 c' (by omega)).2 b
          rw [hd] at this
          simp only [List.take_length] at this
          exact Or.inr (this hb)
    · exact ih b hb

theorem Blank_not_mem (ws : List Nat) (hws : Blank ws) (b : Nat) (hb : b < 0x80)
    (hs : isSpace b = false) : b ∉ ws := by
  intro hm
  rcases Blank_bytes ws hws b hm with h | h
  · rw [hs] at h; cases h
  · omega

/-- The content of an argument that starts, after whitespace, with an ASCII
byte other than `(` and whitespace is the text from that byte on. -/
theorem argContent_blank (ws t : List Nat) (b : Nat) (hws : Blank ws) (hb : b < 0x80)
    (hs : isSpace b = false) (hp : b ≠ 0x28) : argContent (ws ++ b :: t) = b :: t := by
  have hd : (ws ++ b :: t).dropWhile (bytes "(").contains = ws ++ b :: t := by
    cases ws with
    | nil =>
      have : (bytes "(").contains b = false := by
        simp only [List.contains_eq_any_beq, List.any_eq_false]
        intro x hx
        have : x = 0x28 := by revert x; decide
        subst this
        simpa using hp
      simp only [List.nil_append, List.dropWhile_cons, this, Bool.false_eq_true, if_false]
    | cons w ws' =>
      have hw := Blank_bytes _ hws w (List.mem_cons_self _ _)
      have : (bytes "(").contains w = false := by
        simp only [List.contains_eq_any_beq, List.any_eq_false]
        intro x hx
        have : x = 0x28 := by revert x; decide
        subst this
        rcases hw with hw | hw
        · intro he
          simp only [beq_iff_eq] at he
          subst he
          revert hw
          decide
        · simp only [beq_iff_eq]
          omega
      simp only [List.cons_append, List.dropWhile_cons, this, Bool.false_eq_true, if_false]
  unfold argContent dropLeadingSpace mqoState.init
  rw [hd, skipSpace_blank_stop [] ws _ hws (by rw [decodeRune_ascii b t hb]; exact hs)]

/-- One step of the argument loop of `parseFaceLine`. -/
theorem parseFaceLineLoop_arg (env : Env F) (num : Int) (k : Nat) (f : Face F)
    (p ws a c next : List Nat) (hws : Blank ws) (ha : WordRunes env a) (hne : a ≠ [])
    (hc : 0x29 ∉ c) :
    parseFaceLineLoop env num (k + 1) f ⟨p, ws ++ (a ++ 0x28 :: (c ++ 0x29 :: next))⟩ =
      match faceArgumentFuncs env a with
      | none => parseFaceLineLoop env num k f ⟨[], next⟩
      | some faceFunc =>
        (faceFunc f num (argContent c)).bind fun r =>
          if r.2 then Res.ok (r.1, ⟨[], next⟩)
          else parseFaceLineLoop env num k r.1 ⟨[], next⟩ := by
  rw [parseFaceLineLoop, readParentheticArg_arg env p ws a c next hws ha hne hc]
  simp only [hne, if_false]

theorem parseFaceLineLoop_end (env : Env F) (num : Int) (k : Nat) (f : Face F)
    (p ws : List Nat) (hws : Blank ws) :
    parseFaceLineLoop env num (k + 1) f ⟨p, ws⟩ = Res.ok (f, ⟨[], []⟩) := by
  rw [parseFaceLineLoop, readParentheticArg_end env p ws hws]
  simp

theorem atoi_not_reSpace (s : List Nat) (v : Int) (h : atoi s = some v) :
    ∀ b ∈ s, reSpace b = false := by
  intro b hb
  rcases (atoi_chars s v h).2 b hb with h1 | h1 | h1
  · simp only [reSpace, Bool.or_eq_false_iff, beq_eq_false_iff_ne]
    omega
  · subst h1; rfl
  · subst h1; rfl

theorem atoi_head (s : List Nat) (v : Int) (h : atoi s = some v) :
    ∃ b t, s = b :: t ∧ b < 0x80 ∧ isSpace b = false ∧ b ≠ 0x28 := by
  obtain ⟨hne, hall⟩ := atoi_chars s v h
  cases s with
  | nil => exact absurd rfl hne
  | cons b t =>
    refine ⟨b, t, rfl, ?_⟩
    rcases hall b (List.mem_cons_self _ _) with h1 | h1 | h1
    · refine ⟨by omega, ?_, by omega⟩
      simp only [isSpace, Bool.or_eq_false_iff, Bool.and_eq_false_imp, decide_eq_true_eq,
        decide_eq_false_iff_not, beq_eq_false_iff_ne]
      omega
    · subst h1; exact ⟨by decide, rfl, by decide⟩
    · subst h1; exact ⟨by decide, rfl, by decide⟩

theorem atoi_not_mem_paren (s : List Nat) (v : Int) (h : atoi s = some v) : 0x29 ∉ s := by
  intro hm
  rcases (atoi_chars s v h).2 _ hm with h1 | h1 | h1 <;> omega

/-- The handler `parseFaceVertices` on fields that `Atoi` accepts, separated by one byte
of the class `\s`. -/
theorem parseFaceVertices_fields (f : Face F) (field0 : List Nat) (index0 : Int)
    (more : List (Nat × List Nat × Int)) (rest : List Int)
    (h0 : atoi field0 = some index0)
    (hm : ∀ sf ∈ more, reSpace sf.1 = true ∧ atoi sf.2.1 = some sf.2.2)
    (hn : more.length + 1 ≤ 4) (hf : f.VertexIndices = rest) (hr : rest.length = 4) :
    parseFaceVertices f ((more.length + 1 : Nat) : Int) (field0 ++ moreFieldsText more) =
      Res.ok ({ f with VertexIndices :=
        ((index0 :: more.map (fun sf => sf.2.2)) ++ rest.drop (more.length + 1)) }, false) := by
  have hs := whiteSpaceSplit_fields 4 field0 more hn (atoi_not_reSpace _ _ h0)
    (fun sf hsf => ⟨(hm sf hsf).1, atoi_not_reSpace _ _ (hm sf hsf).2⟩)
  have hl := parseFaceVerticesLoop_fields
    ((field0, index0) :: more.map (fun sf => (sf.2.1, sf.2.2)))
    (by
      intro x hx
      rcases List.mem_cons.mp hx with rfl | hx
      · exact h0
      · obtain ⟨sf, hsf, rfl⟩ := List.mem_map.mp hx
        exact (hm sf hsf).2)
    [] rest f (by simpa using hf) (by simp; omega)
  simp only [List.map_cons, List.map_map, List.length_nil, List.nil_append,
    List.length_cons, List.length_map] at hl
  unfold parseFaceVertices
  rw [hs]
  simp only [List.length_cons, List.length_map, ne_eq, not_true_eq_false, if_false]
  rw [show (fun sf : Nat × List Nat × Int => sf.2.1) =
    ((fun x : List Nat × Int => x.1) ∘ fun sf : Nat × List Nat × Int => (sf.2.1, sf.2.2))
    from rfl, hl]
  rfl

theorem parseFaceMaterial_digits (f : Face F) (num : Int) (ds : List Nat) (m : Int)
    (hds : ∀ c ∈ ds, c ∈ digitChars) (hm : atoi ds = some m) :
    parseFaceMaterial f num ds = Res.ok ({ f with MaterialIndex := m }, false) := by
  have := readPositiveInteger_lexeme [] [] ds [] Blank.nil (atoi_ne_nil ds m hm) hds (by simp)
  simp only [List.nil_append, List.append_nil] at this
  unfold parseFaceMaterial mqoState.init
  rw [this]
  simp only [hm]

theorem FloatStop_of_blank (ws : List Nat) (hws : Blank ws) : FloatStop ws := by
  by_cases hne : ws = []
  · subst hne
    intro b hb
    cases hb
  · have := FloatStop_blank ws [] hws hne
    rwa [List.append_nil] at this

theorem digitStop_blank_byte (ws t : List Nat) (b : Nat) (hws : Blank ws)
    (hb : b ∉ digitChars) : ∀ x, (ws ++ b :: t).head? = some x → x ∉ digitChars := by
  intro x hx
  by_cases hne : ws = []
  · subst hne
    simp only [List.nil_append, List.head?_cons, Option.some.injEq] at hx
    subst hx
    exact hb
  · obtain ⟨b', t', he, hb'⟩ := Blank_head ws (b :: t) hws hne
    rw [he] at hx
    simp only [List.head?_cons, Option.some.injEq] at hx
    subst hx
    intro hm
    rcases hb' with hb' | hb'
    · rw [digitChars_not_space _ hm] at hb'; cases hb'
    · have := digitChars_lt _ hm; omega

theorem uvText_not_mem_paren (env : Env F) (es : List (List Nat × List Nat × F))
    (hes : ∀ e ∈ es, Blank e.1 ∧ FloatLexeme e.2.1 ∧ env.parseFloat e.2.1 = some e.2.2) :
    0x29 ∉ uvText es := by
  induction es with
  | nil => simp [uvText]
  | cons e t ih =>
    obtain ⟨hb, hl, -⟩ := hes e (List.mem_cons_self _ _)
    simp only [uvText, List.mem_append, not_or]
    refine ⟨Blank_not_mem _ hb _ (by decide) (by decide), ?_,
      ih (fun x hx => hes x (List.mem_cons_of_mem _ hx))⟩
    intro hm
    have := hl.2 _ hm
    revert this
    decide

theorem moreFieldsText_not_mem_paren (more : List (Nat × List Nat × Int))
    (hm : ∀ sf ∈ more, reSpace sf.1 = true ∧ atoi sf.2.1 = some sf.2.2) :
    0x29 ∉ moreFieldsText more := by
  induction more with
  | nil => simp [moreFieldsText]
  | cons sf t ih =>
    obtain ⟨hs, ha⟩ := hm sf (List.mem_cons_self _ _)
    simp only [moreFieldsText, List.mem_cons, List.mem_append, not_or]
    refine ⟨?_, atoi_not_mem_paren _ _ ha, ih (fun x hx => hm x (List.mem_cons_of_mem _ hx))⟩
    intro he
    rw [← he] at hs
    revert hs
    decide

/-- The handler `parseFaceUvCoordinates` on `2n` valid float lexemes separated by whitespace. -/
theorem parseFaceUvCoordinates_entries (env : Env F) (f : Face F) (n : Nat) (hn : n ≤ 4)
    (hn1 : 1 ≤ n) (es : List (List Nat × List Nat × F)) (wsU : List Nat)
    (hlen : es.length = 2 * n)
    (hes : ∀ e ∈ es, Blank e.1 ∧ FloatLexeme e.2.1 ∧ env.parseFloat e.2.1 = some e.2.2)
    (hsep : ∀ e ∈ es.tail, e.1 ≠ []) (hU : Blank wsU) :
    parseFaceUvCoordinates env f (n : Int) (argContent (uvText es ++ wsU)) =
      Res.ok ({ f with TextureCoordinates := some (es.map (fun e => e.2.2)) }, false) := by
  cases es with
  | nil => simp at hlen; omega
  | cons e0 es' =>
    obtain ⟨hb0, hl0, hp0⟩ := hes e0 (List.mem_cons_self _ _)
    obtain ⟨b, t, hbt⟩ : ∃ b t, e0.2.1 = b :: t := by
      cases h : e0.2.1 with
      | nil => exact absurd h hl0.1
      | cons b t => exact ⟨b, t, rfl⟩
    have hbm : b ∈ floatChars := hl0.2 b (by rw [hbt]; exact List.mem_cons_self _ _)
    have hc : argContent (uvText (e0 :: es') ++ wsU) =
        uvText (([], e0.2.1, e0.2.2) :: es') ++ wsU := by
      simp only [uvText, List.append_assoc, hbt, List.cons_append, List.nil_append]
      exact argContent_blank e0.1 _ b hb0 (floatChars_lt b hbm) (floatChars_not_space b hbm)
        (by intro h; subst h; revert hbm; decide)
    have hloop := parseFaceUvCoordinatesLoop_entries env env.zero
      (([], e0.2.1, e0.2.2) :: es') wsU
      (by
        intro x hx
        rcases List.mem_cons.mp hx with rfl | hx
        · exact ⟨Blank.nil, hl0, hp0⟩
        · exact hes x (List.mem_cons_of_mem _ hx))
      (by simpa using hsep) (FloatStop_of_blank wsU hU) [] []
    simp only [List.length_cons, List.length_nil, List.nil_append, List.map_cons] at hloop
    have hlen' : es'.length + 1 = 2 * n := by simpa using hlen
    have hwrap : ((n : Int) * 2 + 2 ^ 63) % 2 ^ 64 - 2 ^ 63 = ((es'.length + 1 : Nat) : Int) := by
      rw [hlen']
      push_cast
      omega
    unfold parseFaceUvCoordinates
    simp only [hwrap, hc, mqoState.init]
    rw [if_neg (by omega)]
    simp only [Int.toNat_ofNat, hloop, List.map_cons]

/-- The part of a face line after the `M` argument. -/
theorem parseFaceLineLoop_uv (env : Env F) (l : FaceLine F) (hl : l.Valid env) (k : Nat)
    (f : Face F) :
    parseFaceLineLoop env (l.n : Int) (k + 2) f ⟨[], l.uvArgText ++ l.wsEnd⟩ =
      Res.ok (⟨f.VertexIndices, f.MaterialIndex,
        match l.UV with
        | none => f.TextureCoordinates
        | some uv => some (uv.2.1.map (fun e => e.2.2))⟩, ⟨[], []⟩) := by
  obtain ⟨-, -, -, hn4, -, -, -, -, hUV, hEnd⟩ := hl
  cases hu : l.UV with
  | none =>
    simp only [FaceLine.uvArgText, hu, List.nil_append]
    rw [parseFaceLineLoop_end env _ (k + 1) f [] l.wsEnd hEnd]
  | some uv =>
    obtain ⟨hb, hlen, hes, hsep, hU⟩ := hUV uv hu
    have hc : 0x29 ∉ uvText uv.2.1 ++ uv.2.2 := by
      simp only [List.mem_append, not_or]
      exact ⟨uvText_not_mem_paren env _ hes, Blank_not_mem _ hU _ (by decide) (by decide)⟩
    have e : l.uvArgText ++ l.wsEnd =
        uv.1 ++ (bytes "UV" ++ 0x28 :: ((uvText uv.2.1 ++ uv.2.2) ++ 0x29 :: l.wsEnd)) := by
      simp [FaceLine.uvArgText, hu]
    rw [e, parseFaceLineLoop_arg env _ (k + 1) f [] uv.1 (bytes "UV") _ _ hb
      (WordRunes_of_ascii env _ (by decide)) (by decide) hc]
    have hf : faceArgumentFuncs env (bytes "UV") = some (parseFaceUvCoordinates env) := by
      unfold faceArgumentFuncs
      rw [if_neg (by decide), if_neg (by decide), if_pos rfl]
    simp only [hf]
    rw [parseFaceUvCoordinates_entries env f l.n hn4 (by unfold FaceLine.n; omega) uv.2.1
      uv.2.2 hlen hes hsep hU]
    simp only [Res.bind, Bool.false_eq_true, if_false]
    rw [parseFaceLineLoop_end env _ k _ [] l.wsEnd hEnd]

/-- The part of a face line after the `V` argument. -/
theorem parseFaceLineLoop_m (env : Env F) (l : FaceLine F) (hl : l.Valid env) (k : Nat)
    (f : Face F) :
    parseFaceLineLoop env (l.n : Int) (k + 3) f ⟨[], l.mText ++ (l.uvArgText ++ l.wsEnd)⟩ =
      Res.ok (⟨f.VertexIndices,
        match l.M with
        | none => f.MaterialIndex
        | some m => m.2.2,
        match l.UV with
        | none => f.TextureCoordinates
        | some uv => some (uv.2.1.map (fun e => e.2.2))⟩, ⟨[], []⟩) := by
  have hM := hl.2.2.2.2.2.2.2.1
  cases hm : l.M with
  | none =>
    simp only [FaceLine.mText, hm, List.nil_append]
    rw [parseFaceLineLoop_uv env l hl (k + 1) f]
  | some m =>
    obtain ⟨hb, hds, ha⟩ := hM m hm
    have hc : 0x29 ∉ m.2.1 := by
      intro h
      have := hds _ h
      revert this
      decide
    have e : l.mText ++ (l.uvArgText ++ l.wsEnd) =
        m.1 ++ (bytes "M" ++ 0x28 :: (m.2.1 ++ 0x29 :: (l.uvArgText ++ l.wsEnd))) := by
      simp [FaceLine.mText, hm]
    obtain ⟨b, t, hbt, hlt, hsp, hp⟩ := atoi_head _ _ ha
    have hac : argContent m.2.1 = m.2.1 := by
      have := argContent_blank [] t b Blank.nil hlt hsp hp
      rwa [List.nil_append, ← hbt] at this
    rw [e, parseFaceLineLoop_arg env _ (k + 2) f [] m.1 (bytes "M") _ _ hb
      (WordRunes_of_ascii env _ (by decide)) (by decide) hc]
    have hf : faceArgumentFuncs env (bytes "M") =
        some (parseFaceMaterial : Face F → Int → List Nat → Res (Face F × Bool)) := by
      unfold faceArgumentFuncs
      rw [if_neg (by decide), if_pos rfl]
    simp only [hf]
    rw [hac, parseFaceMaterial_digits f _ m.2.1 m.2.2 hds ha]
    simp only [Res.bind, Bool.false_eq_true, if_false]
    rw [parseFaceLineLoop_uv env l hl k]

/-- The amended C3: a face line `n V(i0 ... ) M(m) UV(f0 ...)` with
`1 ≤ n ≤ 4`, the `V` fields integers that `Atoi` accepts, separated by
exactly one byte of the class `\s` of the regexp (space, tab, line feed,
form feed, carriage return), `m` a run of digits that `Atoi` accepts and the
`UV` floats `2n` valid float lexemes separated by whitespace, turns the
sentinel face into the face with `VertexIndices = [i0, ..., -1, ...]`,
`MaterialIndex = m` (or `-1`) and `TextureCoordinates = [f0, ...]` (or absent). -/
theorem parseFaceLine_line (env : Env F) (fuel : Nat) (hfuel : 4 ≤ fuel) (p : List Nat)
    (l : FaceLine F) (hl : l.Valid env) :
    Face.parseFaceLine env fuel Face.sentinel ⟨p, l.text⟩ = Res.ok (l.face, ⟨[], []⟩) := by
  obtain ⟨k, rfl⟩ : ∃ k, fuel = k + 4 := ⟨fuel - 4, by omega⟩
  obtain ⟨h0, hcount, hatoi, hn4, hV, hf0, hmore, -, -, -⟩ := id hl
  have hc : 0x29 ∉ l.field0 ++ moreFieldsText l.more := by
    simp only [List.mem_append, not_or]
    exact ⟨atoi_not_mem_paren _ _ hf0, moreFieldsText_not_mem_paren _ hmore⟩
  obtain ⟨b, t, hbt, hlt, hsp, hp⟩ := atoi_head _ _ hf0
  have hac : argContent (l.field0 ++ moreFieldsText l.more) =
      l.field0 ++ moreFieldsText l.more := by
    have := argContent_blank [] (t ++ moreFieldsText l.more) b Blank.nil hlt hsp hp
    rwa [List.nil_append, ← List.cons_append, ← hbt] at this
  have hf : faceArgumentFuncs env (bytes "V") =
      some (parseFaceVertices : Face F → Int → List Nat → Res (Face F × Bool)) := by
    unfold faceArgumentFuncs
    rw [if_pos rfl]
  unfold Face.parseFaceLine FaceLine.text
  rw [readPositiveInteger_skipSpace,
    readPositiveInteger_lexeme p l.ws0 l.count _ h0 (atoi_ne_nil _ _ hatoi) hcount
      (by
        have := digitStop_blank_byte l.wsV ((bytes "V").tail ++ 0x28 ::
          ((l.field0 ++ moreFieldsText l.more) ++ 0x29 ::
            (l.mText ++ (l.uvArgText ++ l.wsEnd)))) 0x56 hV (by decide)
        exact this)]
  simp only [hatoi]
  rw [parseFaceLineLoop_arg env _ (k + 3) _ [] l.wsV (bytes "V") _ _ hV
    (WordRunes_of_ascii env _ (by decide)) (by decide) hc]
  simp only [hf]
  rw [hac]
  have hvert := parseFaceVertices_fields (Face.sentinel : Face F) l.field0 l.index0 l.more
    [-1, -1, -1, -1] hf0 hmore hn4 rfl rfl
  unfold FaceLine.n at hn4 ⊢
  rw [hvert]
  simp only [Res.bind, Bool.false_eq_true, if_false]
  have := parseFaceLineLoop_m env l hl k
    { (Face.sentinel : Face F) with VertexIndices :=
      ((l.index0 :: l.more.map (fun sf => sf.2.2)) ++
        List.drop (l.more.length + 1) [-1, -1, -1, -1]) }
  unfold FaceLine.n at this
  rw [this]
  have hdrop : List.drop (l.more.length + 1) ([-1, -1, -1, -1] : List Int) =
      List.replicate (4 - (l.more.length + 1)) (-1) := by
    have : l.more.length = 0 ∨ l.more.length = 1 ∨ l.more.length = 2 ∨ l.more.length = 3 := by
      omega
    rcases this with h | h | h | h <;> rw [h] <;> rfl
  simp only [FaceLine.face, FaceLine.n, hdrop, Face.sentinel]

theorem uv_entries_of_ascii (env : Env F) (es : List (List Nat × List Nat × F))
    (h : ∀ e ∈ es, (∀ b ∈ e.1, b < 0x80 ∧ isSpace b = true) ∧ e.2.1 ≠ [] ∧
      (∀ c ∈ e.2.1, c ∈ floatChars) ∧ env.parseFloat e.2.1 = some e.2.2) :
    ∀ e ∈ es, Blank e.1 ∧ FloatLexeme e.2.1 ∧ env.parseFloat e.2.1 = some e.2.2 :=
  fun e he => ⟨Blank_of_ascii _ (h e he).1, ⟨(h e he).2.1, (h e he).2.2.1⟩, (h e he).2.2.2⟩

/-- The amended C3 at the two face lines of `TestVertices`: `2 V(0 1)` gives
the indices 0, 1, -1, -1; `3 V(2 3 4) M(1) UV(...)` gives the indices
2, 3, 4, -1, material 1 and the six coordinates. -/
theorem parseFaceLine_line_witness :
    (testFaceLine0.text = bytes "2 V(0 1)" ∧
      Face.parseFaceLine decimalEnv 4 Face.sentinel ⟨[], testFaceLine0.text⟩ =
        Res.ok (testFaceLine0.face, ⟨[], []⟩) ∧
      testFaceLine0.face = ⟨[0, 1, -1, -1], -1, none⟩) ∧
    (testFaceLine1.text = bytes "3 V(2 3 4) M(1) UV(0.0 1.0 0.5 0.5 0.25 0.25)" ∧
      Face.parseFaceLine decimalEnv 4 Face.sentinel ⟨[], testFaceLine1.text⟩ =
        Res.ok (testFaceLine1.face, ⟨[], []⟩) ∧
      testFaceLine1.face = ⟨[2, 3, 4, -1], 1,
        some [⟨0, 0⟩, ⟨1, 0⟩, ⟨5, 1⟩, ⟨5, 1⟩, ⟨25, 2⟩, ⟨25, 2⟩]⟩) :=
  ⟨⟨by decide,
      parseFaceLine_line decimalEnv 4 (le_refl _) [] testFaceLine0
        ⟨Blank.nil, by decide, by decide, by decide, Blank_of_ascii _ (by decide), by decide,
          by decide, fun m hm => (by cases hm), fun uv hu => (by cases hu), Blank.nil⟩,
      by decide⟩,
    ⟨by decide,
      parseFaceLine_line decimalEnv 4 (le_refl _) [] testFaceLine1
        ⟨Blank.nil, by decide, by decide, by decide, Blank_of_ascii _ (by decide), by decide,
          by decide,
          fun m hm => (by
            cases hm
            exact ⟨Blank_of_ascii _ (by decide), by decide, by decide⟩),
          fun uv hu => (by
            cases hu
            exact ⟨Blank_of_ascii _ (by decide), by decide,
              uv_entries_of_ascii decimalEnv _ (by decide), by decide, Blank.nil⟩),
          Blank.nil⟩,
      by decide⟩⟩

set_option maxRecDepth 100000 in
/-- C3 as stated fails at `2 V(0<VT>1)`: the vertical tab is whitespace for
the scanner (`unicode.IsSpace`), the two fields are decimal integers, yet the
regexp class `\s` does not hold it, the `V` content is one field, and the
face keeps its sentinel indices instead of 0, 1, -1, -1.  It fails as well
at a decimal integer outside the range of `int`, which `Atoi` refuses: after
`M(9223372036854775808)` the material index is still -1, and the field
`9223372036854775808` of a `V` argument leaves its index at -1. -/
theorem parseFaceLine_vertical_tab_separator :
    isSpace 0x0B = true ∧ atoi (bytes "0") = some 0 ∧ atoi (bytes "1") = some 1 ∧
      Face.parseFaceLine decimalEnv 4 Face.sentinel (mqoState.init (bytes "2 V(0\x0b1)")) =
        Res.ok (Face.sentinel, ⟨[], []⟩) ∧
      (Face.sentinel : Face Decimal).VertexIndices ≠ [0, 1, -1, -1] ∧
      Face.parseFaceLine decimalEnv 4 Face.sentinel
          (mqoState.init (bytes "2 V(0 1) M(9223372036854775808)")) =
        Res.ok (⟨[0, 1, -1, -1], -1, none⟩, ⟨[], []⟩) ∧
      ((-1 : Int) ≠ 9223372036854775808) ∧
      Face.parseFaceLine decimalEnv 4 Face.sentinel
          (mqoState.init (bytes "2 V(9223372036854775808 1)")) =
        Res.ok (⟨[-1, 1, -1, -1], -1, none⟩, ⟨[], []⟩) := by
  decide

/-! ## The OBJ writer on a writer that never fails -/

theorem bufferWriter_write (out : List (Print F)) (p : Print F) :
    (bufferWriter : Writer (List (Print F)) F).write out p = (out ++ [p], false) := rfl

theorem writeVertexLines_buffer (vs : List (Vertex F)) (out : List (Print F)) :
    writeVertexLines bufferWriter vs out =
      (out ++ vs.map (fun i => Print.v i.X i.Y i.Z), Status.ok) := by
  induction vs generalizing out with
  | nil => simp [writeVertexLines]
  | cons i rest ih => simp [writeVertexLines, bufferWriter_write, ih]

theorem offsetOf_succ (pre post : List (Object F)) (o : Object F) :
    offsetOf (pre ++ o :: post) (pre.length + 1) =
      (o.Vertices.length : Int) + offsetOf (pre ++ o :: post) pre.length := by
  unfold offsetOf
  have h1 : (pre ++ o :: post).take (pre.length + 1) = pre ++ [o] := by
    rw [show pre ++ o :: post = (pre ++ [o]) ++ post by simp]
    exact List.take_left' (by simp)
  have h2 : (pre ++ o :: post).take pre.length = pre := List.take_left' rfl
  rw [h1, h2]
  simp only [List.map_append, List.map_cons, List.map_nil, List.sum_append, List.sum_cons,
    List.sum_nil, add_zero]
  push_cast
  ring

/-- The first loop writes all the `v` lines and fills the offsets with the
prefix sums of the vertex counts. -/
theorem verticesLoop_buffer (post pre : List (Object F)) (vertexOffsets : List Int)
    (out : List (Print F)) (hlen : vertexOffsets.length = pre.length + post.length + 1)
    (hpre : ∀ k, k ≤ pre.length → vertexOffsets.getD k 0 = offsetOf (pre ++ post) k) :
    (verticesLoop bufferWriter post pre.length vertexOffsets out).1 = out ++ vertexLines post ∧
      (verticesLoop bufferWriter post pre.length vertexOffsets out).2.1 = Status.ok ∧
      ∀ k, k ≤ pre.length + post.length →
        (verticesLoop bufferWriter post pre.length vertexOffsets out).2.2.getD k 0 =
          offsetOf (pre ++ post) k := by
  induction post generalizing pre vertexOffsets out with
  | nil =>
    simp only [verticesLoop, vertexLines, List.append_nil, List.length_nil, add_zero, true_and]
    simpa using hpre
  | cons o post' ih =>
    have e : pre ++ o :: post' = (pre ++ [o]) ++ post' := by simp
    have hl : (pre ++ [o]).length = pre.length + 1 := by simp
    simp only [verticesLoop, writeVertexLines_buffer]
    have := ih (pre ++ [o])
      (vertexOffsets.set (pre.length + 1)
        ((o.Vertices.length : Int) + vertexOffsets.getD pre.length 0))
      (out ++ o.Vertices.map (fun i => Print.v i.X i.Y i.Z))
      (by simp only [List.length_set, hlen, List.length_append, List.length_cons,
            List.length_nil]; omega)
      (by
        intro k hk
        rw [hl] at hk
        rw [← e]
        by_cases hk' : k = pre.length + 1
        · subst hk'
          rw [offsetOf_succ, ← hpre pre.length (le_refl _)]
          simp only [List.getD_eq_getElem?_getD]
          rw [List.getElem?_set_self (by rw [hlen]; simp only [List.length_cons]; omega)]
          rfl
        · rw [← hpre k (by omega)]
          simp only [List.getD_eq_getElem?_getD]
          rw [List.getElem?_set_ne (by omega)])
    rw [hl, ← e] at this
    obtain ⟨h1, h2, h3⟩ := this
    refine ⟨?_, h2, ?_⟩
    · rw [h1]
      simp [vertexLines]
    · intro k hk
      exact h3 k (by simp only [List.length_cons] at hk; omega)

theorem ExtendsNoV.trans {a b c : List (Print F)} (h1 : ExtendsNoV a b)
    (h2 : ExtendsNoV b c) : ExtendsNoV a c := by
  obtain ⟨e1, rfl, n1⟩ := h1
  obtain ⟨e2, rfl, n2⟩ := h2
  refine ⟨e1 ++ e2, by simp, ?_⟩
  intro p hp
  rcases List.mem_append.mp hp with h | h
  · exact n1 p h
  · exact n2 p h

theorem ExtendsNoV.step (out : List (Print F)) (p : Print F) (hp : Print.isV p = false) :
    ExtendsNoV out (out ++ [p]) :=
  ⟨[p], rfl, by simpa using hp⟩

theorem writeIndexLoop_buffer (i : Face F) (vertexOffset : Int) (n start : Nat)
    (out : List (Print F)) :
    writeIndexLoop bufferWriter i vertexOffset n start out =
      (out ++ (List.range' start n).map
        (fun j => Print.index (wrapInt (i.VertexIndices.getD j 0 + 1 + vertexOffset))),
        Status.ok) := by
  induction n generalizing start out with
  | zero => simp [writeIndexLoop]
  | succ n ih => simp [writeIndexLoop, bufferWriter_write, ih, List.range'_succ]

theorem writeObjFaceWithoutUvCoordinates_buffer (out : List (Print F)) (i : Face F)
    (end_ : Nat) (vertexOffset : Int) :
    writeObjFaceWithoutUvCoordinates bufferWriter out i end_ vertexOffset =
      (out ++ Print.f :: (List.range end_).map
        (fun j => Print.index (wrapInt (i.VertexIndices.getD j 0 + 1 + vertexOffset))),
        Status.ok) := by
  simp [writeObjFaceWithoutUvCoordinates, bufferWriter_write, writeIndexLoop_buffer,
    List.range_eq_range']

theorem vertexLines_isV (objects : List (Object F)) :
    ∀ p ∈ vertexLines objects, Print.isV p = true := by
  induction objects with
  | nil => simp [vertexLines]
  | cons o rest ih =>
    intro p hp
    simp only [vertexLines, List.mem_append, List.mem_map] at hp
    rcases hp with ⟨i, -, rfl⟩ | hp
    · rfl
    · exact ih p hp

theorem renderAll_append (env : Env F) (a b : List (Print F)) :
    renderAll env (a ++ b) = renderAll env a ++ renderAll env b := by
  induction a with
  | nil => rfl
  | cons p ps ih => simp [renderAll, ih]

theorem faceEnd_eq_firstNegative (i : Face F) (hlen : i.VertexIndices.length = 4) :
    faceEnd i = firstNegative i.VertexIndices := by
  obtain ⟨vi, m, tc⟩ := i
  match vi, hlen with
  | [a, b, c, d], _ =>
    simp only [faceEnd, faceEndLoop, firstNegative, List.findIdx_cons, List.findIdx_nil,
      List.getD_cons_zero, List.getD_cons_succ]
    by_cases ha : a < 0 <;> by_cases hb : b < 0 <;> by_cases hc : c < 0 <;>
      by_cases hd : d < 0 <;> simp [ha, hb, hc, hd]

theorem faceEnd_le (i : Face F) : faceEnd i ≤ 4 := by
  simp only [faceEnd, faceEndLoop]
  split_ifs <;> omega

theorem writeVtLoop_buffer : ∀ (coords : List F) (out : List (Print F)),
    writeVtLoop bufferWriter coords out =
      (out ++ vtLines coords, if coords.length % 2 = 0 then Status.ok else Status.panic)
  | [], out => by simp [writeVtLoop, vtLines]
  | [_], out => by simp [writeVtLoop, vtLines]
  | s :: t :: rest, out => by
    simp only [writeVtLoop, bufferWriter_write, Bool.false_eq_true, if_false, vtLines,
      writeVtLoop_buffer rest, List.length_cons, List.append_assoc, List.singleton_append]
    have : (rest.length + 1 + 1) % 2 = 0 ↔ rest.length % 2 = 0 := by omega
    simp only [this]

theorem writeIndexUvLoop_buffer (i : Face F) (vertexOffset s : Int) (n start : Nat)
    (out : List (Print F)) :
    writeIndexUvLoop bufferWriter i vertexOffset s n start out =
      (out ++ uvIndexPairs i vertexOffset s start n, Status.ok) := by
  induction n generalizing start out with
  | zero => simp [writeIndexUvLoop, uvIndexPairs]
  | succ n ih =>
    simp [writeIndexUvLoop, bufferWriter_write, ih, uvIndexPairs, List.range'_succ]

theorem writeObjFaceWithUvCoordinates_buffer (out : List (Print F)) (i : Face F)
    (coords : List F) (end_ : Nat) (vertexOffset s : Int)
    (htc : i.TextureCoordinates = some coords) (heven : coords.length % 2 = 0) :
    writeObjFaceWithUvCoordinates bufferWriter out i end_ vertexOffset s =
      (out ++ (vtLines coords ++ Print.f :: uvIndexPairs i vertexOffset s 0 end_),
        Status.ok) := by
  simp [writeObjFaceWithUvCoordinates, htc, writeVtLoop_buffer, heven, bufferWriter_write,
    writeIndexUvLoop_buffer]

theorem switchMaterial_buffer (scene : Scene F) (i : Face F) (cm : Int)
    (out : List (Print F))
    (hmat : i.MaterialIndex = cm ∨
      (0 ≤ i.MaterialIndex ∧ i.MaterialIndex < scene.Materials.length)) :
    switchMaterial bufferWriter scene i cm out = (out ++ usemtlLines scene i cm, Status.ok) := by
  unfold switchMaterial usemtlLines
  by_cases he : i.MaterialIndex = cm
  · simp [he]
  · rcases hmat with h | h
    · exact absurd h he
    · simp [he, h, bufferWriter_write]

/-- A kept face that can be written adds its lines to the output and moves
the tracked material and UV indices on. -/
theorem facesLoop_face (scene : Scene F) (vertexOffset : Int) (i : Face F)
    (rest : List (Face F)) (cm cu : Int) (out : List (Print F)) (hk : 2 ≤ faceEnd i)
    (hw : i.Writable scene cm) :
    facesLoop bufferWriter scene vertexOffset (i :: rest) cm cu out =
      facesLoop bufferWriter scene vertexOffset rest i.MaterialIndex (nextUv i cu)
        (out ++ faceLines scene i vertexOffset cm cu) := by
  rw [facesLoop, if_neg (by omega), switchMaterial_buffer scene i cm out hw.1]
  cases htc : i.TextureCoordinates with
  | none =>
    simp only [writeObjFaceWithoutUvCoordinates_buffer, bufferWriter_write,
      Bool.false_eq_true, if_false, faceLines, nextUv, htc]
    simp [bareFaceLine]
  | some coords =>
    simp only [writeObjFaceWithUvCoordinates_buffer _ i coords _ _ _ htc (hw.2 coords htc),
      bufferWriter_write, Bool.false_eq_true, if_false, faceLines, nextUv, htc]
    simp [uvFaceLine]

theorem facesLoop_drop (w : Writer σ F) (scene : Scene F) (vertexOffset : Int)
    (pre rest : List (Face F)) (i : Face F) (cm cu : Int) (out : σ) (hk : faceEnd i < 2) :
    facesLoop w scene vertexOffset (pre ++ i :: rest) cm cu out =
      facesLoop w scene vertexOffset (pre ++ rest) cm cu out := by
  induction pre generalizing cm cu out with
  | nil => simp only [List.nil_append]; rw [facesLoop, if_pos hk]
  | cons j pre ih =>
    show facesLoop w scene vertexOffset (j :: (pre ++ i :: rest)) cm cu out =
      facesLoop w scene vertexOffset (j :: (pre ++ rest)) cm cu out
    rw [facesLoop, facesLoop]
    simp only [ih]
theorem switchMaterial_materials (w : Writer σ F) (scene scene' : Scene F)
    (h : scene.Materials = scene'.Materials) (i : Face F) (cm : Int) (out : σ) :
    switchMaterial w scene i cm out = switchMaterial w scene' i cm out := by
  unfold switchMaterial
  rw [h]

/-- The face loop looks at the scene's materials only. -/
theorem facesLoop_materials (w : Writer σ F) (scene scene' : Scene F)
    (h : scene.Materials = scene'.Materials) (vertexOffset : Int) (faces : List (Face F))
    (cm cu : Int) (out : σ) :
    facesLoop w scene vertexOffset faces cm cu out =
      facesLoop w scene' vertexOffset faces cm cu out := by
  induction faces generalizing cm cu out with
  | nil => rfl
  | cons i rest ih =>
    rw [facesLoop, facesLoop]
    simp only [ih, switchMaterial_materials w scene scene' h]

theorem objectsLoop_congr (w : Writer σ F) (scene scene' : Scene F)
    (h : scene.Materials = scene'.Materials) (vertexOffsets : List Int)
    (objs objs' : List (Object F)) (hobj : List.Forall₂ (SameFaces w scene) objs objs')
    (offset : Nat) (cm cu : Int) (out : σ) :
    objectsLoop w scene vertexOffsets objs offset cm cu out =
      objectsLoop w scene' vertexOffsets objs' offset cm cu out := by
  induction hobj generalizing offset cm cu out with
  | nil => rfl
  | cons hab _ ih =>
    rw [objectsLoop, objectsLoop]
    simp only [hab.1, hab.2, ih, facesLoop_materials w scene scene' h]

theorem verticesLoop_congr (w : Writer σ F) (objs objs' : List (Object F))
    (hobj : List.Forall₂ (fun o o' => o.Vertices = o'.Vertices) objs objs')
    (offset : Nat) (vertexOffsets : List Int) (out : σ) :
    verticesLoop w objs offset vertexOffsets out =
      verticesLoop w objs' offset vertexOffsets out := by
  induction hobj generalizing offset vertexOffsets out with
  | nil => rfl
  | cons hab _ ih =>
    rw [verticesLoop, verticesLoop]
    simp only [hab, ih]

theorem forall₂_replace {α : Type} (R : α → α → Prop) (hrefl : ∀ a, R a a) (pre post : List α)
    (a b : α) (hab : R a b) : List.Forall₂ R (pre ++ a :: post) (pre ++ b :: post) := by
  induction pre with
  | nil => exact List.Forall₂.cons hab (List.forall₂_same.mpr (fun x _ => hrefl x))
  | cons x pre ih => exact List.Forall₂.cons (hrefl x) ih

/-- Objects with the same materials, vertices and names whose faces the
face loop treats alike are written alike. -/
theorem ConvertMqoObjectsToObj_congr (w : Writer σ F) (out : σ) (ms : List Material)
    (objs objs' : List (Object F))
    (hv : List.Forall₂ (fun o o' => o.Vertices = o'.Vertices) objs objs')
    (hf : List.Forall₂ (SameFaces w ⟨ms, objs⟩) objs objs') (mtlName : List Nat) :
    ConvertMqoObjectsToObj w out ⟨ms, objs⟩ mtlName =
      ConvertMqoObjectsToObj w out ⟨ms, objs'⟩ mtlName := by
  unfold ConvertMqoObjectsToObj
  simp only [hv.length_eq, verticesLoop_congr w objs objs' hv,
    objectsLoop_congr w ⟨ms, objs⟩ ⟨ms, objs'⟩ rfl _ objs objs' hf]

set_option maxRecDepth 100000 in
theorem twoVertexFacesInput_parse (fuel : Nat) :
    Scene.Parse decimalEnv (fuel + 8) ⟨[], []⟩ twoVertexFacesInput =
      Res.ok (none, twoVertexFacesScene) :=
  Res.below_ok (Parse_mono decimalEnv 8 (fuel + 8) (by omega) _ _) (by decide)

/-- C11: the populated-vertex count of a face is the position of the first
negative entry of its 4 indices (4 if none).  A face whose count is below 2
is passed over by the face loop on every writer: the state of the writer and
the tracked material and UV indices are those of the run without it, and so
`ConvertMqoObjectsToObj` gives the same result as on the scene without that
face.  A face whose count is exactly 2 and that can be written is emitted, on
the writer that never fails, as its `usemtl` line (if the material changes),
its `vt` lines (if any) and an `f` line of 2 indices.  Not every face whose
count is 2 is emitted: `twoVertexFacesInput` parses to a scene whose second
face has count 2 and no material, and on it the material lookup panics
before that face's `f` line. -/
theorem ConvertMqoObjectsToObj_populated_count (w : Writer σ F) (out : σ)
    (ms : List Material) (opre opost : List (Object F)) (name mtlName : List Nat)
    (vs : List (Vertex F)) (fpre frest : List (Face F)) (i : Face F) (scene : Scene F)
    (vertexOffset cm cu : Int) (buf : List (Print F))
    (hlen : i.VertexIndices.length = 4) :
    faceEnd i = firstNegative i.VertexIndices ∧
    (faceEnd i < 2 →
      facesLoop w scene vertexOffset (fpre ++ i :: frest) cm cu out =
          facesLoop w scene vertexOffset (fpre ++ frest) cm cu out ∧
        ConvertMqoObjectsToObj w out ⟨ms, opre ++ ⟨name, vs, fpre ++ i :: frest⟩ :: opost⟩
            mtlName =
          ConvertMqoObjectsToObj w out ⟨ms, opre ++ ⟨name, vs, fpre ++ frest⟩ :: opost⟩
            mtlName) ∧
    (faceEnd i = 2 → i.Writable scene cm →
      facesLoop bufferWriter scene vertexOffset (i :: frest) cm cu buf =
          facesLoop bufferWriter scene vertexOffset frest i.MaterialIndex (nextUv i cu)
            (buf ++ faceLines scene i vertexOffset cm cu) ∧
        (i.TextureCoordinates = none →
          faceLines scene i vertexOffset cm cu =
            usemtlLines scene i cm ++
              [Print.f, Print.index (wrapInt (i.VertexIndices.getD 0 0 + 1 + vertexOffset)),
                Print.index (wrapInt (i.VertexIndices.getD 1 0 + 1 + vertexOffset)),
                Print.newline]) ∧
        ∀ coords, i.TextureCoordinates = some coords →
          faceLines scene i vertexOffset cm cu =
            usemtlLines scene i cm ++ (vtLines coords ++
              [Print.f, Print.indexSlash (wrapInt (i.VertexIndices.getD 0 0 + 1 + vertexOffset)),
                Print.index cu,
                Print.indexSlash (wrapInt (i.VertexIndices.getD 1 0 + 1 + vertexOffset)),
                Print.index (1 + cu), Print.newline])) ∧
    (∀ fuel, Scene.Parse decimalEnv (fuel + 8) ⟨[], []⟩ twoVertexFacesInput =
      Res.ok (none, twoVertexFacesScene)) ∧
    faceEnd (⟨[1, 2, -1, -1], -1, none⟩ : Face Decimal) = 2 ∧
    ConvertMqoObjectsToObj bufferWriter [] twoVertexFacesScene (bytes "a.mtl") =
      ([Print.mtllib (bytes "a.mtl"), Print.v ⟨0, 0⟩ ⟨0, 0⟩ ⟨0, 0⟩,
        Print.v ⟨1, 0⟩ ⟨0, 0⟩ ⟨0, 0⟩, Print.v ⟨0, 0⟩ ⟨1, 0⟩ ⟨0, 0⟩,
        Print.objectGroup (bytes "a"), Print.usemtl (bytes "m"), Print.f, Print.index 1,
        Print.index 2, Print.newline], Status.panic) := by
  refine ⟨faceEnd_eq_firstNegative i hlen, ?_, ?_, twoVertexFacesInput_parse, by decide,
    by decide⟩
  · intro hk
    refine ⟨facesLoop_drop w scene vertexOffset fpre frest i cm cu out hk, ?_⟩
    apply ConvertMqoObjectsToObj_congr
    · exact forall₂_replace (fun o o' : Object F => o.Vertices = o'.Vertices) (fun _ => rfl)
        opre opost _ _ rfl
    · exact forall₂_replace _ (fun _ => ⟨rfl, fun _ _ _ _ => rfl⟩) opre opost _ _
        ⟨rfl, fun vo cm' cu' out' => facesLoop_drop w _ vo fpre frest i cm' cu' out' hk⟩
  · intro hk hw
    refine ⟨facesLoop_face scene vertexOffset i frest cm cu buf (by omega) hw, ?_, ?_⟩
    · intro hnil
      simp [faceLines, hnil, bareFaceLine, hk, List.range_succ]
    · intro coords hc
      simp [faceLines, hc, uvFaceLine, uvIndexPairs, hk, List.range'_succ]

/-- C11 at concrete faces: the face `5, -1, 7, 8` has count 1 and the scene
with it is written like the scene without it; the faces `4, 7, -1, -1`
without and with texture coordinates are written as `f 5 8 ` and as two `vt`
lines and `f 5/1 8/2 `. -/
theorem ConvertMqoObjectsToObj_populated_count_witness :
    faceEnd (⟨[5, -1, 7, 8], 0, none⟩ : Face Decimal) = 1 ∧
    ConvertMqoObjectsToObj bufferWriter []
        (⟨[], [] ++ ⟨bytes "a", [], [⟨[0, 1, 2, 3], -1, none⟩] ++
          ⟨[5, -1, 7, 8], 0, none⟩ :: [⟨[1, 2, -1, -1], -1, none⟩]⟩ :: []⟩ : Scene Decimal)
        (bytes "a.mtl") =
      ConvertMqoObjectsToObj bufferWriter []
        ⟨[], [] ++ ⟨bytes "a", [], [⟨[0, 1, 2, 3], -1, none⟩] ++
          [⟨[1, 2, -1, -1], -1, none⟩]⟩ :: []⟩ (bytes "a.mtl") ∧
    faceLines (⟨[], []⟩ : Scene Decimal) ⟨[4, 7, -1, -1], -1, none⟩ 0 (-1) 1 =
      [Print.f, Print.index 5, Print.index 8, Print.newline] ∧
    faceLines (⟨[], []⟩ : Scene Decimal)
        ⟨[4, 7, -1, -1], -1, some [⟨0, 0⟩, ⟨1, 0⟩, ⟨5, 1⟩, ⟨5, 1⟩]⟩ 0 (-1) 1 =
      [Print.vt ⟨0, 0⟩ ⟨1, 0⟩, Print.vt ⟨5, 1⟩ ⟨5, 1⟩, Print.f, Print.indexSlash 5,
        Print.index 1, Print.indexSlash 8, Print.index 2, Print.newline] :=
  ⟨by decide,
    ((@ConvertMqoObjectsToObj_populated_count Decimal _ bufferWriter [] [] [] [] (bytes "a")
      (bytes "a.mtl") [] [⟨[0, 1, 2, 3], -1, none⟩] [⟨[1, 2, -1, -1], -1, none⟩]
      ⟨[5, -1, 7, 8], 0, none⟩ ⟨[], []⟩ 0 (-1) 1 [] rfl).2.1 (by decide)).2,
    ((@ConvertMqoObjectsToObj_populated_count Decimal _ bufferWriter [] [] [] [] (bytes "a")
      (bytes "a.mtl") [] [] [] ⟨[4, 7, -1, -1], -1, none⟩ ⟨[], []⟩ 0 (-1) 1 [] rfl).2.2.1
      (by decide) ⟨Or.inl rfl, fun _ h => by cases h⟩).2.1 rfl,
    ((@ConvertMqoObjectsToObj_populated_count Decimal _ bufferWriter [] [] [] [] (bytes "a")
      (bytes "a.mtl") [] [] []
      ⟨[4, 7, -1, -1], -1, some [⟨0, 0⟩, ⟨1, 0⟩, ⟨5, 1⟩, ⟨5, 1⟩]⟩ ⟨[], []⟩ 0 (-1) 1 [] rfl).2.2.1
      (by decide) ⟨Or.inl rfl, fun _ h => by cases h; rfl⟩).2.2 _ rfl⟩

/-! ## The numbering of the UV indices -/

theorem allFaces_append (a b : List (Object F)) :
    allFaces (a ++ b) = allFaces a ++ allFaces b := by
  induction a with
  | nil => rfl
  | cons o a ih => simp [allFaces, ih]

theorem uvCount_append (a b : List (Face F)) : uvCount (a ++ b) = uvCount a + uvCount b := by
  induction a with
  | nil => simp [uvCount]
  | cons i a ih =>
    show uvCount (i :: (a ++ b)) = uvCount (i :: a) + uvCount b
    rw [uvCount, ih, uvCount]
    omega

theorem lastMaterial_snoc (before : List (Face F)) (i : Face F) :
    lastMaterial (before ++ [i]) = if faceEnd i < 2 then lastMaterial before
      else i.MaterialIndex := by
  unfold lastMaterial
  rw [List.reverse_append, List.reverse_singleton, List.singleton_append, List.find?_cons]
  by_cases h : faceEnd i < 2
  · have : decide (2 ≤ faceEnd i) = false := by simp; omega
    simp only [this, if_pos h]
  · have : decide (2 ≤ faceEnd i) = true := by simp; omega
    simp only [this, if_neg h]

theorem uvCount_snoc (before : List (Face F)) (i : Face F) :
    (1 : Int) + (uvCount (before ++ [i]) : Int) =
      if faceEnd i < 2 then 1 + (uvCount before : Int)
      else nextUv i (1 + (uvCount before : Int)) := by
  rw [uvCount_append]
  by_cases h : faceEnd i < 2
  · simp [uvCount, h]
  · cases htc : i.TextureCoordinates with
    | none => simp [uvCount, h, nextUv, htc]
    | some coords =>
      simp only [uvCount, if_neg h, nextUv, htc, add_zero]
      push_cast
      ring

/-- The face loop, started with the tracked indices that the faces `before`
leave, writes the lines `facesText` and leaves the tracked indices of
`before ++ faces`. -/
theorem facesLoop_text (scene : Scene F) (vertexOffset : Int) (faces before : List (Face F))
    (out : List (Print F))
    (hw : ∀ b i a, faces = b ++ i :: a → 2 ≤ faceEnd i →
      i.Writable scene (lastMaterial (before ++ b))) :
    facesLoop bufferWriter scene vertexOffset faces (lastMaterial before)
        (1 + (uvCount before : Int)) out =
      (out ++ facesText scene vertexOffset before faces, Status.ok,
        lastMaterial (before ++ faces), 1 + (uvCount (before ++ faces) : Int)) := by
  induction faces generalizing before out with
  | nil => simp [facesLoop, facesText]
  | cons i rest ih =>
    have hrest : ∀ b j a, rest = b ++ j :: a → 2 ≤ faceEnd j →
        j.Writable scene (lastMaterial ((before ++ [i]) ++ b)) := by
      intro b j a e hj
      have := hw (i :: b) j a (by rw [e]; rfl) hj
      simpa using this
    have e : before ++ i :: rest = (before ++ [i]) ++ rest := by simp
    by_cases h : faceEnd i < 2
    · rw [facesLoop, if_pos h]
      have := ih (before ++ [i]) out hrest
      rw [lastMaterial_snoc, uvCount_snoc, if_pos h, if_pos h] at this
      rw [this, e]
      simp [facesText, faceText, h]
    · have hwi := hw [] i rest rfl (by omega)
      rw [List.append_nil] at hwi
      rw [facesLoop_face scene vertexOffset i rest _ _ out (by omega) hwi]
      have := ih (before ++ [i]) (out ++ faceLines scene i vertexOffset (lastMaterial before)
        (1 + (uvCount before : Int))) hrest
      rw [lastMaterial_snoc, uvCount_snoc, if_neg h, if_neg h] at this
      rw [this, e]
      simp [facesText, faceText, h]

theorem objectsLoop_text (scene : Scene F) (all : List (Object F)) (vertexOffsets : List Int)
    (hvo : ∀ k, k ≤ all.length → vertexOffsets.getD k 0 = offsetOf all k)
    (post pre : List (Object F)) (out : List (Print F)) (hall : all = pre ++ post)
    (hw : ∀ b i a, allFaces post = b ++ i :: a → 2 ≤ faceEnd i →
      i.Writable scene (lastMaterial (allFaces pre ++ b))) :
    objectsLoop bufferWriter scene vertexOffsets post pre.length (lastMaterial (allFaces pre))
        (1 + (uvCount (allFaces pre) : Int)) out =
      (out ++ objectsText scene all pre post, Status.ok) := by
  induction post generalizing pre out with
  | nil => simp [objectsLoop, objectsText]
  | cons o post ih =>
    have hf := facesLoop_text scene (vertexOffsets.getD pre.length 0) o.Faces (allFaces pre)
      (out ++ [Print.objectGroup o.Name])
      (by
        intro b i a e hi
        exact hw b i (a ++ allFaces post) (by simp [allFaces, e]) hi)
    have hpre : allFaces (pre ++ [o]) = allFaces pre ++ o.Faces := by
      simp [allFaces_append, allFaces]
    have := ih (pre ++ [o])
      (out ++ [Print.objectGroup o.Name] ++
        facesText scene (vertexOffsets.getD pre.length 0) (allFaces pre) o.Faces)
      (by rw [hall]; simp)
      (by
        intro b i a e hi
        rw [hpre, List.append_assoc]
        exact hw (o.Faces ++ b) i a (by simp [allFaces, e]) hi)
    rw [hpre] at this
    rw [objectsLoop]
    simp only [bufferWriter_write, Bool.false_eq_true, if_false, hf]
    rw [show pre.length + 1 = (pre ++ [o]).length by simp, this,
      hvo pre.length (by rw [hall]; simp)]
    simp [objectsText]
theorem vtCount_append (a b : List (Print F)) : vtCount (a ++ b) = vtCount a + vtCount b :=
  List.countP_append _ _ _

theorem vtCount_of_none (ps : List (Print F)) (h : ∀ p ∈ ps, Print.isVt p = false) :
    vtCount ps = 0 := by
  unfold vtCount
  rw [List.countP_eq_zero]
  intro p hp
  simp [h p hp]

theorem vtCount_vtLines : ∀ coords : List F, vtCount (vtLines coords) = coords.length / 2
  | [] => by simp [vtLines, vtCount]
  | [_] => by simp [vtLines, vtCount]
  | s :: t :: rest => by
    have ih := vtCount_vtLines rest
    unfold vtCount at ih ⊢
    simp only [vtLines, List.countP_cons, Print.isVt, if_true, ih, List.length_cons]
    omega

theorem vtCount_uvIndexPairs (i : Face F) (vertexOffset s : Int) (start n : Nat) :
    vtCount (uvIndexPairs i vertexOffset s start n) = 0 := by
  apply vtCount_of_none
  intro p hp
  simp only [uvIndexPairs, List.mem_flatMap, List.mem_cons, List.mem_singleton,
    List.not_mem_nil, or_false] at hp
  obtain ⟨j, -, rfl | rfl⟩ := hp <;> rfl

theorem vtCount_usemtlLines (scene : Scene F) (i : Face F) (cm : Int) :
    vtCount (usemtlLines scene i cm) = 0 := by
  unfold usemtlLines
  split_ifs <;> rfl

theorem vtCount_bareFaceLine (i : Face F) (vertexOffset : Int) :
    vtCount (bareFaceLine i vertexOffset) = 0 := by
  apply vtCount_of_none
  intro p hp
  simp only [bareFaceLine, List.cons_append, List.mem_cons, List.mem_append, List.mem_map,
    List.mem_singleton, List.not_mem_nil, or_false] at hp
  rcases hp with rfl | ⟨j, -, rfl⟩ | rfl <;> rfl

theorem vtCount_uvFaceLine (i : Face F) (coords : List F) (vertexOffset s : Int) :
    vtCount (uvFaceLine i coords vertexOffset s) = coords.length / 2 := by
  unfold uvFaceLine
  rw [vtCount_append, vtCount_vtLines,
    show Print.f :: (uvIndexPairs i vertexOffset s 0 (faceEnd i) ++ [Print.newline]) =
      [Print.f] ++ (uvIndexPairs i vertexOffset s 0 (faceEnd i) ++ [Print.newline]) from rfl,
    vtCount_append, vtCount_append, vtCount_uvIndexPairs]
  rfl

theorem vtCount_faceText (scene : Scene F) (vertexOffset : Int) (before : List (Face F))
    (i : Face F) : vtCount (faceText scene vertexOffset before i) = uvCount [i] := by
  unfold faceText
  by_cases h : faceEnd i < 2
  · simp [h, uvCount, vtCount]
  · cases htc : i.TextureCoordinates with
    | none =>
      simp only [if_neg h, faceLines, htc, vtCount_append, vtCount_usemtlLines,
        vtCount_bareFaceLine, uvCount]
    | some coords =>
      simp only [if_neg h, faceLines, htc, vtCount_append, vtCount_usemtlLines,
        vtCount_uvFaceLine, uvCount]
      omega

theorem vtCount_facesText (scene : Scene F) (vertexOffset : Int) (faces before : List (Face F)) :
    vtCount (facesText scene vertexOffset before faces) = uvCount faces := by
  induction faces generalizing before with
  | nil => rfl
  | cons i rest ih =>
    rw [facesText, vtCount_append, vtCount_faceText, ih,
      show i :: rest = [i] ++ rest from rfl, uvCount_append]

theorem vtCount_objectsText (scene : Scene F) (all post pre : List (Object F)) :
    vtCount (objectsText scene all pre post) = uvCount (allFaces post) := by
  induction post generalizing pre with
  | nil => rfl
  | cons o post ih =>
    rw [objectsText, show ∀ l : List (Print F), Print.objectGroup o.Name :: l =
      [Print.objectGroup o.Name] ++ l from fun _ => rfl, vtCount_append, vtCount_append,
      vtCount_facesText, ih, allFaces, uvCount_append]
    simp [vtCount, Print.isVt]

theorem vtCount_vertexLines (objects : List (Object F)) : vtCount (vertexLines objects) = 0 := by
  apply vtCount_of_none
  intro p hp
  have := vertexLines_isV objects p hp
  cases p <;> simp_all [Print.isV, Print.isVt]

theorem facesText_append (scene : Scene F) (vertexOffset : Int) (fpre frest before : List (Face F))
    (i : Face F) :
    facesText scene vertexOffset before (fpre ++ i :: frest) =
      facesText scene vertexOffset before fpre ++
        (faceText scene vertexOffset (before ++ fpre) i ++
          facesText scene vertexOffset (before ++ fpre ++ [i]) frest) := by
  induction fpre generalizing before with
  | nil => simp [facesText]
  | cons j fpre ih =>
    show facesText scene vertexOffset before (j :: (fpre ++ i :: frest)) = _
    rw [facesText, ih, facesText]
    simp

theorem objectsText_append (scene : Scene F) (all opre opost pre : List (Object F))
    (o : Object F) :
    objectsText scene all pre (opre ++ o :: opost) =
      objectsText scene all pre opre ++
        Print.objectGroup o.Name ::
          (facesText scene (offsetOf all (pre ++ opre).length) (allFaces (pre ++ opre)) o.Faces ++
            objectsText scene all (pre ++ opre ++ [o]) opost) := by
  induction opre generalizing pre with
  | nil => simp [objectsText]
  | cons x opre ih =>
    show objectsText scene all pre (x :: (opre ++ o :: opost)) = _
    rw [objectsText, ih, objectsText]
    simp
/-- On the writer that never fails, a scene whose kept faces can all be
written gives the `mtllib` line, the `v` lines and the lines of the objects. -/
theorem ConvertMqoObjectsToObj_text (scene : Scene F) (mtlName : List Nat)
    (hw : scene.Writable) :
    ConvertMqoObjectsToObj bufferWriter [] scene mtlName =
      (Print.mtllib mtlName ::
        (vertexLines scene.Objects ++ objectsText scene scene.Objects [] scene.Objects),
        Status.ok) := by
  have hv := verticesLoop_buffer scene.Objects [] (List.replicate (scene.Objects.length + 1) 0)
    [Print.mtllib mtlName] (by simp)
    (by
      intro k hk
      have : k = 0 := by simpa using hk
      subst this
      simp [offsetOf])
  simp only [List.length_nil, zero_add, List.nil_append] at hv
  obtain ⟨h1, h2, h3⟩ := hv
  have hobj := objectsLoop_text scene scene.Objects _ h3 scene.Objects []
    (Print.mtllib mtlName :: vertexLines scene.Objects) rfl
    (by
      intro b i a e hi
      exact hw b i a e hi)
  have h0 : lastMaterial (allFaces ([] : List (Object F))) = -1 := rfl
  have h0' : (1 : Int) + (uvCount (allFaces ([] : List (Object F))) : Int) = 1 := rfl
  rw [h0, h0'] at hobj
  unfold ConvertMqoObjectsToObj
  simp only [bufferWriter_write, List.nil_append, Bool.false_eq_true, if_false, h2, h1,
    List.singleton_append]
  exact hobj

/-- C12: on the writer that never fails, a scene whose kept faces can all be
written gives the `mtllib` line, the `v` lines and then, object by object,
the `o`/`g` lines and the lines of the kept faces.  A kept face with texture
coordinates, in whatever object it is, appears in the output as its `vt`
lines and an `f` line whose populated vertices `j = 0, ..., e - 1` carry the
UV indices `s + j`, where `s` is 1 plus the sum of `len(TextureCoordinates)/2`
over the kept faces with texture coordinates before it, those of the earlier
objects included; `s - 1` is the number of `vt` lines written before the
face's own. -/
theorem ConvertMqoObjectsToObj_uv_numbering (scene : Scene F) (mtlName : List Nat)
    (hw : scene.Writable) :
    ConvertMqoObjectsToObj bufferWriter [] scene mtlName =
        (Print.mtllib mtlName ::
          (vertexLines scene.Objects ++ objectsText scene scene.Objects [] scene.Objects),
          Status.ok) ∧
      ∀ opre o opost fpre i frest coords, scene.Objects = opre ++ o :: opost →
        o.Faces = fpre ++ i :: frest → 2 ≤ faceEnd i → i.TextureCoordinates = some coords →
        ∃ head tail,
          (ConvertMqoObjectsToObj bufferWriter [] scene mtlName).1 =
            head ++ (uvFaceLine i coords (offsetOf scene.Objects opre.length)
              (1 + (uvCount (allFaces opre ++ fpre) : Int)) ++ tail) ∧
          vtCount head = uvCount (allFaces opre ++ fpre) := by
  refine ⟨ConvertMqoObjectsToObj_text scene mtlName hw, ?_⟩
  intro opre o opost fpre i frest coords hobj hfaces hi htc
  rw [ConvertMqoObjectsToObj_text scene mtlName hw]
  have hsplit := objectsText_append scene scene.Objects opre opost [] o
  simp only [List.nil_append] at hsplit
  rw [← hobj] at hsplit
  have hft : faceText scene (offsetOf scene.Objects opre.length) (allFaces opre ++ fpre) i =
      usemtlLines scene i (lastMaterial (allFaces opre ++ fpre)) ++
        uvFaceLine i coords (offsetOf scene.Objects opre.length)
          (1 + (uvCount (allFaces opre ++ fpre) : Int)) := by
    simp only [faceText, if_neg (show ¬faceEnd i < 2 by omega), faceLines, htc]
  refine ⟨Print.mtllib mtlName :: (vertexLines scene.Objects ++
      (objectsText scene scene.Objects [] opre ++ Print.objectGroup o.Name ::
        (facesText scene (offsetOf scene.Objects opre.length) (allFaces opre) fpre ++
          usemtlLines scene i (lastMaterial (allFaces opre ++ fpre))))),
    facesText scene (offsetOf scene.Objects opre.length) (allFaces opre ++ fpre ++ [i]) frest ++
      objectsText scene scene.Objects (opre ++ [o]) opost, ?_, ?_⟩
  · show Print.mtllib mtlName :: (vertexLines scene.Objects ++
        objectsText scene scene.Objects [] scene.Objects) = _
    rw [hsplit, hfaces, facesText_append, hft]
    simp
  · rw [show ∀ l : List (Print F), Print.mtllib mtlName :: l = [Print.mtllib mtlName] ++ l
        from fun _ => rfl, vtCount_append, vtCount_append, vtCount_vertexLines,
      vtCount_append, vtCount_objectsText,
      show ∀ l : List (Print F), Print.objectGroup o.Name :: l =
        [Print.objectGroup o.Name] ++ l from fun _ => rfl, vtCount_append, vtCount_append,
      vtCount_facesText, vtCount_usemtlLines, uvCount_append]
    simp [vtCount, Print.isVt]

/-- C12 at `twoObjectScene`: the 3-vertex face of the first object carries
the UV indices 1, 2, 3 and the face of the second object the UV indices
4, 5, 6, 7. -/
theorem ConvertMqoObjectsToObj_uv_numbering_witness :
    twoObjectScene.Writable ∧
      (ConvertMqoObjectsToObj bufferWriter [] twoObjectScene (bytes "a.mtl")).1 =
        [Print.mtllib (bytes "a.mtl"),
          Print.v ⟨0, 0⟩ ⟨0, 0⟩ ⟨0, 0⟩, Print.v ⟨1, 0⟩ ⟨0, 0⟩ ⟨0, 0⟩, Print.v ⟨0, 0⟩ ⟨1, 0⟩ ⟨0, 0⟩,
          Print.v ⟨0, 0⟩ ⟨0, 0⟩ ⟨1, 0⟩,
          Print.objectGroup (bytes "a"), Print.usemtl (bytes "m"),
          Print.vt ⟨0, 0⟩ ⟨0, 0⟩, Print.vt ⟨1, 0⟩ ⟨0, 0⟩, Print.vt ⟨0, 0⟩ ⟨1, 0⟩, Print.f,
          Print.indexSlash 1, Print.index 1, Print.indexSlash 2, Print.index 2,
          Print.indexSlash 3, Print.index 3, Print.newline,
          Print.objectGroup (bytes "b"),
          Print.vt ⟨0, 0⟩ ⟨0, 0⟩, Print.vt ⟨1, 0⟩ ⟨0, 0⟩, Print.vt ⟨0, 0⟩ ⟨1, 0⟩,
          Print.vt ⟨1, 0⟩ ⟨1, 0⟩, Print.f,
          Print.indexSlash 4, Print.index 4, Print.indexSlash 4, Print.index 5,
          Print.indexSlash 4, Print.index 6, Print.indexSlash 4, Print.index 7,
          Print.newline] := by
  have hw : twoObjectScene.Writable := by
    intro before i after e _
    match before, e with
    | [], e => cases e; exact ⟨Or.inr (by decide), fun c hc => by cases hc; rfl⟩
    | [_], e => cases e; exact ⟨Or.inr (by decide), fun c hc => by cases hc; rfl⟩
    | _ :: _ :: _ :: _, e => cases e
    | [_, _], e => cases e
  refine ⟨hw, ?_⟩
  rw [(ConvertMqoObjectsToObj_uv_numbering twoObjectScene (bytes "a.mtl") hw).1]
  decide

/-! ## The MTL writer -/

theorem writeAll_buffer (out ps : List (Print F)) : writeAll bufferWriter out ps = out ++ ps := by
  induction ps generalizing out with
  | nil => simp [writeAll]
  | cons p ps ih =>
    show writeAll bufferWriter (out ++ [p]) ps = out ++ p :: ps
    rw [ih]
    simp

theorem ConvertMqoObjectsToMtlLoop_lines (w : Writer σ F)
    (hw : ∀ s p, (w.write s p).2 = false) (materials : List Material) (out : σ) :
    ConvertMqoObjectsToMtlLoop w materials out =
      (writeAll w out (mtlLines materials), Status.ok) := by
  induction materials generalizing out with
  | nil => rfl
  | cons m rest ih =>
    rw [ConvertMqoObjectsToMtlLoop]
    by_cases h : m.TextureMappingFile = []
    · simp [hw, h, ih, mtlLines, materialLines, writeAll]
    · simp [hw, h, ih, mtlLines, materialLines, writeAll]

theorem renderAll_mtlLines (env : Env F) (materials : List Material) :
    renderAll env (mtlLines materials) = mtlText materials := by
  induction materials with
  | nil => rfl
  | cons m rest ih =>
    have e : mtlLines (m :: rest) = (materialLines m : List (Print F)) ++ mtlLines rest := by
      simp [mtlLines]
    rw [e, renderAll_append, ih, mtlText]
    by_cases h : m.TextureMappingFile = []
    · simp [materialLines, h, renderAll, Print.render]
    · simp [materialLines, h, renderAll, Print.render]

theorem mtlLines_newmtl (materials : List Material) :
    ((mtlLines materials : List (Print F)).countP Print.isNewmtl = materials.length) ∧
      ∀ p ∈ (mtlLines materials : List (Print F)), Print.isNewmtl p = true ∨ Print.isMapKd p = true := by
  induction materials with
  | nil => simp [mtlLines]
  | cons m rest ih =>
    have e : (mtlLines (m :: rest) : List (Print F)) = materialLines m ++ mtlLines rest := by
      simp [mtlLines]
    rw [e, List.countP_append, ih.1]
    constructor
    · by_cases h : m.TextureMappingFile = []
      · simp [materialLines, h, Print.isNewmtl]; omega
      · simp [materialLines, h, Print.isNewmtl]; omega
    · intro p hp
      rcases List.mem_append.mp hp with hp | hp
      · by_cases h : m.TextureMappingFile = []
        · simp [materialLines, h] at hp
          subst hp
          exact Or.inl rfl
        · simp [materialLines, h] at hp
          rcases hp with rfl | rfl
          · exact Or.inl rfl
          · exact Or.inr rfl
      · exact ih.2 p hp

/-- C13: on a writer that never fails, `ConvertMqoObjectsToMtl` returns nil
after making, for the materials in order, the call for `newmtl <Name>` and,
if and only if the texture file name is not empty, the call for
`map_Kd <TextureMappingFile>`, and no other call; on the writer that records
the calls the output is these lines after what was there, their text is
`mtlText`, and there is one `newmtl` line per material. -/
theorem ConvertMqoObjectsToMtl_lines (env : Env F) (w : Writer σ F)
    (hw : ∀ s p, (w.write s p).2 = false) (out : σ) (buf : List (Print F))
    (scene : Scene F) :
    ConvertMqoObjectsToMtl w out scene =
        (writeAll w out (mtlLines scene.Materials), Status.ok) ∧
      ConvertMqoObjectsToMtl bufferWriter buf scene =
        (buf ++ mtlLines scene.Materials, Status.ok) ∧
      renderAll env (mtlLines scene.Materials) = mtlText scene.Materials ∧
      (mtlLines scene.Materials : List (Print F)).countP Print.isNewmtl =
        scene.Materials.length ∧
      ∀ p ∈ (mtlLines scene.Materials : List (Print F)),
        Print.isNewmtl p = true ∨ Print.isMapKd p = true := by
  refine ⟨ConvertMqoObjectsToMtlLoop_lines w hw _ out, ?_, renderAll_mtlLines env _,
    (mtlLines_newmtl _).1, (mtlLines_newmtl _).2⟩
  unfold ConvertMqoObjectsToMtl
  rw [ConvertMqoObjectsToMtlLoop_lines bufferWriter (fun _ _ => rfl), writeAll_buffer]

/-- C13 at the material of `testScene` followed by a material without a
texture file. -/
theorem ConvertMqoObjectsToMtl_lines_witness :
    (∀ (s : List (Print Decimal)) (p : Print Decimal), (bufferWriter.write s p).2 = false) ∧
      ConvertMqoObjectsToMtl bufferWriter []
          (⟨[⟨bytes "texture1", bytes "somefile.bmp"⟩, ⟨bytes "plain", []⟩], []⟩ :
            Scene Decimal) =
        ([Print.newmtl (bytes "texture1"), Print.mapKd (bytes "somefile.bmp"),
          Print.newmtl (bytes "plain")], Status.ok) ∧
      renderAll decimalEnv (mtlLines [⟨bytes "texture1", bytes "somefile.bmp"⟩,
          ⟨bytes "plain", []⟩]) =
        bytes "newmtl texture1\nmap_Kd somefile.bmp\nnewmtl plain\n" :=
  ⟨fun _ _ => rfl,
    (ConvertMqoObjectsToMtl_lines decimalEnv bufferWriter (fun _ _ => rfl) [] []
      ⟨[⟨bytes "texture1", bytes "somefile.bmp"⟩, ⟨bytes "plain", []⟩], []⟩).2.1.trans
      (by decide),
    by decide⟩

/-! ## Every face line: termination and invariants of `parseFaceLine` -/

theorem skipSpace_rest_le (st : mqoState) : st.skipSpace.rest.length ≤ st.rest.length := by
  obtain ⟨ws, h, -⟩ := skipSpace_dropped st
  have := congrArg List.length h
  rw [List.length_append] at this
  omega

theorem readWord_rest_length (env : Env F) (st : mqoState) :
    (st.readWord env).2.rest.length + (st.readWord env).1.length = st.skipSpace.rest.length := by
  rw [← readWord_append env st, List.length_append]
  omega

theorem readChars_rest_le (st : mqoState) (validChars : List Nat)
    (hv : ∀ c ∈ validChars, c < 0x80) :
    (st.readChars validChars).2.rest.length ≤ st.rest.length := by
  rw [readChars_spec validChars hv st]
  exact le_trans (List.dropWhile_sublist _).length_le (skipSpace_rest_le st)

theorem readTo_rest_le (st : mqoState) (char : Nat) (hc : char < 0x80) :
    (st.readTo char).2.rest.length ≤ st.rest.length := by
  rw [readTo_spec char hc st]
  exact le_trans (List.dropWhile_sublist _).length_le (skipSpace_rest_le st)

/-- An argument with a name takes at least one byte of the input. -/
theorem readParentheticArg_rest_lt (env : Env F) (st : mqoState) (name content : List Nat)
    (h : (st.readParentheticArg env).1 = some (name, content)) (hne : name ≠ []) :
    (st.readParentheticArg env).2.rest.length < st.rest.length := by
  have hw := readWord_rest_length env st
  have hs := skipSpace_rest_le st
  unfold mqoState.readParentheticArg at h ⊢
  by_cases h1 : (st.readWord env).1 = []
  · simp only [h1, if_true] at h
    simp only [Option.some.injEq, Prod.mk.injEq] at h
    exact absurd h.1.symm hne
  · have hpos : 0 < (st.readWord env).1.length := List.length_pos.mpr h1
    have hc := readChars_rest_le (st.readWord env).2 (bytes "(") (by decide)
    simp only [h1, if_false] at h ⊢
    by_cases h2 : ((st.readWord env).2.readChars (bytes "(")).1 = []
    · simp only [h2, if_true] at h
      cases h
    · have ht := readTo_rest_le ((st.readWord env).2.readChars (bytes "(")).2 0x29 (by decide)
      have hw2 := readWord_rest_length env
        (((st.readWord env).2.readChars (bytes "(")).2.readTo 0x29).2
      have hs2 := skipSpace_rest_le
        (((st.readWord env).2.readChars (bytes "(")).2.readTo 0x29).2
      simp only [h2, if_false] at h ⊢
      split_ifs <;> simp only <;> omega

theorem faceArgumentFuncs_cases (env : Env F) (name : List Nat)
    (faceFunc : Face F → Int → List Nat → Res (Face F × Bool))
    (h : faceArgumentFuncs env name = some faceFunc) :
    faceFunc = parseFaceVertices ∨ faceFunc = parseFaceMaterial ∨
      faceFunc = parseFaceUvCoordinates env := by
  unfold faceArgumentFuncs at h
  split_ifs at h <;> simp only [Option.some.injEq] at h
  · exact Or.inl h.symm
  · exact Or.inr (Or.inl h.symm)
  · exact Or.inr (Or.inr h.symm)

/-- The handlers of the face arguments return or panic; none runs for ever. -/
theorem faceFunc_ne_diverge (env : Env F) (name : List Nat)
    (faceFunc : Face F → Int → List Nat → Res (Face F × Bool))
    (h : faceArgumentFuncs env name = some faceFunc) (f : Face F) (num : Int)
    (content : List Nat) : faceFunc f num content ≠ Res.diverge := by
  rcases faceArgumentFuncs_cases env name faceFunc h with rfl | rfl | rfl
  · unfold parseFaceVertices
    dsimp only
    split_ifs <;> simp
  · unfold parseFaceMaterial
    dsimp only
    split <;> simp
  · unfold parseFaceUvCoordinates
    dsimp only
    split_ifs <;> simp

/-- The argument loop of `parseFaceLine` ends within as many iterations as
the input has bytes, plus one. -/
theorem parseFaceLineLoop_terminates (env : Env F) (num : Int) (fuel : Nat) (f : Face F)
    (st : mqoState) (h : st.rest.length < fuel) :
    parseFaceLineLoop env num fuel f st ≠ Res.diverge := by
  induction fuel generalizing f st with
  | zero => omega
  | succ n ih =>
    rw [parseFaceLineLoop]
    have hs := skipSpace_rest_le st
    cases harg : (st.skipSpace.readParentheticArg env).1 with
    | none => simp
    | some nc =>
      obtain ⟨name, content⟩ := nc
      simp only
      by_cases hn : name = []
      · simp [hn]
      · have hlt := readParentheticArg_rest_lt env st.skipSpace name content harg hn
        simp only [hn, if_false]
        cases hfn : faceArgumentFuncs env name with
        | none => exact ih f _ (by omega)
        | some faceFunc =>
          simp only
          have hnd := faceFunc_ne_diverge env name faceFunc hfn f num content
          cases hr : faceFunc f num content with
          | diverge => exact absurd hr hnd
          | panic => simp [Res.bind]
          | ok r =>
            simp only [Res.bind]
            split_ifs
            · simp
            · exact ih r.1 _ (by omega)

/-- A property of the face that every handler keeps is kept by the argument loop. -/
theorem parseFaceLineLoop_invariant (env : Env F) (num : Int) (P : Face F → Prop)
    (hP : ∀ name faceFunc f content r, faceArgumentFuncs env name = some faceFunc → P f →
      faceFunc f num content = Res.ok r → P r.1)
    (fuel : Nat) (f : Face F) (st : mqoState) (r : Face F × mqoState) (hf : P f)
    (h : parseFaceLineLoop env num fuel f st = Res.ok r) : P r.1 := by
  induction fuel generalizing f st with
  | zero => simp [parseFaceLineLoop] at h
  | succ n ih =>
    rw [parseFaceLineLoop] at h
    cases harg : (st.skipSpace.readParentheticArg env).1 with
    | none =>
      simp only [harg, Res.ok.injEq] at h
      rw [← h]
      exact hf
    | some nc =>
      obtain ⟨name, content⟩ := nc
      simp only [harg] at h
      by_cases hn : name = []
      · simp only [hn, if_true, Res.ok.injEq] at h
        rw [← h]
        exact hf
      · simp only [hn, if_false] at h
        cases hfn : faceArgumentFuncs env name with
        | none =>
          simp only [hfn] at h
          exact ih f _ hf h
        | some faceFunc =>
          simp only [hfn] at h
          cases hr : faceFunc f num content with
          | diverge => simp [hr, Res.bind] at h
          | panic => simp [hr, Res.bind] at h
          | ok r' =>
            have hP' := hP name faceFunc f content r' hfn hf hr
            simp only [hr, Res.bind] at h
            split_ifs at h
            · simp only [Res.ok.injEq] at h
              rw [← h]
              exact hP'
            · exact ih r'.1 _ hP' h
theorem readPositiveInteger_count (line : List Nat) :
    (mqoState.init line).skipSpace.readPositiveInteger =
      (declaredCount line, ⟨[], (dropLeadingSpace line).dropWhile digitChars.contains⟩) := by
  rw [readPositiveInteger_skipSpace]
  unfold mqoState.readPositiveInteger
  rw [readChars_spec digitChars digitChars_lt]
  rfl

theorem atoi_some (c : Nat) (t : List Nat) (v : Int) (h : atoi (c :: t) = some v) :
    ∃ n, digitsValue (if (c == 0x2D || c == 0x2B) = true then t else c :: t) 0 = some n ∧
      v = (if (c == 0x2D) = true then -(n : Int) else (n : Int)) ∧
      -(2 : Int) ^ 63 ≤ v ∧ v < (2 : Int) ^ 63 := by
  unfold atoi at h
  dsimp only at h
  by_cases he : (if (c == 0x2D || c == 0x2B) = true then t else c :: t).isEmpty = true
  · rw [if_pos he] at h
    cases h
  · rw [if_neg he] at h
    cases hd : digitsValue (if (c == 0x2D || c == 0x2B) = true then t else c :: t) 0 with
    | none =>
      rw [hd] at h
      cases h
    | some n =>
      rw [hd] at h
      dsimp only at h
      cases hs : (c == 0x2D)
      · rw [hs] at h
        simp only [Bool.false_eq_true, if_false] at h ⊢
        split_ifs at h with hr
        simp only [Option.some.injEq] at h
        subst h
        exact ⟨n, rfl, rfl, by simpa using hr⟩
      · rw [hs] at h
        simp only [if_true] at h ⊢
        split_ifs at h with hr
        simp only [Option.some.injEq] at h
        subst h
        exact ⟨n, rfl, rfl, by simpa using hr⟩

theorem atoi_range (s : List Nat) (v : Int) (h : atoi s = some v) :
    -(2 : Int) ^ 63 ≤ v ∧ v < (2 : Int) ^ 63 := by
  cases s with
  | nil => simp [atoi] at h
  | cons c t =>
    obtain ⟨n, -, -, hr⟩ := atoi_some c t v h
    exact hr

theorem atoi_digits_nonneg (s : List Nat) (v : Int) (hd : ∀ c ∈ s, c ∈ digitChars)
    (h : atoi s = some v) : 0 ≤ v := by
  cases s with
  | nil => simp [atoi] at h
  | cons c t =>
    obtain ⟨n, -, hv, -⟩ := atoi_some c t v h
    have hc : (c == 0x2D) = false := by
      have hm := hd c (List.mem_cons_self _ _)
      rw [beq_eq_false_iff_ne]
      rintro rfl
      revert hm
      decide
    rw [hc] at hv
    simp only [Bool.false_eq_true, if_false] at hv
    rw [hv]
    exact Int.ofNat_nonneg n

theorem declaredCount_range (line : List Nat) (n : Int) (h : declaredCount line = some n) :
    0 ≤ n ∧ n < (2 : Int) ^ 63 := by
  refine ⟨atoi_digits_nonneg _ n ?_ h, (atoi_range _ n h).2⟩
  intro c hc
  have := List.mem_takeWhile_imp hc
  simpa using this

/-- The regexp split gives at least 1 and at most `k` pieces. -/
theorem whiteSpaceSplit_length (k : Nat) (content : List Nat) (hk : 1 ≤ k) :
    1 ≤ (whiteSpaceSplit k content).length ∧ (whiteSpaceSplit k content).length ≤ k := by
  induction k generalizing content with
  | zero => omega
  | succ k ih =>
    cases k with
    | zero => simp [whiteSpaceSplit]
    | succ k =>
      rw [whiteSpaceSplit]
      cases hc : cutAtSpace content with
      | mk piece rest =>
        cases rest with
        | none => simp
        | some t =>
          have := ih t (by omega)
          simp only [List.length_cons]
          omega

/-- The loop of `parseFaceVertices` on the fields `spl`, the first of which
is field `i`: it touches the slots `i, ..., i + len(spl) - 1` only, and
nothing but the index array. -/
theorem parseFaceVerticesLoop_slots (spl : List (List Nat)) (i : Nat) (f : Face F) :
    (parseFaceVerticesLoop spl i f).VertexIndices.length = f.VertexIndices.length ∧
      (parseFaceVerticesLoop spl i f).MaterialIndex = f.MaterialIndex ∧
      (parseFaceVerticesLoop spl i f).TextureCoordinates = f.TextureCoordinates ∧
      ∀ j, (j < i ∨ i + spl.length ≤ j) →
        (parseFaceVerticesLoop spl i f).VertexIndices.getD j 0 = f.VertexIndices.getD j 0 := by
  induction spl generalizing i f with
  | nil => simp [parseFaceVerticesLoop]
  | cons field spl ih =>
    rw [parseFaceVerticesLoop]
    cases ha : atoi field with
    | none =>
      simp only
      obtain ⟨h1, h2, h3, h4⟩ := ih (i + 1) f
      refine ⟨h1, h2, h3, ?_⟩
      intro j hj
      exact h4 j (by simp only [List.length_cons] at hj; omega)
    | some num =>
      simp only
      obtain ⟨h1, h2, h3, h4⟩ := ih (i + 1) { f with VertexIndices := f.VertexIndices.set i num }
      refine ⟨by simpa using h1, h2, h3, ?_⟩
      intro j hj
      rw [h4 j (by simp only [List.length_cons] at hj; omega)]
      simp only [List.getD_eq_getElem?_getD]
      rw [List.getElem?_set_ne (by simp only [List.length_cons] at hj; omega)]

theorem parseFaceUvCoordinatesLoop_length (env : Env F) (k p : Nat) (coords : List F)
    (st : mqoState) :
    (parseFaceUvCoordinatesLoop env k p coords st).1.length = coords.length := by
  induction k generalizing p coords st with
  | zero => rfl
  | succ k ih =>
    rw [parseFaceUvCoordinatesLoop]
    cases (st.skipSpace.readFloat env).1 with
    | none => rfl
    | some c => simp only [ih, List.length_set]

/-- Every handler of the face arguments keeps `FaceInv`. -/
theorem faceFunc_inv (env : Env F) (n : Int) (hn : 0 ≤ n) (hn' : n < (2 : Int) ^ 63)
    (name : List Nat) (faceFunc : Face F → Int → List Nat → Res (Face F × Bool)) (f : Face F)
    (content : List Nat) (r : Face F × Bool) (hfn : faceArgumentFuncs env name = some faceFunc)
    (hf : FaceInv n f) (hr : faceFunc f n content = Res.ok r) : FaceInv n r.1 := by
  obtain ⟨h1, h2, h3⟩ := hf
  rcases faceArgumentFuncs_cases env name faceFunc hfn with rfl | rfl | rfl
  · unfold parseFaceVertices at hr
    dsimp only at hr
    split_ifs at hr with hlen
    · simp only [Res.ok.injEq] at hr
      subst hr
      exact ⟨h1, h2, h3⟩
    · simp only [Res.ok.injEq] at hr
      subst hr
      obtain ⟨g1, -, g3, g4⟩ := parseFaceVerticesLoop_slots (whiteSpaceSplit 4 content) 0 f
      refine ⟨by rw [g1, h1], ?_, by rw [g3]; exact h3⟩
      intro j hj hnj
      rw [g4 j (Or.inr (by
        simp only [ne_eq, not_not] at hlen
        omega))]
      exact h2 j hj hnj
  · unfold parseFaceMaterial at hr
    dsimp only at hr
    split at hr
    · simp only [Res.ok.injEq] at hr
      subst hr
      exact ⟨h1, h2, h3⟩
    · simp only [Res.ok.injEq] at hr
      subst hr
      exact ⟨h1, h2, h3⟩
  · unfold parseFaceUvCoordinates at hr
    dsimp only at hr
    split_ifs at hr with hneg
    simp only [Res.ok.injEq] at hr
    subst hr
    refine ⟨h1, h2, ?_⟩
    intro cs hcs
    simp only [Option.some.injEq] at hcs
    subst hcs
    rw [parseFaceUvCoordinatesLoop_length, List.length_replicate]
    omega

theorem FaceInv_sentinel (n : Int) : FaceInv n (Face.sentinel : Face F) := by
  refine ⟨rfl, ?_, fun cs h => by cases h⟩
  intro j hj _
  have : j = 0 ∨ j = 1 ∨ j = 2 ∨ j = 3 := by omega
  rcases this with rfl | rfl | rfl | rfl <;> rfl

/-- Every face line: the face built from it satisfies `FaceInv` for the
declared count, and it is the sentinel face when no count can be read. -/
theorem parseFaceLine_inv (env : Env F) (fuel : Nat) (line : List Nat) (f : Face F)
    (st : mqoState)
    (h : Face.parseFaceLine env fuel Face.sentinel (mqoState.init line) = Res.ok (f, st)) :
    (declaredCount line = none → f = Face.sentinel) ∧
      ∀ n, declaredCount line = some n → FaceInv n f := by
  unfold Face.parseFaceLine at h
  rw [readPositiveInteger_count] at h
  cases hc : declaredCount line with
  | none =>
    simp only [hc, Res.ok.injEq, Prod.mk.injEq] at h
    exact ⟨fun _ => h.1.symm, fun n hn => (by cases hn)⟩
  | some n =>
    simp only [hc] at h
    refine ⟨fun hn => (by cases hn), ?_⟩
    intro n' hn'
    cases hn'
    obtain ⟨h0, h63⟩ := declaredCount_range line n hc
    exact parseFaceLineLoop_invariant env n (FaceInv n)
      (fun name faceFunc f content r hfn hf hr =>
        faceFunc_inv env n h0 h63 name faceFunc f content r hfn hf hr)
      fuel Face.sentinel _ (f, st) (FaceInv_sentinel n) h

/-- Every face line: `parseFaceLine` returns or panics once its budget
exceeds the length of the line. -/
theorem parseFaceLine_terminates (env : Env F) (fuel : Nat) (line : List Nat) (f : Face F)
    (hfuel : line.length < fuel) :
    Face.parseFaceLine env fuel f (mqoState.init line) ≠ Res.diverge := by
  unfold Face.parseFaceLine
  rw [readPositiveInteger_count]
  cases declaredCount line with
  | none => simp
  | some n =>
    simp only
    apply parseFaceLineLoop_terminates
    simp only
    have h1 := (List.dropWhile_sublist digitChars.contains :
      ((dropLeadingSpace line).dropWhile digitChars.contains).Sublist _).length_le
    have h2 := skipSpace_rest_le (mqoState.init line)
    simp only [dropLeadingSpace, mqoState.init] at h1 h2 ⊢
    omega

theorem faceEnd_le_of_neg (i : Face F) (j : Nat) (hj : j < 4)
    (h : i.VertexIndices.getD j 0 < 0) : faceEnd i ≤ j := by
  have : j = 0 ∨ j = 1 ∨ j = 2 ∨ j = 3 := by omega
  simp only [faceEnd, faceEndLoop]
  rcases this with rfl | rfl | rfl | rfl <;> split_ifs <;> omega

/-- With `FaceInv n`, the populated count is at most `n`. -/
theorem faceEnd_le_count (n : Int) (hn : 0 ≤ n) (f : Face F) (hf : FaceInv n f) :
    (faceEnd f : Int) ≤ n := by
  by_cases h4 : 4 ≤ n
  · have := faceEnd_le f
    omega
  · have hj := hf.2.1 n.toNat (by omega) (by omega)
    have := faceEnd_le_of_neg f n.toNat (by omega) (by rw [hj]; decide)
    omega

/-! ## The populated prefix of the index array -/

/-- A well-formed face line gives the face it describes. -/
theorem parseFaceLine_face (env : Env F) (fuel : Nat) (hfuel : 4 ≤ fuel) (p : List Nat)
    (l : FaceLine F) (hl : l.Valid env) :
    Face.parseFaceLine env fuel Face.sentinel ⟨p, l.text⟩ = Res.ok (l.face, ⟨[], []⟩) := by
  obtain ⟨k, rfl⟩ : ∃ k, fuel = k + 4 := ⟨fuel - 4, by omega⟩
  obtain ⟨h0, hcount, hatoi, hn4, hV, hf0, hmore, -, -, -⟩ := id hl
  have hc : 0x29 ∉ l.field0 ++ moreFieldsText l.more := by
    simp only [List.mem_append, not_or]
    exact ⟨atoi_not_mem_paren _ _ hf0, moreFieldsText_not_mem_paren _ hmore⟩
  obtain ⟨b, t, hbt, hlt, hsp, hp⟩ := atoi_head _ _ hf0
  have hac : argContent (l.field0 ++ moreFieldsText l.more) =
      l.field0 ++ moreFieldsText l.more := by
    have := argContent_blank [] (t ++ moreFieldsText l.more) b Blank.nil hlt hsp hp
    rwa [List.nil_append, ← List.cons_append, ← hbt] at this
  have hf : faceArgumentFuncs env (bytes "V") =
      some (parseFaceVertices : Face F → Int → List Nat → Res (Face F × Bool)) := by
    unfold faceArgumentFuncs
    rw [if_pos rfl]
  unfold Face.parseFaceLine FaceLine.text
  rw [readPositiveInteger_skipSpace,
    readPositiveInteger_lexeme p l.ws0 l.count _ h0 (atoi_ne_nil _ _ hatoi) hcount
      (by
        have := digitStop_blank_byte l.wsV ((bytes "V").tail ++ 0x28 ::
          ((l.field0 ++ moreFieldsText l.more) ++ 0x29 ::
            (l.mText ++ (l.uvArgText ++ l.wsEnd)))) 0x56 hV (by decide)
        exact this)]
  simp only [hatoi]
  rw [parseFaceLineLoop_arg env _ (k + 3) _ [] l.wsV (bytes "V") _ _ hV
    (WordRunes_of_ascii env _ (by decide)) (by decide) hc]
  simp only [hf]
  rw [hac]
  have hvert := parseFaceVertices_fields (Face.sentinel : Face F) l.field0 l.index0 l.more
    [-1, -1, -1, -1] hf0 hmore hn4 rfl rfl
  unfold FaceLine.n at hn4 ⊢
  rw [hvert]
  simp only [Res.bind, Bool.false_eq_true, if_false]
  have := parseFaceLineLoop_m env l hl k
    { (Face.sentinel : Face F) with VertexIndices :=
      ((l.index0 :: l.more.map (fun sf => sf.2.2)) ++
        List.drop (l.more.length + 1) [-1, -1, -1, -1]) }
  unfold FaceLine.n at this
  rw [this]
  have hdrop : List.drop (l.more.length + 1) ([-1, -1, -1, -1] : List Int) =
      List.replicate (4 - (l.more.length + 1)) (-1) := by
    have : l.more.length = 0 ∨ l.more.length = 1 ∨ l.more.length = 2 ∨ l.more.length = 3 := by
      omega
    rcases this with h | h | h | h <;> rw [h] <;> rfl
  simp only [FaceLine.face, FaceLine.n, hdrop, Face.sentinel]
theorem PopulatedPrefix_face (l : FaceLine F) (hn : l.n ≤ 4) (h0 : 0 ≤ l.index0)
    (hmore : ∀ sf ∈ l.more, 0 ≤ sf.2.2) : PopulatedPrefix l.face.VertexIndices l.n := by
  have hlen : (l.index0 :: l.more.map (fun sf => sf.2.2)).length = l.n := by
    simp [FaceLine.n]
  refine ⟨hn, ?_, ?_⟩
  · intro j hj
    simp only [FaceLine.face, List.getD_eq_getElem?_getD]
    rw [List.getElem?_append_left (by rw [hlen]; exact hj)]
    rw [List.getElem?_eq_getElem (by rw [hlen]; exact hj)]
    simp only [Option.getD_some]
    have hmem := List.getElem_mem (l := l.index0 :: l.more.map (fun sf => sf.2.2))
      (by rw [hlen]; exact hj)
    rcases List.mem_cons.mp hmem with h | h
    · rw [h]; exact h0
    · obtain ⟨sf, hsf, e⟩ := List.mem_map.mp h
      rw [← e]
      exact hmore sf hsf
  · intro j hj hj4
    simp only [FaceLine.face, List.getD_eq_getElem?_getD]
    rw [List.getElem?_append_right (by rw [hlen]; exact hj), hlen]
    rw [List.getElem?_replicate]
    simp only [show j - l.n < 4 - l.n by omega, if_true, Option.getD_some]

/-- The amended C14: a well-formed face line whose `V` fields are
non-negative integers gives a face with the contiguous populated prefix
`k = n`: the slots `0, ..., n - 1` hold the indices and the slots
`n, ..., 3` hold `-1`.  For every face line whatsoever the face built has 4
index slots and those from position `n` on, `n` the declared count, hold
`-1`. -/
theorem parseFaceLine_contiguous_indices (env : Env F) (fuel : Nat) (hfuel : 4 ≤ fuel)
    (p : List Nat) (l : FaceLine F) (hl : l.Valid env) (h0 : 0 ≤ l.index0)
    (hmore : ∀ sf ∈ l.more, 0 ≤ sf.2.2) :
    (∃ f, Face.parseFaceLine env fuel Face.sentinel ⟨p, l.text⟩ = Res.ok (f, ⟨[], []⟩) ∧
        PopulatedPrefix f.VertexIndices l.n) ∧
      ∀ (fuel' : Nat) (line : List Nat) (f : Face F) (st : mqoState),
        Face.parseFaceLine env fuel' Face.sentinel (mqoState.init line) = Res.ok (f, st) →
        f.VertexIndices.length = 4 ∧
          ∀ n, declaredCount line = some n →
            ∀ j : Nat, j < 4 → n ≤ (j : Int) → f.VertexIndices.getD j 0 = -1 := by
  refine ⟨⟨l.face, parseFaceLine_face env fuel hfuel p l hl,
    PopulatedPrefix_face l hl.2.2.2.1 h0 hmore⟩, ?_⟩
  intro fuel' line f st h
  obtain ⟨hnone, hsome⟩ := parseFaceLine_inv env fuel' line f st h
  constructor
  · cases hc : declaredCount line with
    | none => rw [hnone hc]; rfl
    | some n => exact (hsome n hc).1
  · intro n hn
    exact (hsome n hn).2.1

/-- The amended C14 at the face lines of `testInput`: `2 V(0 1)` gives the
prefix of length 2 and `3 V(2 3 4) ...` the prefix of length 3. -/
theorem parseFaceLine_contiguous_indices_witness :
    (∃ f, Face.parseFaceLine decimalEnv 4 Face.sentinel ⟨[], testFaceLine0.text⟩ =
        Res.ok (f, ⟨[], []⟩) ∧ PopulatedPrefix f.VertexIndices testFaceLine0.n) ∧
      testFaceLine0.n = 2 ∧ testFaceLine0.text = bytes "2 V(0 1)" ∧
      (∃ f, Face.parseFaceLine decimalEnv 4 Face.sentinel ⟨[], testFaceLine1.text⟩ =
        Res.ok (f, ⟨[], []⟩) ∧ PopulatedPrefix f.VertexIndices testFaceLine1.n) ∧
      testFaceLine1.n = 3 :=
  ⟨(parseFaceLine_contiguous_indices decimalEnv 4 (le_refl 4) [] testFaceLine0
      ⟨Blank.nil, by decide, by decide, by decide, Blank_of_ascii _ (by decide), by decide,
        by decide, fun m hm => (by cases hm), fun uv hu => (by cases hu), Blank.nil⟩
      (by decide) (by decide)).1,
    by decide, by decide,
    (parseFaceLine_contiguous_indices decimalEnv 4 (le_refl 4) [] testFaceLine1
      ⟨Blank.nil, by decide, by decide, by decide, Blank_of_ascii _ (by decide), by decide,
        by decide,
        fun m hm => (by
          cases hm
          exact ⟨Blank_of_ascii _ (by decide), by decide, by decide⟩),
        fun uv hu => (by
          cases hu
          exact ⟨Blank_of_ascii _ (by decide), by decide,
            uv_entries_of_ascii decimalEnv _ (by decide), by decide, Blank.nil⟩),
        Blank.nil⟩
      (by decide) (by decide)).1,
    by decide⟩

/-- C14 fails on malformed `V` fields: `3 V(0  1)` (two spaces) has the
three fields `0`, empty and `1`, and the face built is `0, -1, 1, -1`, a
populated slot after an unpopulated one; `2 V(-5 1)` gives `-5, 1, -1, -1`,
whose first slot is neither valid nor the sentinel. -/
theorem parseFaceLine_index_gap :
    Face.parseFaceLine decimalEnv 4 Face.sentinel (mqoState.init (bytes "3 V(0  1)")) =
        Res.ok (⟨[0, -1, 1, -1], -1, none⟩, ⟨[], []⟩) ∧
      (¬∃ k, PopulatedPrefix [0, -1, 1, -1] k) ∧
      Face.parseFaceLine decimalEnv 4 Face.sentinel (mqoState.init (bytes "2 V(-5 1)")) =
        Res.ok (⟨[-5, 1, -1, -1], -1, none⟩, ⟨[], []⟩) ∧
      ¬∃ k, PopulatedPrefix [-5, 1, -1, -1] k := by
  refine ⟨by decide, ?_, by decide, ?_⟩
  · rintro ⟨k, -, h1, h2⟩
    by_cases hk : k ≤ 1
    · have := h2 2 (by omega) (by omega)
      revert this
      decide
    · have := h1 1 (by omega)
      revert this
      decide
  · rintro ⟨k, -, h1, h2⟩
    by_cases hk : k = 0
    · have := h2 0 (by omega) (by omega)
      revert this
      decide
    · have := h1 0 (by omega)
      revert this
      decide

/-! ## The length of the texture coordinates -/

/-- The loop of `parseFaceUvCoordinates` started on a zeroed buffer: the
coordinates read, then the zeroes left; the error flag tells that fewer than
`k` were read. -/
theorem parseFaceUvCoordinatesLoop_zero_tail (env : Env F) (z : F) (k : Nat) (done : List F)
    (st : mqoState) :
    ∃ vals, vals.length ≤ k ∧
      parseFaceUvCoordinatesLoop env k done.length (done ++ List.replicate k z) st =
        (done ++ vals ++ List.replicate (k - vals.length) z, decide (vals.length < k)) := by
  induction k generalizing done st with
  | zero => exact ⟨[], le_refl _, by simp [parseFaceUvCoordinatesLoop]⟩
  | succ k ih =>
    rw [parseFaceUvCoordinatesLoop]
    cases hr : (st.skipSpace.readFloat env).1 with
    | none => exact ⟨[], by simp, by simp⟩
    | some c =>
      simp only
      rw [set_append_replicate]
      obtain ⟨vals, hl, hv⟩ := ih (done ++ [c]) (st.skipSpace.readFloat env).2
      simp only [List.length_append, List.length_singleton] at hv
      refine ⟨c :: vals, by simp only [List.length_cons]; omega, ?_⟩
      rw [hv]
      simp

theorem skipSpace_init (p r : List Nat) :
    (mqoState.mk p r).skipSpace = (mqoState.init r).skipSpace := by
  unfold mqoState.skipSpace mqoState.init
  exact skipSpaceLoop_pending _ p r

/-- The loop of `parseFaceUvCoordinates` on valid floats followed by input
from which no float can be read. -/
theorem parseFaceUvCoordinatesLoop_then_fails (env : Env F) (z : F)
    (es : List (List Nat × List Nat × F)) (tail : List Nat)
    (hes : ∀ e ∈ es, Blank e.1 ∧ FloatLexeme e.2.1 ∧ env.parseFloat e.2.1 = some e.2.2)
    (hsep : ∀ e ∈ es.tail, e.1 ≠ []) (htail : FloatStop tail)
    (hbad : ((mqoState.init tail).skipSpace.readFloat env).1 = none) (m : Nat)
    (done : List F) (p : List Nat) :
    parseFaceUvCoordinatesLoop env (es.length + (m + 1)) done.length
        (done ++ List.replicate (es.length + (m + 1)) z) ⟨p, uvText es ++ tail⟩ =
      (done ++ es.map (fun e => e.2.2) ++ List.replicate (m + 1) z, true) := by
  induction es generalizing done p with
  | nil =>
    simp only [List.length_nil, zero_add, uvText, List.nil_append, List.map_nil,
      List.append_nil]
    rw [parseFaceUvCoordinatesLoop, skipSpace_init, hbad]
  | cons e es' ih =>
    obtain ⟨hb, hl, hp⟩ := hes e (List.mem_cons_self _ _)
    have hes' : ∀ e ∈ es', Blank e.1 ∧ FloatLexeme e.2.1 ∧ env.parseFloat e.2.1 = some e.2.2 :=
      fun x hx => hes x (List.mem_cons_of_mem _ hx)
    have hstop : FloatStop (uvText es' ++ tail) := by
      cases es' with
      | nil => simpa [uvText] using htail
      | cons e' es'' =>
        have hne := hsep e' (by simp)
        simp only [uvText, List.append_assoc]
        exact FloatStop_blank _ _ (hes' e' (List.mem_cons_self _ _)).1 hne
    have e1 : uvText (e :: es') ++ tail = e.1 ++ (e.2.1 ++ (uvText es' ++ tail)) := by
      simp only [uvText, List.append_assoc]
    have e2 : (e :: es').length + (m + 1) = (es'.length + (m + 1)) + 1 := by
      simp only [List.length_cons]
      omega
    rw [e1, e2, parseFaceUvCoordinatesLoop, readFloat_lexeme env p e.1 e.2.1 _ hb hl hstop]
    simp only [hp]
    rw [set_append_replicate]
    have := ih hes' (fun x hx => hsep x (by
      cases es' with
      | nil => simp at hx
      | cons a b => exact List.mem_of_mem_tail hx)) (done ++ [e.2.2]) []
    simp only [List.length_append, List.length_singleton] at this
    rw [this]
    simp

theorem uvLength_wrap (n : Nat) (hn : n < 2 ^ 62) :
    ((n : Int) * 2 + 2 ^ 63) % 2 ^ 64 - 2 ^ 63 = ((2 * n : Nat) : Int) := by
  push_cast
  omega

/-- C15: for every face line, if the face built from it (sentinel face, then
`parseFaceLine`) has texture coordinates, the line has a declared count `n`
and the coordinates number exactly `2n`; the run of `parseFaceLine` ends once
its budget exceeds the length of the line.  The handler fills a zeroed buffer
of length `2n` from the front: it leaves the coordinates read followed by
zeroes, `2n` in all, and reports an error exactly when fewer than `2n` were
read; in particular after `j < 2n` valid floats followed by input from which
no float can be read the buffer holds their `j` values and `2n - j` zeroes. -/
theorem parseFaceLine_uv_length (env : Env F) (fuel : Nat) (line : List Nat) (f : Face F)
    (st : mqoState) (cs : List F)
    (h : Face.parseFaceLine env fuel Face.sentinel (mqoState.init line) = Res.ok (f, st))
    (hcs : f.TextureCoordinates = some cs) :
    (∃ n, declaredCount line = some n ∧ (cs.length : Int) = 2 * n) ∧
      (∀ fuel', line.length < fuel' →
        Face.parseFaceLine env fuel' Face.sentinel (mqoState.init line) ≠ Res.diverge) ∧
      (∀ (g : Face F) (n : Nat) (content : List Nat), n < 2 ^ 62 →
        ∃ vals, vals.length ≤ 2 * n ∧
          parseFaceUvCoordinates env g (n : Int) content =
            Res.ok (⟨g.VertexIndices, g.MaterialIndex,
              some (vals ++ List.replicate (2 * n - vals.length) env.zero)⟩,
              decide (vals.length < 2 * n))) ∧
      ∀ (g : Face F) (n : Nat) (es : List (List Nat × List Nat × F)) (tail : List Nat),
        n < 2 ^ 62 →
        (∀ e ∈ es, Blank e.1 ∧ FloatLexeme e.2.1 ∧ env.parseFloat e.2.1 = some e.2.2) →
        (∀ e ∈ es.tail, e.1 ≠ []) → FloatStop tail → es.length < 2 * n →
        ((mqoState.init tail).skipSpace.readFloat env).1 = none →
        parseFaceUvCoordinates env g (n : Int) (uvText es ++ tail) =
          Res.ok (⟨g.VertexIndices, g.MaterialIndex,
            some (es.map (fun e => e.2.2) ++ List.replicate (2 * n - es.length) env.zero)⟩,
            true) := by
  refine ⟨?_, fun fuel' hf => parseFaceLine_terminates env fuel' line _ hf, ?_, ?_⟩
  · obtain ⟨hnone, hsome⟩ := parseFaceLine_inv env fuel line f st h
    cases hc : declaredCount line with
    | none =>
      rw [hnone hc] at hcs
      cases hcs
    | some n => exact ⟨n, rfl, (hsome n hc).2.2 cs hcs⟩
  · intro g n content hn
    obtain ⟨vals, hl, hv⟩ := parseFaceUvCoordinatesLoop_zero_tail env env.zero (2 * n) []
      (mqoState.init content)
    refine ⟨vals, hl, ?_⟩
    unfold parseFaceUvCoordinates
    simp only [uvLength_wrap n hn]
    rw [if_neg (by omega)]
    simp only [Int.toNat_ofNat]
    simp only [List.length_nil, List.nil_append] at hv
    rw [hv]
  · intro g n es tail hn hes hsep htail hlt hbad
    obtain ⟨m, hm⟩ : ∃ m, 2 * n = es.length + (m + 1) := ⟨2 * n - es.length - 1, by omega⟩
    have := parseFaceUvCoordinatesLoop_then_fails env env.zero es tail hes hsep htail hbad m [] []
    simp only [List.length_nil, List.nil_append] at this
    unfold parseFaceUvCoordinates
    simp only [uvLength_wrap n hn]
    rw [if_neg (by omega)]
    simp only [Int.toNat_ofNat, mqoState.init]
    rw [hm, this]
    simp

/-- C15 at concrete lines: `2 V(0 1) UV(0.5 x)` (a malformed float) gives
the coordinates `0.5, 0, 0, 0` and `2 UV(1 2)` (too few floats) gives
`1, 2, 0, 0`, 4 in each case. -/
theorem parseFaceLine_uv_length_witness :
    Face.parseFaceLine decimalEnv 4 Face.sentinel (mqoState.init (bytes "2 V(0 1) UV(0.5 x)")) =
        Res.ok (⟨[0, 1, -1, -1], -1, some [⟨5, 1⟩, ⟨0, 0⟩, ⟨0, 0⟩, ⟨0, 0⟩]⟩, ⟨[], []⟩) ∧
      (∃ n, declaredCount (bytes "2 V(0 1) UV(0.5 x)") = some n ∧
        (([⟨5, 1⟩, ⟨0, 0⟩, ⟨0, 0⟩, ⟨0, 0⟩] : List Decimal).length : Int) = 2 * n) ∧
      declaredCount (bytes "2 V(0 1) UV(0.5 x)") = some 2 ∧
      Face.parseFaceLine decimalEnv 4 Face.sentinel (mqoState.init (bytes "2 UV(1 2)")) =
        Res.ok (⟨[-1, -1, -1, -1], -1, some [⟨1, 0⟩, ⟨2, 0⟩, ⟨0, 0⟩, ⟨0, 0⟩]⟩, ⟨[], []⟩) ∧
      parseFaceUvCoordinates decimalEnv Face.sentinel ((2 : Nat) : Int)
          (uvText [(([] : List Nat), bytes "0.5", (⟨5, 1⟩ : Decimal))] ++ bytes " x") =
        Res.ok (⟨[-1, -1, -1, -1], -1,
          some ([(([] : List Nat), bytes "0.5", (⟨5, 1⟩ : Decimal))].map (fun e => e.2.2) ++
            List.replicate (2 * 2 - 1) decimalEnv.zero)⟩, true) :=
  ⟨by decide,
    (parseFaceLine_uv_length decimalEnv 4 (bytes "2 V(0 1) UV(0.5 x)")
      ⟨[0, 1, -1, -1], -1, some [⟨5, 1⟩, ⟨0, 0⟩, ⟨0, 0⟩, ⟨0, 0⟩]⟩ ⟨[], []⟩ _ (by decide) rfl).1,
    by decide, by decide,
    (parseFaceLine_uv_length decimalEnv 4 (bytes "2 V(0 1) UV(0.5 x)")
      ⟨[0, 1, -1, -1], -1, some [⟨5, 1⟩, ⟨0, 0⟩, ⟨0, 0⟩, ⟨0, 0⟩]⟩ ⟨[], []⟩ _ (by decide)
      rfl).2.2.2 Face.sentinel 2 [([], bytes "0.5", ⟨5, 1⟩)] (bytes " x") (by decide)
      (uv_entries_of_ascii decimalEnv _ (by decide)) (by decide)
      (fun b hb => (by cases hb; decide)) (by decide) (by decide)⟩

/-! ## The populated count of a parsed face -/

theorem vtLines_length : ∀ coords : List F, (vtLines coords).length = coords.length / 2
  | [] => by simp [vtLines]
  | [_] => by simp [vtLines]
  | s :: t :: rest => by
    simp only [vtLines, List.length_cons, vtLines_length rest]
    omega

theorem mem_uvIndexPairs (i : Face F) (vertexOffset s x : Int) (start n : Nat)
    (h : Print.index x ∈ uvIndexPairs i vertexOffset s start n) :
    ∃ j, start ≤ j ∧ j < start + n ∧ x = (j : Int) + s := by
  simp only [uvIndexPairs, List.mem_flatMap, List.mem_range', List.mem_cons,
    List.mem_singleton, List.not_mem_nil, or_false] at h
  obtain ⟨j, ⟨k, hk, rfl⟩, hx⟩ := h
  rcases hx with hx | hx
  · cases hx
  · simp only [Print.index.injEq] at hx
    exact ⟨start + 1 * k, by omega, by omega, hx⟩

/-- C20: for every face line, the face built from it (sentinel face, then
`parseFaceLine`) has 4 index slots and a populated count, as the writer
computes it, that is at most the declared count `n` (0 when no count can be
read) and, when texture coordinates are present, at most half their number,
which is even.  The regexp split of a `V` content has at most 4 fields, so
`parseFaceVertices` writes the slots 0, ..., 3 only.  On the writer that
never fails `writeObjFaceWithUvCoordinates` writes for such a face its
`len/2` lines `vt`, then `f ` and the index pairs, and every UV index in
these pairs lies in `s, ..., s + len/2 - 1`, the numbers of the `vt` lines
of this face when `s` is the number of the first. -/
theorem parseFaceLine_populated_count (env : Env F) (fuel : Nat) (line : List Nat)
    (f : Face F) (st : mqoState)
    (h : Face.parseFaceLine env fuel Face.sentinel (mqoState.init line) = Res.ok (f, st)) :
    f.VertexIndices.length = 4 ∧
      (∀ n, declaredCount line = some n → (faceEnd f : Int) ≤ n) ∧
      (declaredCount line = none → faceEnd f = 0) ∧
      (∀ cs, f.TextureCoordinates = some cs →
        cs.length % 2 = 0 ∧ faceEnd f ≤ cs.length / 2) ∧
      (∀ content, 1 ≤ (whiteSpaceSplit 4 content).length ∧
        (whiteSpaceSplit 4 content).length ≤ 4) ∧
      ∀ cs, f.TextureCoordinates = some cs → ∀ (out : List (Print F)) (vertexOffset s : Int),
        writeObjFaceWithUvCoordinates bufferWriter out f (faceEnd f) vertexOffset s =
            (out ++ (vtLines cs ++ Print.f :: uvIndexPairs f vertexOffset s 0 (faceEnd f)),
              Status.ok) ∧
          (vtLines cs).length = cs.length / 2 ∧
          ∀ x, Print.index x ∈ uvIndexPairs f vertexOffset s 0 (faceEnd f) →
            s ≤ x ∧ x < s + ((cs.length / 2 : Nat) : Int) := by
  obtain ⟨hnone, hsome⟩ := parseFaceLine_inv env fuel line f st h
  have hcount : ∀ n, declaredCount line = some n → (faceEnd f : Int) ≤ n := by
    intro n hn
    exact faceEnd_le_count n (declaredCount_range line n hn).1 f (hsome n hn)
  have htc : ∀ cs, f.TextureCoordinates = some cs →
      cs.length % 2 = 0 ∧ faceEnd f ≤ cs.length / 2 := by
    intro cs hcs
    cases hc : declaredCount line with
    | none =>
      rw [hnone hc] at hcs
      cases hcs
    | some n =>
      have h1 := (hsome n hc).2.2 cs hcs
      have h2 := hcount n hc
      omega
  refine ⟨?_, hcount, ?_, htc, fun content => whiteSpaceSplit_length 4 content (by omega), ?_⟩
  · cases hc : declaredCount line with
    | none => rw [hnone hc]; rfl
    | some n => exact (hsome n hc).1
  · intro hc
    rw [hnone hc]
    rfl
  · intro cs hcs out vertexOffset s
    obtain ⟨heven, hle⟩ := htc cs hcs
    refine ⟨writeObjFaceWithUvCoordinates_buffer out f cs _ _ _ hcs heven,
      vtLines_length cs, ?_⟩
    intro x hx
    obtain ⟨j, -, hj, rfl⟩ := mem_uvIndexPairs f vertexOffset s x 0 _ hx
    omega

/-- C20 at the second face line of `testInput`: the count is 3, the declared
count is 3, there are 6 coordinates, and with `s = 4` the face is written as
3 `vt` lines and `f 3/4 4/5 5/6 `. -/
theorem parseFaceLine_populated_count_witness :
    Face.parseFaceLine decimalEnv 4 Face.sentinel
        (mqoState.init (bytes "3 V(2 3 4) M(1) UV(0.0 1.0 0.5 0.5 0.25 0.25)")) =
      Res.ok (⟨[2, 3, 4, -1], 1, some [⟨0, 0⟩, ⟨1, 0⟩, ⟨5, 1⟩, ⟨5, 1⟩, ⟨25, 2⟩, ⟨25, 2⟩]⟩,
        ⟨[], []⟩) ∧
    declaredCount (bytes "3 V(2 3 4) M(1) UV(0.0 1.0 0.5 0.5 0.25 0.25)") = some 3 ∧
    ((faceEnd (⟨[2, 3, 4, -1], 1,
        some [⟨0, 0⟩, ⟨1, 0⟩, ⟨5, 1⟩, ⟨5, 1⟩, ⟨25, 2⟩, ⟨25, 2⟩]⟩ : Face Decimal) : Nat) : Int) ≤ 3 ∧
    writeObjFaceWithUvCoordinates bufferWriter []
        (⟨[2, 3, 4, -1], 1, some [⟨0, 0⟩, ⟨1, 0⟩, ⟨5, 1⟩, ⟨5, 1⟩, ⟨25, 2⟩, ⟨25, 2⟩]⟩ :
          Face Decimal) 3 0 4 =
      ([Print.vt ⟨0, 0⟩ ⟨1, 0⟩, Print.vt ⟨5, 1⟩ ⟨5, 1⟩, Print.vt ⟨25, 2⟩ ⟨25, 2⟩, Print.f,
        Print.indexSlash 3, Print.index 4, Print.indexSlash 4, Print.index 5,
        Print.indexSlash 5, Print.index 6], Status.ok) :=
  ⟨by decide, by decide,
    (parseFaceLine_populated_count decimalEnv 4
      (bytes "3 V(2 3 4) M(1) UV(0.0 1.0 0.5 0.5 0.25 0.25)") _ ⟨[], []⟩ (by decide)).2.1 3
      (by decide),
    by decide⟩

/-! ## Blank lines in a face block -/

/-- After `skipSpace`, `readLine` never returns the empty line: it panics at
the end of input and returns at least one byte otherwise. -/
theorem skipSpace_readLine_ne_nil (st : mqoState) (line : List Nat) (st' : mqoState)
    (h : st.skipSpace.readLine = Res.ok (line, st')) : line ≠ [] := by
  have hp := skipSpace_pending st
  have hs := skipSpace_rest_not_space st
  generalize st.skipSpace = s at h hp hs
  obtain ⟨p, r⟩ := s
  simp only at hp hs
  subst hp
  rw [readLine_spec, List.nil_append] at h
  unfold readLineFinish at h
  simp only at h
  cases hr : r with
  | nil =>
    rw [hr] at h
    simp at h
  | cons b t =>
    by_cases hb : b = 0x0A
    · subst hb
      rw [hr, decodeRune_ascii _ _ (by decide)] at hs
      exact absurd hs (by decide)
    · have htw : (b :: t).takeWhile (fun b => b != 0x0A) =
          b :: t.takeWhile (fun b => b != 0x0A) := by
        rw [List.takeWhile_cons]
        simp [hb]
      rw [hr, htw] at h
      cases hl : (b :: t.takeWhile (fun b => b != 0x0A)).getLast? with
      | none => simp at hl
      | some c =>
        rw [hl] at h
        simp only [Res.ok.injEq, Prod.mk.injEq] at h
        obtain ⟨hline, -⟩ := h
        rw [← hline]
        split_ifs with hc
        · cases ht : t.takeWhile (fun b => b != 0x0A) with
          | nil =>
            rw [ht] at hl
            simp only [List.getLast?_singleton, Option.some.injEq] at hl
            subst hl
            have hb13 : b = 0x0D := by simpa using hc
            subst hb13
            rw [hr, decodeRune_ascii _ _ (by decide)] at hs
            exact absurd hs (by decide)
          | cons x xs => simp
        · simp
/-- C16 fails on the code: `parseFaces` calls `skipSpace` before each
`readLine`, and that skips a blank line like any whitespace, so the line
read is never empty and the early return is never taken.  On
`blankLineInput` (2 faces declared, a blank line after the first record) the
record after the blank line is parsed into slot 1, which is not the zero
face, with every iteration budget of at least 4. -/
theorem parseFaces_reads_past_blank_line (fuel : Nat) :
    Scene.Parse decimalEnv (fuel + 4) ⟨[], []⟩ blankLineInput =
        Res.ok (none, ⟨[], [⟨bytes "a", [],
          [⟨[0, 1, -1, -1], -1, none⟩, ⟨[2, 3, -1, -1], -1, none⟩]⟩]⟩) ∧
      (⟨[2, 3, -1, -1], -1, none⟩ : Face Decimal) ≠ Face.zero ∧
      ∀ (st : mqoState) (line : List Nat) (st' : mqoState),
        st.skipSpace.readLine = Res.ok (line, st') → line ≠ [] :=
  ⟨Res.below_ok (Parse_mono decimalEnv 4 (fuel + 4) (by omega) _ _) (by decide), by decide,
    skipSpace_readLine_ne_nil⟩

/-! ## The end of an object block -/

/-- C17 fails on the code when the face block comes first: `parseFaces`
leaves the `}` of the face block unread (`parseVertices` reads its own), so
`parseObject` takes it for the end of the object and returns with the vertex
block still ahead; on `faceFirstInput` the object has its face and no
vertex, with every iteration budget of at least 6.  With the vertex block
first both are populated, the object ending at the `}` of the face block
all the same. -/
theorem parseObject_ends_at_face_block (fuel : Nat) :
    Scene.Parse decimalEnv (fuel + 6) ⟨[], []⟩ faceFirstInput =
        Res.ok (none, ⟨[], [⟨bytes "a", [], [⟨[0, 1, -1, -1], -1, none⟩]⟩]⟩) ∧
      Object.parseObject decimalEnv (fuel + 3) ⟨[], [], []⟩ (mqoState.init faceFirstObject) =
        Res.ok (⟨bytes "a", [], [⟨[0, 1, -1, -1], -1, none⟩]⟩,
          ⟨[], bytes "\n\tvertex 2 \x7b\n\t\t0 0 0\n\t\t1 0 0\n\t\x7d\n\x7d\n"⟩) ∧
      Scene.Parse decimalEnv (fuel + 5) ⟨[], []⟩ vertexFirstInput =
        Res.ok (none, ⟨[], [⟨bytes "a",
          [⟨⟨0, 0⟩, ⟨0, 0⟩, ⟨0, 0⟩⟩, ⟨⟨1, 0⟩, ⟨0, 0⟩, ⟨0, 0⟩⟩],
          [⟨[0, 1, -1, -1], -1, none⟩]⟩]⟩) :=
  ⟨Res.below_ok (Parse_mono decimalEnv 6 (fuel + 6) (by omega) _ _) (by decide),
    Res.below_ok (parseObject_mono decimalEnv 3 (fuel + 3) (by omega) _ _) (by decide),
    Res.below_ok (Parse_mono decimalEnv 5 (fuel + 5) (by omega) _ _) (by decide)⟩

/-! ## Partial vertex blocks -/

theorem readFloat_fails (env : Env F) (text p : List Nat) (h : FloatFails env text) :
    ((mqoState.mk p text).skipSpace.readFloat env).1 = none := by
  obtain ⟨ws, l, next, rfl, hws, hl, hnext, hsp, hpf⟩ := h
  unfold mqoState.readFloat
  simp only
  rw [readChars_skipSpace, readChars_spec floatChars floatChars_lt,
    skipSpace_blank_stop p ws (l ++ next) hws hsp]
  simp only
  rw [(takeWhile_contains_append floatChars l next hl hnext).1, hpf]

theorem parseVerticesLoop_length (env : Env F) (k i : Nat) (vertices : List (Vertex F))
    (st : mqoState) : (parseVerticesLoop env k i vertices st).1.length = vertices.length := by
  induction k generalizing i vertices st with
  | zero => rfl
  | succ k ih =>
    rw [parseVerticesLoop]
    dsimp only
    split
    · rfl
    · split
      · rfl
      · split
        · rfl
        · rw [ih, List.length_set]

/-- The entry loop of `parseVertices` at an entry with a coordinate that
fails to parse: it returns early and leaves the vertices as they are. -/
theorem parseVerticesLoop_bad (env : Env F) (good : List (List Nat × List Nat × F))
    (bad : List Nat) (hbad : BadEntry env good bad) (k i : Nat) (vertices : List (Vertex F))
    (p : List Nat) :
    (parseVerticesLoop env (k + 1) i vertices ⟨p, uvText good ++ bad⟩).1 = vertices ∧
      (parseVerticesLoop env (k + 1) i vertices ⟨p, uvText good ++ bad⟩).2.2 = false := by
  obtain ⟨hlen, hgood, hsep, hstop, hfail⟩ := hbad
  rw [parseVerticesLoop]
  match good, hlen, hgood, hsep, hstop with
  | [], _, _, _, _ =>
    simp only [uvText, List.nil_append]
    rw [readFloat_fails env bad p hfail]
    exact ⟨rfl, rfl⟩
  | [a], _, hgood, _, hstop =>
    obtain ⟨ha, hla, hpa⟩ := hgood a (List.mem_cons_self _ _)
    have e : uvText [a] ++ bad = a.1 ++ (a.2.1 ++ bad) := by simp [uvText]
    rw [e, readFloat_lexeme env p a.1 a.2.1 bad ha hla (hstop (by simp))]
    simp only [hpa]
    rw [readFloat_fails env bad [] hfail]
    exact ⟨rfl, rfl⟩
  | [a, b], _, hgood, hsep, hstop =>
    obtain ⟨ha, hla, hpa⟩ := hgood a (List.mem_cons_self _ _)
    obtain ⟨hb, hlb, hpb⟩ := hgood b (by simp)
    have hbne : b.1 ≠ [] := hsep b (by simp)
    have e : uvText [a, b] ++ bad = a.1 ++ (a.2.1 ++ (b.1 ++ (b.2.1 ++ bad))) := by
      simp [uvText]
    rw [e, readFloat_lexeme env p a.1 a.2.1 _ ha hla (FloatStop_blank _ _ hb hbne)]
    simp only [hpa]
    rw [readFloat_lexeme env [] b.1 b.2.1 bad hb hlb (hstop (by simp))]
    simp only [hpb]
    rw [readFloat_fails env bad [] hfail]
    exact ⟨rfl, rfl⟩
  | _ :: _ :: _ :: _, hlen, _, _, _ => simp at hlen; omega

/-- The entry loop of `parseVertices` on well-formed entries followed by
further input: the entries are stored and the loop goes on with the rest. -/
theorem parseVerticesLoop_entries_then (env : Env F) (z : Vertex F)
    (es : List (VertexEntry × Vertex F)) (tail : List Nat)
    (hes : ∀ e ∈ es, e.1.Valid env e.2) (hsep : ∀ e ∈ es.tail, e.1.wsX ≠ [])
    (htail : es ≠ [] → FloatStop tail) (m : Nat) (done : List (Vertex F)) :
    parseVerticesLoop env (es.length + m) done.length
        (done ++ List.replicate (es.length + m) z)
        ⟨[], entriesText (es.map (fun e => e.1)) ++ tail⟩ =
      parseVerticesLoop env m (done.length + es.length)
        (done ++ es.map (fun e => e.2) ++ List.replicate m z) ⟨[], tail⟩ := by
  induction es generalizing done with
  | nil => simp [entriesText]
  | cons e es' ih =>
    obtain ⟨hX, hY, hYne, hZ, hZne, lX, lY, lZ, pX, pY, pZ⟩ := hes e (List.mem_cons_self _ _)
    have hes' : ∀ e ∈ es', e.1.Valid env e.2 := fun x hx => hes x (List.mem_cons_of_mem _ hx)
    have hsep' : ∀ e ∈ es', e.1.wsX ≠ [] := fun x hx => hsep x (by simpa using hx)
    have hstop := FloatStop_entries env es' tail hes' hsep' (htail (by simp))
    have e1 : entriesText ((e :: es').map (fun e => e.1)) ++ tail =
        e.1.wsX ++ (e.1.X ++ (e.1.wsY ++ (e.1.Y ++ (e.1.wsZ ++ (e.1.Z ++
          (entriesText (es'.map (fun e => e.1)) ++ tail)))))) := by
      simp only [List.map_cons, entriesText, VertexEntry.text, List.append_assoc]
    have rX := readFloat_lexeme env [] e.1.wsX e.1.X
      (e.1.wsY ++ (e.1.Y ++ (e.1.wsZ ++ (e.1.Z ++
        (entriesText (es'.map (fun e => e.1)) ++ tail))))) hX lX (FloatStop_blank _ _ hY hYne)
    have rY := readFloat_lexeme env [] e.1.wsY e.1.Y
      (e.1.wsZ ++ (e.1.Z ++ (entriesText (es'.map (fun e => e.1)) ++ tail))) hY lY
      (FloatStop_blank _ _ hZ hZne)
    have rZ := readFloat_lexeme env [] e.1.wsZ e.1.Z
      (entriesText (es'.map (fun e => e.1)) ++ tail) hZ lZ hstop
    have e2 : (e :: es').length + m = (es'.length + m) + 1 := by
      simp only [List.length_cons]
      omega
    rw [e1, e2, parseVerticesLoop, rX]
    simp only [pX]
    rw [rY]
    simp only [pY]
    rw [rZ]
    simp only [pZ]
    rw [set_append_replicate]
    have := ih hes' (fun x hx => hsep' x (List.mem_of_mem_tail hx))
      (fun _ => htail (by simp)) (done ++ [e.2])
    simp only [List.length_append, List.length_singleton] at this
    rw [this]
    simp only [List.length_cons, List.map_cons, List.append_assoc, List.singleton_append]
    congr 1
    omega
/-- C18: a vertex block whose count `c` and opening `{` are read leaves
`Vertices` with exactly `c` entries, whatever follows.  When the block
holds `j < c` well-formed entries and then an entry with a coordinate that
fails to parse, the entries `0, ..., j - 1` hold the parsed triples and the
entries `j, ..., c - 1` are the zero vertex; `parseVertices` has no error
result. -/
theorem parseVertices_zero_fill (env : Env F) (o : Object F) (p ws0 ds ws1 : List Nat) (c : Nat)
    (es : List (VertexEntry × Vertex F)) (good : List (List Nat × List Nat × F))
    (bad : List Nat) (h0 : Blank ws0) (hds : ∀ x ∈ ds, x ∈ digitChars)
    (hn : atoi ds = some (c : Int)) (h1 : Blank ws1)
    (hes : ∀ e ∈ es, e.1.Valid env e.2) (hsep : ∀ e ∈ es.tail, e.1.wsX ≠ [])
    (hlt : es.length < c) (hbad : BadEntry env good bad)
    (hstop : es ≠ [] → FloatStop (uvText good ++ bad)) :
    (Object.parseVertices env o
        ⟨p, ws0 ++ (ds ++ (ws1 ++ 0x7B ::
          (entriesText (es.map (fun e => e.1)) ++ (uvText good ++ bad))))⟩).1 =
        { o with Vertices := es.map (fun e => e.2) ++
          List.replicate (c - es.length) ⟨env.zero, env.zero, env.zero⟩ } ∧
      ∀ (st : mqoState) (c' : Int), st.skipSpace.readPositiveInteger.1 = some c' →
        (st.skipSpace.readPositiveInteger.2.readWord env).1 = bytes "\x7b" →
        (Object.parseVertices env o st).1.Vertices.length = c'.toNat := by
  constructor
  · have r1 := readPositiveInteger_lexeme p ws0 ds
      (ws1 ++ 0x7B :: (entriesText (es.map (fun e => e.1)) ++ (uvText good ++ bad))) h0
      (atoi_ne_nil ds _ hn) hds (digitStop_blank_byte ws1 _ 0x7B h1 (by decide))
    have r2 : (mqoState.mk [] (ws1 ++ 0x7B ::
        (entriesText (es.map (fun e => e.1)) ++ (uvText good ++ bad)))).readWord env =
        (bytes "\x7b", ⟨[], entriesText (es.map (fun e => e.1)) ++ (uvText good ++ bad)⟩) := by
      rw [readWord_blank env [] ws1 _ h1]
      exact readWord_punct env _ 0x7B _ (by decide)
        (by rw [skipSpace_stop _ _ (by rw [decodeRune_ascii _ _ (by decide)]; rfl)])
    obtain ⟨m, hm⟩ : ∃ m, c = es.length + (m + 1) := ⟨c - es.length - 1, by omega⟩
    have r3 := parseVerticesLoop_entries_then env ⟨env.zero, env.zero, env.zero⟩ es
      (uvText good ++ bad) hes hsep hstop (m + 1) []
    simp only [List.length_nil, List.nil_append, zero_add] at r3
    have r4 := parseVerticesLoop_bad env good bad hbad m es.length
      (es.map (fun e => e.2) ++ List.replicate (m + 1) ⟨env.zero, env.zero, env.zero⟩) []
    unfold Object.parseVertices
    rw [readPositiveInteger_skipSpace, r1]
    simp only [hn, Int.toNat_ofNat]
    rw [r2]
    simp only [ne_eq, not_true_eq_false, if_false]
    rw [hm, r3, r4.2]
    simp only [Bool.false_eq_true, if_false, r4.1]
    rw [show es.length + (m + 1) - es.length = m + 1 by omega]
  · intro st c' hc hw
    unfold Object.parseVertices
    simp only [hc, hw, ne_eq, not_true_eq_false, if_false]
    split_ifs <;> simp only [parseVerticesLoop_length, List.length_replicate]

/-- C18 at `partialVertexBlock`, `3 { 1 2 3 / 4 x 6 / 7 8 9 }`: the vertices
are `(1, 2, 3)`, zero, zero. -/
theorem parseVertices_zero_fill_witness :
    partialVertexBlock = bytes " " ++ (bytes "3" ++ (bytes " " ++ 0x7B ::
        (entriesText ([((⟨bytes "\n\t", bytes "1", bytes " ", bytes "2", bytes " ",
            bytes "3"⟩ : VertexEntry),
          (⟨⟨1, 0⟩, ⟨2, 0⟩, ⟨3, 0⟩⟩ : Vertex Decimal))].map (fun e => e.1)) ++
          (uvText [(bytes "\n\t", bytes "4", (⟨4, 0⟩ : Decimal))] ++
            bytes " x 6\n\t7 8 9\n\x7d\n")))) ∧
      (Object.parseVertices decimalEnv ⟨[], [], []⟩ ⟨[], partialVertexBlock⟩).1 =
        ⟨[], [⟨⟨1, 0⟩, ⟨2, 0⟩, ⟨3, 0⟩⟩, ⟨⟨0, 0⟩, ⟨0, 0⟩, ⟨0, 0⟩⟩, ⟨⟨0, 0⟩, ⟨0, 0⟩, ⟨0, 0⟩⟩],
          []⟩ := by
  have hshape : partialVertexBlock = bytes " " ++ (bytes "3" ++ (bytes " " ++ 0x7B ::
      (entriesText ([((⟨bytes "\n\t", bytes "1", bytes " ", bytes "2", bytes " ",
          bytes "3"⟩ : VertexEntry),
        (⟨⟨1, 0⟩, ⟨2, 0⟩, ⟨3, 0⟩⟩ : Vertex Decimal))].map (fun e => e.1)) ++
        (uvText [(bytes "\n\t", bytes "4", (⟨4, 0⟩ : Decimal))] ++
          bytes " x 6\n\t7 8 9\n\x7d\n")))) := by decide
  refine ⟨hshape, ?_⟩
  rw [hshape]
  exact (parseVertices_zero_fill decimalEnv ⟨[], [], []⟩ [] (bytes " ") (bytes "3") (bytes " ") 3
    [(⟨bytes "\n\t", bytes "1", bytes " ", bytes "2", bytes " ", bytes "3"⟩,
      ⟨⟨1, 0⟩, ⟨2, 0⟩, ⟨3, 0⟩⟩)]
    [(bytes "\n\t", bytes "4", ⟨4, 0⟩)] (bytes " x 6\n\t7 8 9\n\x7d\n")
    (Blank_of_ascii _ (by decide)) (by decide) (by decide) (Blank_of_ascii _ (by decide))
    (by
      intro e he
      simp only [List.mem_singleton] at he
      subst he
      exact VertexEntry.valid_of_ascii decimalEnv _ _ (by decide) (by decide) (by decide)
        (by decide) (by decide) ⟨by decide, by decide⟩ ⟨by decide, by decide⟩
        ⟨by decide, by decide⟩ (by decide) (by decide) (by decide))
    (by simp) (by decide)
    ⟨by decide, uv_entries_of_ascii decimalEnv _ (by decide), by simp,
      fun _ b hb => (by cases hb; decide),
      ⟨bytes " ", [], bytes "x 6\n\t7 8 9\n\x7d\n", by decide, Blank_of_ascii _ (by decide),
        by simp, fun b hb => (by cases hb; decide), by decide, by decide⟩⟩
    (fun _ b hb => (by cases hb; decide))).1

/-! ## The material switch -/

/-- A kept face without a material that comes after a face with one makes
the face loop index `Materials` at `-1`. -/
theorem facesLoop_unset_after_set (w : Writer σ F) (scene : Scene F) (vertexOffset : Int)
    (i : Face F) (rest : List (Face F)) (cm cu : Int) (out : σ) (hk : 2 ≤ faceEnd i)
    (hi : i.MaterialIndex = -1) (hcm : cm ≠ -1) :
    facesLoop w scene vertexOffset (i :: rest) cm cu out = (out, Status.panic, -1, cu) := by
  have hsw : switchMaterial w scene i cm out = (out, Status.panic) := by
    unfold switchMaterial
    rw [hi, if_pos (fun h => hcm h.symm), if_neg (by omega)]
  rw [facesLoop, if_neg (by omega), hsw, hi]

set_option maxRecDepth 100000 in
/-- C19 fails on the code: the tracked material index starts at `-1`, so a
face without a material is only passed over while no face with a material
has been written; after one, its index `-1` differs from the tracked index
and `scene.Materials[-1]` is looked up.  `mixedMaterialInput` parses, with
every budget of at least 8, to a scene whose material indices are all `-1`
or in range, and on it `ConvertMqoObjectsToObj` panics after the first
face. -/
theorem ConvertMqoObjectsToObj_panics_on_unset_material (fuel : Nat) :
    Scene.Parse decimalEnv (fuel + 8) ⟨[], []⟩ mixedMaterialInput =
        Res.ok (none, mixedMaterialScene) ∧
      mixedMaterialScene.materialsInRange = true ∧
      ConvertMqoObjectsToObj bufferWriter [] mixedMaterialScene (bytes "a.mtl") =
        ([Print.mtllib (bytes "a.mtl"), Print.v ⟨0, 0⟩ ⟨0, 0⟩ ⟨0, 0⟩,
          Print.v ⟨1, 0⟩ ⟨0, 0⟩ ⟨0, 0⟩, Print.v ⟨0, 0⟩ ⟨1, 0⟩ ⟨0, 0⟩,
          Print.objectGroup (bytes "a"), Print.usemtl (bytes "m"), Print.f, Print.index 1,
          Print.index 2, Print.index 3, Print.newline], Status.panic) ∧
      ∀ (scene : Scene Decimal) (vertexOffset : Int) (i : Face Decimal)
        (rest : List (Face Decimal)) (cm cu : Int) (out : List (Print Decimal)),
        2 ≤ faceEnd i → i.MaterialIndex = -1 → cm ≠ -1 →
        facesLoop bufferWriter scene vertexOffset (i :: rest) cm cu out =
          (out, Status.panic, -1, cu) :=
  ⟨Res.below_ok (Parse_mono decimalEnv 8 (fuel + 8) (by omega) _ _) (by decide), by decide, by decide,
    fun scene vertexOffset i rest cm cu out =>
      facesLoop_unset_after_set bufferWriter scene vertexOffset i rest cm cu out⟩

/-! ## The vertex offsets -/

end Mqo
